import Mathlib

/-!
# Multi-attribute linear-hashed files

A shallow embedding of `reln.c` and `query.c` and a verification of the
insertion, split and partial-match scan properties of the relation.

Conventions of the embedding.

* The three files of a relation are lists of pages; a page id is an index into
  the list.  A page link that may hold the sentinel `NO_PAGE` has type
  `Option PageID`, the sentinel being `none`, so it never aliases a page id.
* Every function that can abort (a failed `assert`, a read of a page past the
  end of a file, a read of an array entry that was never written, a division by
  zero) or loop for ever (a cyclic overflow chain) returns an `Option`, and
  `none` stands for "no result".  Loops over an overflow chain carry a counter
  bounded by the number of overflow pages plus one: a walk that exhausts it has
  visited a page twice and the C loop does not end.
* `Count` and `Offset` are natural numbers.  Counters that grow by one per
  operation are not reduced modulo the word size; the product `10 * nattrs`,
  which depends on a creation argument only, is reduced modulo `2 ^ 32`.
* Of the heap management only the reads are modelled: an array from `malloc` is
  the list of the entries written so far, and `freeVals`, which reads the
  entries it releases, has no result when one of them was never written.
-/

set_option autoImplicit false

namespace Malh

/-! ## Basic types and constants -/

abbrev Tuple := List Char

/-- Modelled from the spec: the reserved page id `NO_PAGE` of `defs.h`, which
aliases no legal page id. -/
def NO_PAGE : Option Nat := none

/-- Modelled from the spec: the constant `PAGESIZE` of `defs.h` (typical value). -/
def PAGESIZE : Nat := 1024

/-- Modelled from the spec: the constant `MAXCHVEC` of `defs.h`. -/
def MAXCHVEC : Nat := 32

/-- Modelled from the spec: `sizeof(Nat)`, a 32-bit word. -/
def sizeofOffset : Nat := 4

/-- Modelled from the spec: `sizeof(Nat)`, a 32-bit word. -/
def sizeofCount : Nat := 4

/-- The local `hdr_size = 2*sizeof(Nat) + sizeof(Nat)` of `query.c` and `reln.c`. -/
def hdr_size : Nat := 2 * sizeofOffset + sizeofCount

/-- The string terminator. -/
def NUL : Char := Char.ofNat 0

/-! ## Bit operations (`bits.c`) -/

/-- Modelled from the spec: `bitIsSet` of `bits.c`, test bit `i`. -/
def bitIsSet (b : Nat) (i : Nat) : Bool := b.testBit i

/-- Modelled from the spec: `setBit` of `bits.c`, set bit `i`. -/
def setBit (b : Nat) (i : Nat) : Nat := b ||| (1 <<< i)

/-- Modelled from the spec: `getLower` of `bits.c`, the lower `d` bits as an integer. -/
def getLower (b : Nat) (d : Nat) : Nat := b % 2 ^ d

/-! ## Pages (`page.c`) -/

/-- Modelled from the spec: the page of `page.c`, a header `free`, `ovflow`,
`ntuples` followed by a data region of `PAGESIZE - hdr_size` bytes. -/
structure Page where
  free : Nat
  ovflow : Option Nat
  ntuples : Nat
  data : List Char

/-- Modelled from the spec: `newPage` of `page.c`: zero data, nothing stored, no overflow. -/
def newPage : Page :=
  { free := 0, ovflow := NO_PAGE, ntuples := 0, data := List.replicate (PAGESIZE - hdr_size) NUL }

/-- Modelled from the spec: `pageData` of `page.c`. -/
def pageData (p : Page) : List Char := p.data

/-- Modelled from the spec: `pageNTuples` of `page.c`. -/
def pageNTuples (p : Page) : Nat := p.ntuples

/-- Modelled from the spec: `pageOvflow` of `page.c`. -/
def pageOvflow (p : Page) : Option Nat := p.ovflow

/-- Modelled from the spec: `pageSetOvflow` of `page.c`. -/
def pageSetOvflow (p : Page) (pid : Option Nat) : Page := { p with ovflow := pid }

/-- Modelled from the spec: `pageFreeSpace` of `page.c`, `PAGE_SIZE - header_size - free`. -/
def pageFreeSpace (p : Page) : Nat := PAGESIZE - hdr_size - p.free

/-- Modelled from the spec: `addToPage` of `page.c`.  It fails (`none`, the page
unchanged) when `len(t)+1 > free_space(p)`; otherwise it writes `t` and its
terminator at `data[free]` and increments `free` and `ntuples`. -/
def addToPage (p : Page) (t : Tuple) : Option Page :=
  if t.length + 1 > pageFreeSpace p then none
  else some
    { p with
      data := p.data.take p.free ++ (t ++ [NUL]) ++ p.data.drop (p.free + (t.length + 1))
      free := p.free + (t.length + 1)
      ntuples := p.ntuples + 1 }

/-- The page made of zero bytes only, which a file hole reads as. -/
def zeroPage : Page :=
  { free := 0, ovflow := some 0, ntuples := 0, data := List.replicate (PAGESIZE - hdr_size) NUL }

/-- Modelled from the spec: `getPage` of `page.c`; reading past the end of the
file fails its assertion. -/
def getPage (f : List Page) (pid : Nat) : Option Page := f[pid]?

/-- Modelled from the spec: `putPage` of `page.c`, write one block at offset
`pid * PAGESIZE`. -/
def putPage (f : List Page) (pid : Nat) (p : Page) : List Page :=
  if pid < f.length then f.set pid p
  else f ++ List.replicate (pid - f.length) zeroPage ++ [p]

/-- Modelled from the spec: `addPage` of `page.c`, append one empty page and
return its id. -/
def addPage (f : List Page) : List Page × Nat := (putPage f f.length newPage, f.length)

/-! ## Tuples (`tuple.c`), choice vector and relation descriptor -/

/-- Modelled from the spec: an item of the choice vector of `chvec.h`. -/
structure ChVecItem where
  att : Nat
  bit : Nat

/-- Modelled from the spec: the choice vector, an array of `MAXCHVEC` items;
only the entries `0 .. MAXCHVEC-1` are read. -/
abbrev ChVec := Nat → ChVecItem

/-- The relation descriptor `struct RelnRep`; the files `data` and `ovflow` are
the lists of their pages. -/
structure Reln where
  nattrs : Nat
  depth : Nat
  sp : Nat
  npages : Nat
  ntups : Nat
  cv : ChVec
  data : List Page
  ovflow : List Page

def dataFile (r : Reln) : List Page := r.data
def ovflowFile (r : Reln) : List Page := r.ovflow
def nattrs (r : Reln) : Nat := r.nattrs
def npages (r : Reln) : Nat := r.npages
def ntuples (r : Reln) : Nat := r.ntups
def depth (r : Reln) : Nat := r.depth
def splitp (r : Reln) : Nat := r.sp
def chvec (r : Reln) : ChVec := r.cv

/-- Modelled from the spec: `tupleVals` of `tuple.c`, the fields of a
comma-separated tuple. -/
def tupleVals : List Char → List (List Char)
  | [] => [[]]
  | c :: cs =>
    if c = ',' then [] :: tupleVals cs
    else
      match tupleVals cs with
      | [] => [[c]]
      | f :: fs => (c :: f) :: fs

/-- The loop of `tupleHash`: `n` iterations from index `i`. -/
def tupleHashLoop (hash : List Char → Nat) (cv : ChVec) (vals : List (List Char)) :
    Nat → Nat → Nat → Option Nat
  | 0, _, h => some h
  | n + 1, i, h =>
    match vals[(cv i).att]? with
    | none => none
    | some v =>
      tupleHashLoop hash cv vals n (i + 1)
        (if bitIsSet (hash v) (cv i).bit then setBit h i else h)

/-- Modelled from the spec: `tupleHash` of `tuple.c`: bit `k` of the composite
hash is bit `cv[k].bit` of the hash of attribute `cv[k].att`, for `k < MAXCHVEC`.
The byte hash `hash_any` of `hash.c` is the parameter `hash`. -/
def tupleHash (hash : List Char → Nat) (r : Reln) (t : Tuple) : Option Nat :=
  tupleHashLoop hash (chvec r) (tupleVals t) MAXCHVEC 0 0

/-! ## `reln.c` -/

def powOfTwoLoop : Nat → Nat → Nat
  | 0, result => result
  | n + 1, result => powOfTwoLoop n (result * 2)

def powOfTwo (power : Nat) : Nat :=
  if power = 0 then 1 else powOfTwoLoop (power - 1) 2

/-- The `for` loop of `newRelation` adding `n` pages to the data file. -/
def addPages : Nat → List Page → List Page
  | 0, f => f
  | n + 1, f => addPages n (addPage f).1

/-- Create a new relation.  The argument `cv` is the result of `parseChVec`
(`none` when it fails); the result is the relation as stored by `closeRelation`. -/
def newRelation (nattrs npages d : Nat) (cv : Option ChVec) : Option Reln :=
  match cv with
  | none => none
  | some cv =>
    some
      { nattrs := nattrs, depth := d, sp := 0, npages := npages, ntups := 0, cv := cv
        data := addPages npages [], ovflow := [] }

/-- Lines 137-142 of `addTupleToRelation`: the bucket of hash `h`. -/
def bucketOf (h : Nat) (depth : Nat) (sp : Nat) : Nat :=
  if depth = 0 then 0
  else
    let p := getLower h depth
    if p < sp then getLower h (depth + 1) else p

/-- Outcome of the scan of an overflow chain in `addTupleToRelation`. -/
inductive ChainScan where
  | placed (ovp : Nat) (ovpg : Page)
  | full (prevp : Option Nat) (prevpg : Option Page)

/-- The `while (ovp != NO_PAGE)` loop of `addTupleToRelation`. -/
def scanChain (ovflow : List Page) (t : Tuple) :
    Nat → Option Nat → Option Nat → Option Page → Option ChainScan
  | _, none, prevp, prevpg => some (ChainScan.full prevp prevpg)
  | 0, some _, _, _ => none
  | n + 1, some ovp, _, _ =>
    match getPage ovflow ovp with
    | none => none
    | some ovpg =>
      match addToPage ovpg t with
      | none => scanChain ovflow t n (pageOvflow ovpg) (some ovp) (some ovpg)
      | some ovpg1 => some (ChainScan.placed ovp ovpg1)

/-- Insert a tuple: the new relation and the bucket, or `NO_PAGE`. -/
def addTupleToRelation (hash : List Char → Nat) (r : Reln) (t : Tuple) :
    Option (Reln × Option Nat) :=
  match tupleHash hash r t with
  | none => none
  | some h =>
    let p := bucketOf h r.depth r.sp
    match getPage r.data p with
    | none => none
    | some pg =>
      match addToPage pg t with
      | some pg1 =>
        some ({ r with data := putPage r.data p pg1, ntups := r.ntups + 1 }, some p)
      | none =>
        match pageOvflow pg with
        | none =>
          let newp := (addPage r.ovflow).2
          let ovflow1 := (addPage r.ovflow).1
          let data1 := putPage r.data p (pageSetOvflow pg (some newp))
          match getPage ovflow1 newp with
          | none => none
          | some newpg =>
            match addToPage newpg t with
            | none => some ({ r with data := data1, ovflow := ovflow1 }, NO_PAGE)
            | some newpg1 =>
              some ({ r with data := data1, ovflow := putPage ovflow1 newp newpg1,
                             ntups := r.ntups + 1 }, some p)
        | some ovp0 =>
          match scanChain r.ovflow t (r.ovflow.length + 1) (some ovp0) NO_PAGE none with
          | none => none
          | some (ChainScan.placed ovp ovpg1) =>
            some ({ r with ovflow := putPage r.ovflow ovp ovpg1, ntups := r.ntups + 1 }, some p)
          | some (ChainScan.full prevp prevpg) =>
            match prevp, prevpg with
            | some prevp, some prevpg =>
              let newp := (addPage r.ovflow).2
              let ovflow1 := (addPage r.ovflow).1
              match getPage ovflow1 newp with
              | none => none
              | some newpg =>
                match addToPage newpg t with
                | none => some ({ r with ovflow := ovflow1 }, NO_PAGE)
                | some newpg1 =>
                  let ovflow2 := putPage ovflow1 newp newpg1
                  some ({ r with ovflow := putPage ovflow2 prevp (pageSetOvflow prevpg (some newp)),
                                 ntups := r.ntups + 1 }, some p)
            | _, _ => none

/-- The loop of `dataTotupleList`: `cur` holds, reversed, the bytes read since
`curTuple`. -/
def dataTotupleListLoop : List Char → Nat → List Char → List Tuple
  | _, 0, _ => []
  | [], _ + 1, _ => []
  | c :: cs, n + 1, cur =>
    if c = NUL then cur.reverse :: dataTotupleListLoop cs n []
    else dataTotupleListLoop cs n (c :: cur)

/-- The strings that `dataTotupleList` stores in `dest`: one for each NUL among
the first `dataLength` bytes at `t`.  Bytes past the end of the page buffer are
not modelled; the entries they would produce are never among the tuples that
the callers read on a page whose header agrees with its data. -/
def dataTotupleList (t : List Char) (dataLength : Nat) : List Tuple :=
  dataTotupleListLoop t dataLength []

/-- The first counting loop of `pageSplit`; returns `totalTuple` and the final
value of `ovfPageID`. -/
def countChain (ovf : List Page) : Nat → Option Nat → Nat → Option (Nat × Option Nat)
  | _, none, total => some (total, none)
  | 0, some _, _ => none
  | n + 1, some ovfPageID, total =>
    match getPage ovf ovfPageID with
    | none => none
    | some curOvfPage => countChain ovf n (pageOvflow curOvfPage) (total + pageNTuples curOvfPage)

/-- The loops `for (i = 0; i < pageNTuples(curPage); i++) finalTuples[curTuplePos++] = tupleList[i]`. -/
def copyTuples (tupleList : List Tuple) : Nat → Nat → List Tuple → Option (List Tuple)
  | 0, _, finalTuples => some finalTuples
  | n + 1, i, finalTuples =>
    match tupleList[i]? with
    | none => none
    | some t => copyTuples tupleList n (i + 1) (finalTuples ++ [t])

/-- The second loop of `pageSplit`: collect the tuples of every overflow page
and overwrite the page by an empty one with the same link. -/
def clearChain : Nat → List Page → Option Nat → List Tuple → Option (List Page × List Tuple)
  | _, ovf, none, finalTuples => some (ovf, finalTuples)
  | 0, _, some _, _ => none
  | n + 1, ovf, some ovfPageID, finalTuples =>
    match getPage ovf ovfPageID with
    | none => none
    | some curPage =>
      let dataEnd := PAGESIZE - pageFreeSpace curPage - hdr_size
      let tupleList := dataTotupleList (pageData curPage) dataEnd
      match copyTuples tupleList (pageNTuples curPage) 0 finalTuples with
      | none => none
      | some finalTuples1 =>
        let oldOvfPageID := ovfPageID
        let next := pageOvflow curPage
        clearChain n (putPage ovf oldOvfPageID (pageSetOvflow newPage next)) next finalTuples1

/-- The reinsertion loop of `pageSplit`. -/
def reinsert (hash : List Char → Nat) (finalTuples : List Tuple) : Nat → Nat → Reln → Option Reln
  | 0, _, r => some r
  | n + 1, i, r =>
    match finalTuples[i]? with
    | none => none
    | some t =>
      match addTupleToRelation hash r t with
      | none => none
      | some (_, none) => none
      | some (r1, some _) => reinsert hash finalTuples n (i + 1) r1

/-- Split the bucket at the split pointer.  The subtraction on `ntups` is the
truncated one; it is exact whenever `ntups` counts the stored tuples. -/
def pageSplit (hash : List Char → Nat) (r : Reln) : Option Reln :=
  let oldPageID := splitp r
  let r1 : Reln := { r with data := (addPage r.data).1, npages := r.npages + 1 }
  match getPage (dataFile r1) oldPageID with
  | none => none
  | some curPage =>
    match countChain (ovflowFile r1) (r1.ovflow.length + 1) (pageOvflow curPage)
        (pageNTuples curPage) with
    | none => none
    | some (totalTuple, ovfPageID) =>
      let dataEnd := PAGESIZE - pageFreeSpace curPage - hdr_size
      let tupleList := dataTotupleList (pageData curPage) dataEnd
      match copyTuples tupleList (pageNTuples curPage) 0 [] with
      | none => none
      | some finalTuples0 =>
        let data2 := putPage r1.data r1.sp (pageSetOvflow newPage ovfPageID)
        match clearChain (r1.ovflow.length + 1) r1.ovflow (pageOvflow curPage) finalTuples0 with
        | none => none
        | some (ovflow2, finalTuples) =>
          let ntups2 := r1.ntups - totalTuple
          let sp2 := r1.sp + 1
          let r2 : Reln :=
            if sp2 = 2 ^ r1.depth then
              { r1 with data := data2, ovflow := ovflow2, ntups := ntups2,
                        depth := r1.depth + 1, sp := 0 }
            else
              { r1 with data := data2, ovflow := ovflow2, ntups := ntups2, sp := sp2 }
          reinsert hash finalTuples totalTuple 0 r2

/-- The value of `timeToSplit = 1024/(10*n)` in unsigned 32-bit arithmetic. -/
def timeToSplit (n : Nat) : Nat := 1024 / ((10 * n) % 2 ^ 32)

/-- Insert a tuple, splitting first when the tuple count is a non-zero multiple
of `timeToSplit`.  A division or remainder by zero has no result. -/
def addToRelation (hash : List Char → Nat) (r : Reln) (t : Tuple) :
    Option (Reln × Option Nat) :=
  let n := nattrs r
  if (10 * n) % 2 ^ 32 = 0 then none
  else
    if r.ntups ≠ 0 then
      if timeToSplit n = 0 then none
      else
        if r.ntups % timeToSplit n = 0 then
          match pageSplit hash r with
          | none => none
          | some r1 => addTupleToRelation hash r1 t
        else addTupleToRelation hash r t
    else addTupleToRelation hash r t

/-! ## `query.c` -/

/-- The query descriptor `struct QueryRep`. -/
structure Query where
  rel : Reln
  known : Nat
  unknown : Nat
  curpageID : Nat
  curovPageID : Option Nat
  is_ovflow : Bool
  curtup : Nat
  curtupReaded : Nat
  vals : List (List Char)
  result : Option Tuple

/-- The first loop of `startQuery`, filling `unknownAttMap`.  The array comes
from `malloc` and only the entries of wildcard attributes are written: entry
`i` of any other attribute keeps its initial content, `uninit i` (true when it
is non-zero). -/
def unknownAttMapLoop (uninit : Nat → Bool) (vals : List (List Char)) :
    Nat → Nat → List Bool → Option (List Bool)
  | 0, _, m => some m
  | n + 1, i, m =>
    match vals[i]? with
    | none => none
    | some v => unknownAttMapLoop uninit vals n (i + 1) (m ++ [if v = ['?'] then true else uninit i])

/-- The second loop of `startQuery`, forming `known` and `unknown`. -/
def startQueryLoop (hash : List Char → Nat) (cv : ChVec) (vals : List (List Char))
    (unknownAttMap : List Bool) : Nat → Nat → Nat → Nat → Option (Nat × Nat)
  | 0, _, known, unknown => some (known, unknown)
  | n + 1, i, known, unknown =>
    match unknownAttMap[(cv i).att]? with
    | none => none
    | some true => startQueryLoop hash cv vals unknownAttMap n (i + 1) known (setBit unknown i)
    | some false =>
      match vals[(cv i).att]? with
      | none => none
      | some v =>
        let attHash := hash v
        startQueryLoop hash cv vals unknownAttMap n (i + 1)
          (if bitIsSet attHash (cv i).bit then setBit known i else known) unknown

/-- Set up a scan for the query string `q`. -/
def startQuery (hash : List Char → Nat) (uninit : Nat → Bool) (r : Reln) (q : List Char) :
    Option Query :=
  let cv := chvec r
  let nvals := nattrs r
  let vals := tupleVals q
  match unknownAttMapLoop uninit vals nvals 0 [] with
  | none => none
  | some unknownAttMap =>
    match startQueryLoop hash cv vals unknownAttMap MAXCHVEC 0 0 0 with
    | none => none
    | some (known, unknown) =>
      some
        { rel := r, known := known, unknown := unknown, curpageID := 0, curovPageID := some 0
          is_ovflow := false, curtup := 0, curtupReaded := 0, vals := vals, result := none }

/-- The loop over the attributes in `getTupleInPage`: the value of `findTuple`. -/
def findTupleLoop (qvals vals : List (List Char)) : Nat → Nat → Option Bool
  | 0, _ => some true
  | n + 1, j =>
    match qvals[j]? with
    | none => none
    | some qv =>
      if qv ≠ ['?'] then
        match vals[j]? with
        | none => none
        | some v => if v ≠ qv then some false else findTupleLoop qvals vals n (j + 1)
      else findTupleLoop qvals vals n (j + 1)

/-- Modelled from the spec: `freeVals` of `tuple.c`, which releases the strings
`vals[0]`, ..., `vals[n-1]` and then the array.  The list `vals` holds the
entries of the array that were written; releasing an entry that was never
written has no result. -/
def freeVals (vals : List Tuple) (n : Nat) : Option Unit :=
  if n ≤ vals.length then some () else none

/-- The loop over the remaining tuples in `getTupleInPage`, with the two ways
out of the function: after a match it releases `remainTuple` entries of
`tupleList`, after the last tuple `nattrs` entries. -/
def getTupleInPageLoop (tupleList : List Tuple) (remainTuple : Nat) :
    Nat → Nat → Query → Option (Bool × Query)
  | 0, _, q =>
    match freeVals tupleList (nattrs q.rel) with
    | none => none
    | some _ => some (false, q)
  | n + 1, i, q =>
    match tupleList[i]? with
    | none => none
    | some tup =>
      let q1 : Query :=
        { q with curtup := q.curtup + tup.length + 1, curtupReaded := q.curtupReaded + 1 }
      let nvals := nattrs q1.rel
      match findTupleLoop q1.vals (tupleVals tup) nvals 0 with
      | none => none
      | some true =>
        match freeVals tupleList remainTuple with
        | none => none
        | some _ => some (true, { q1 with result := some tup })
      | some false => getTupleInPageLoop tupleList remainTuple n (i + 1) q1

/-- Find the next matching tuple in the current page. -/
def getTupleInPage (q : Query) (curPage : Page) : Option (Bool × Query) :=
  let curCh := (pageData curPage).drop q.curtup
  let dataEnd := PAGESIZE - pageFreeSpace curPage - hdr_size
  let tupleList := dataTotupleList curCh dataEnd
  let remainTuple := pageNTuples curPage - q.curtupReaded
  getTupleInPageLoop tupleList remainTuple remainTuple 0 q

/-- The suitability loop of `getNextTuple`: it leaves at the first position
whose `unknown` bit is clear. -/
def pageSuitableLoop (unknown known : Nat) (curpageID : Nat) : Nat → Nat → Bool
  | 0, _ => true
  | n + 1, i =>
    if !bitIsSet unknown i then
      if bitIsSet known i != bitIsSet curpageID i then false else true
    else pageSuitableLoop unknown known curpageID n (i + 1)

/-- The loop over the overflow pages in `getNextTuple`. -/
def ovflowLoop (ovf : List Page) : Nat → Query → Option (Bool × Query)
  | fuel, q =>
    match q.curovPageID with
    | none => some (false, q)
    | some ovp =>
      match fuel with
      | 0 => none
      | n + 1 =>
        match getPage ovf ovp with
        | none => none
        | some curovPage =>
          match getTupleInPage q curovPage with
          | none => none
          | some (true, q1) => some (true, q1)
          | some (false, q1) =>
            ovflowLoop ovf n
              { q1 with curtup := 0, curtupReaded := 0, curovPageID := pageOvflow curovPage }

/-- The loop over the buckets in `getNextTuple`; `n` bounds the number of
buckets left. -/
def getNextTupleLoop (unknown known : Nat) (df ovf : List Page) :
    Nat → Query → Option (Query × Option Tuple)
  | fuel, q =>
    if q.curpageID < 2 ^ depth q.rel + splitp q.rel then
      match fuel with
      | 0 => none
      | n + 1 =>
        let pageSuitable := pageSuitableLoop unknown known q.curpageID (depth q.rel) 0
        if !pageSuitable then
          getNextTupleLoop unknown known df ovf n
            { q with curtup := 0, curtupReaded := 0, curpageID := q.curpageID + 1 }
        else
          let primary : Option (Bool × Query) :=
            if q.is_ovflow = false then
              match getPage df q.curpageID with
              | none => none
              | some curPage =>
                match getTupleInPage q curPage with
                | none => none
                | some (true, q1) => some (true, q1)
                | some (false, q1) =>
                  some (false,
                    { q1 with curovPageID := pageOvflow curPage
                              is_ovflow := (pageOvflow curPage).isSome
                              curtup := 0, curtupReaded := 0 })
            else some (false, q)
          match primary with
          | none => none
          | some (true, q1) => some (q1, q1.result)
          | some (false, q2) =>
            match ovflowLoop ovf (ovf.length + 1) q2 with
            | none => none
            | some (true, q3) => some (q3, q3.result)
            | some (false, q3) =>
              getNextTupleLoop unknown known df ovf n
                { q3 with is_ovflow := false, curtup := 0, curtupReaded := 0
                          curpageID := q3.curpageID + 1 }
    else some (q, none)

/-- Get the next tuple of a scan, or `NULL` (`none`) at its end. -/
def getNextTuple (q : Query) : Option (Query × Option Tuple) :=
  let unknown := getLower q.unknown (depth q.rel)
  let known := getLower q.known (depth q.rel)
  let df := dataFile q.rel
  let ovf := ovflowFile q.rel
  getNextTupleLoop unknown known df ovf (2 ^ depth q.rel + splitp q.rel - q.curpageID) q

/-- Modelled from the spec: the caller of the scan (`select.c`), which calls
`getNextTuple` until it returns `NULL` and collects the tuples; `n` bounds the
number of calls. -/
def scanAll : Nat → Query → Option (List Tuple)
  | 0, _ => none
  | n + 1, q =>
    match getNextTuple q with
    | none => none
    | some (_, none) => some []
    | some (q1, some t) =>
      match scanAll n q1 with
      | none => none
      | some ts => some (t :: ts)

/-! ## Specification-level notions -/

/-- The bytes of a page holding the tuples `ts`: each tuple followed by its terminator. -/
def encode : List Tuple → List Char
  | [] => []
  | t :: ts => t ++ NUL :: encode ts

/-- The page `p` stores exactly the tuples `ts`: the invariants of a page
(`free` is the sum of the footprints, `ntuples` the number of terminators, the
header and the data fit the page) with the rest of the data region zero. -/
def PageHolds (p : Page) (ts : List Tuple) : Prop :=
  (∀ t ∈ ts, NUL ∉ t) ∧ p.free = (encode ts).length ∧ p.free ≤ PAGESIZE - hdr_size ∧
    p.ntuples = ts.length ∧
    p.data = encode ts ++ List.replicate (PAGESIZE - hdr_size - p.free) NUL

/-- A well-formed page. -/
def PageWF (p : Page) : Prop := ∃ ts, PageHolds p ts

/-- The tuples stored in a page, read the way `pageSplit` and `getTupleInPage`
read them: the first `ntuples` strings of the data region. -/
def pageTuples (p : Page) : List Tuple :=
  (dataTotupleList (pageData p) (PAGESIZE - pageFreeSpace p - hdr_size)).take (pageNTuples p)

/-- The overflow link of each page of a file. -/
def links (ov : List Page) (i : Nat) : Option (Option Nat) := (ov[i]?).map Page.ovflow

/-- From `start`, following the links `lk` visits exactly the pages `ids`
and then reaches `NO_PAGE`. -/
def IsChain (lk : Nat → Option (Option Nat)) : Option Nat → List Nat → Prop
  | start, [] => start = none
  | start, i :: rest => start = some i ∧ ∃ nxt, lk i = some nxt ∧ IsChain lk nxt rest

/-- The pages of a file at the given ids. -/
def pagesAt (ov : List Page) (ids : List Nat) : List Page := ids.filterMap (fun i => ov[i]?)

/-- The overflow pages reached from a link, at most `n` of them. -/
def chainPages (ov : List Page) : Nat → Option Nat → List Page
  | 0, _ => []
  | _ + 1, none => []
  | n + 1, some i =>
    match ov[i]? with
    | none => []
    | some pg => pg :: chainPages ov n pg.ovflow

/-- The pages of bucket `b`: its primary page, then its overflow chain. -/
def bucketPages (r : Reln) (b : Nat) : List Page :=
  match r.data[b]? with
  | none => []
  | some pg => pg :: chainPages r.ovflow r.ovflow.length pg.ovflow

/-- The tuples of bucket `b`, in page order. -/
def bucketTuples (r : Reln) (b : Nat) : List Tuple := (bucketPages r b).flatMap pageTuples

/-- The tuples reachable from the primary pages of the relation. -/
def relTuples (r : Reln) : List Tuple := (List.range r.npages).flatMap (bucketTuples r)

/-- A tuple of the schema of `r`: it has `nattrs` fields. -/
def TupleOK (r : Reln) (t : Tuple) : Prop := (tupleVals t).length = r.nattrs

/-- Well-formedness of a relation, with `ch b` the ids of the overflow chain
of bucket `b`. -/
structure WFWith (r : Reln) (ch : Nat → List Nat) : Prop where
  npages_eq : r.npages = 2 ^ r.depth + r.sp
  sp_lt : r.sp < 2 ^ r.depth
  data_len : r.data.length = r.npages
  cv_ok : ∀ k, k < MAXCHVEC → (r.cv k).att < r.nattrs
  data_wf : ∀ (b : Nat) (pg : Page), r.data[b]? = some pg → PageWF pg
  ov_wf : ∀ (i : Nat) (pg : Page), r.ovflow[i]? = some pg → PageWF pg
  chain : ∀ (b : Nat) (pg : Page),
    r.data[b]? = some pg → IsChain (links r.ovflow) pg.ovflow (ch b)
  nodup : ∀ b, b < r.npages → (ch b).Nodup
  disj : ∀ b c, b < r.npages → c < r.npages → b ≠ c → List.Disjoint (ch b) (ch c)
  arity : ∀ b, b < r.npages → ∀ t ∈ bucketTuples r b, TupleOK r t
  ntups_eq : r.ntups = (relTuples r).length

/-- A well-formed relation: `npages = 2^depth + sp`, `sp < 2^depth`, one primary
page per bucket, well-formed pages, overflow chains that are finite, without
cycle and without sharing, stored tuples of the schema, and `ntups` counting
the stored tuples. -/
def RelnWF (r : Reln) : Prop := ∃ ch, WFWith r ch

/-- What a scan needs of a relation, with `ch b` the ids of the overflow chain
of bucket `b`: the file has a primary page for each of the `2^depth + sp`
buckets that the scan visits, the pages are well formed, the overflow chains
are finite and without cycle, the stored tuples have `nattrs` fields and the
choice vector names attributes of the relation.  Nothing relates `npages` to
`2^depth + sp` beyond the first condition. -/
structure ScanWF (r : Reln) (ch : Nat → List Nat) : Prop where
  nbuckets_le : 2 ^ r.depth + r.sp ≤ r.npages
  data_len : r.data.length = r.npages
  cv_ok : ∀ k, k < MAXCHVEC → (r.cv k).att < r.nattrs
  data_wf : ∀ (b : Nat) (pg : Page), r.data[b]? = some pg → PageWF pg
  ov_wf : ∀ (i : Nat) (pg : Page), r.ovflow[i]? = some pg → PageWF pg
  chain : ∀ (b : Nat) (pg : Page),
    r.data[b]? = some pg → IsChain (links r.ovflow) pg.ovflow (ch b)
  nodup : ∀ b, b < r.npages → (ch b).Nodup
  arity : ∀ b, b < r.npages → ∀ t ∈ bucketTuples r b, TupleOK r t

/-- The addressing invariant: every stored tuple lies in the bucket its hash selects. -/
def Addressed (hash : List Char → Nat) (r : Reln) : Prop :=
  ∀ b, b < r.npages → ∀ t ∈ bucketTuples r b,
    ∃ h, tupleHash hash r t = some h ∧ bucketOf h r.depth r.sp = b

/-- What an insertion into bucket `p` that stores the tuples `X` leaves behind. -/
structure InsertPost (r r2 : Reln) (p : Nat) (X : List Tuple) : Prop where
  depth_eq : r2.depth = r.depth
  sp_eq : r2.sp = r.sp
  npages_eq : r2.npages = r.npages
  nattrs_eq : r2.nattrs = r.nattrs
  cv_eq : r2.cv = r.cv
  wf : RelnWF r2
  other : ∀ b, b < r.npages → b ≠ p → bucketTuples r2 b = bucketTuples r b
  bucket : (bucketTuples r2 p).Perm (X ++ bucketTuples r p)
  rel : (relTuples r2).Perm (X ++ relTuples r)
  ntups : r2.ntups = r.ntups + X.length

/-- The depth and split pointer after the split pointer advances once. -/
def advance (d sp : Nat) : Nat × Nat := if sp + 1 = 2 ^ d then (d + 1, 0) else (d, sp + 1)

/-- The test of `addToRelation`: a split is due before the insertion. -/
def splitDue (r : Reln) : Prop := r.ntups ≠ 0 ∧ r.ntups % timeToSplit r.nattrs = 0

/-- Modelled from the spec: the caller of the insertion (`insert.c`), which
inserts the tuples in turn with `addToRelation`; the result is `none` as soon
as an insertion has no result or returns `NO_PAGE`. -/
def insertAll (hash : List Char → Nat) : Reln → List Tuple → Option Reln
  | r, [] => some r
  | r, t :: ts =>
    match addToRelation hash r t with
    | some (r1, some _) => insertAll hash r1 ts
    | _ => none

/-- The match test of `getTupleInPage` on a stored tuple: `findTuple` is true. -/
def matchesQuery (qvals : List (List Char)) (nvals : Nat) (tup : Tuple) : Bool :=
  findTupleLoop qvals (tupleVals tup) nvals 0 == some true

/-- The suitability test of `getNextTuple` on bucket `b`. -/
def suitable (q : Query) (b : Nat) : Bool :=
  pageSuitableLoop (getLower q.unknown (depth q.rel)) (getLower q.known (depth q.rel)) b
    (depth q.rel) 0

/-- The fields of a query that a scan never changes, and the cursor fields
that `getTupleInPage` leaves alone. -/
def SameQuery (q q2 : Query) : Prop :=
  q2.rel = q.rel ∧ q2.vals = q.vals ∧ q2.known = q.known ∧ q2.unknown = q.unknown

/-- The matching tuples of a list of pages, in order. -/
def pagesMatches (m : Tuple → Bool) (pgs : List Page) : List Tuple :=
  pgs.flatMap (fun pg => (pageTuples pg).filter m)

/-- The matching tuples of bucket `b` when the scan finds it suitable, none otherwise. -/
def bucketMatches (q : Query) (b : Nat) : List Tuple :=
  if suitable q b then
    pagesMatches (matchesQuery q.vals (nattrs q.rel)) (bucketPages q.rel b)
  else []

/-- The reference result of a scan: the buckets in ascending order, in each the
primary page and then the overflow pages in chain order, in each page the
tuples in insertion order, keeping the tuples that match. -/
def referenceScan (q : Query) : List Tuple :=
  (List.range (2 ^ depth q.rel + splitp q.rel)).flatMap (bucketMatches q)

/-- The matching tuples of a page from tuple `j` on. -/
def pageRest (m : Tuple → Bool) (pg : Page) (j : Nat) : List Tuple :=
  ((pageTuples pg).drop j).filter m

/-- A position at which a call of `getTupleInPage` starts in the page `pg`:
before its first tuple, or just after a tuple that matches. -/
def EntryPos (m : Tuple → Bool) (pg : Page) (j : Nat) : Prop :=
  j = 0 ∨ ∃ t, (pageTuples pg)[j - 1]? = some t ∧ m t = true

/-- The cursor of `q` stands before tuple `j` of page `pg`, where a call of
`getTupleInPage` left it. -/
def InPage (q : Query) (pg : Page) (j : Nat) : Prop :=
  j ≤ (pageTuples pg).length ∧ q.curtupReaded = j ∧
    q.curtup = (encode ((pageTuples pg).take j)).length ∧
    EntryPos (matchesQuery q.vals (nattrs q.rel)) pg j

/-- The strings that `getTupleInPage` stores in `tupleList` when the cursor is
at byte `c` of the page `pg`. -/
def stringsAt (pg : Page) (c : Nat) : List Tuple :=
  dataTotupleList ((pageData pg).drop c) (PAGESIZE - pageFreeSpace pg - hdr_size)

/-- The call of `getTupleInPage` that reaches the end of the page `pg` (it
starts before the first tuple or just after a matching tuple, and no tuple
after its start matches) has stored at least `n` strings in `tupleList`. -/
def PageSafe (m : Tuple → Bool) (n : Nat) (pg : Page) : Prop :=
  ∀ j, j ≤ (pageTuples pg).length → EntryPos m pg j → pageRest m pg j = [] →
    n ≤ (stringsAt pg (encode ((pageTuples pg).take j)).length).length

/-- Every page of a bucket that the scan of `q` reads is left by a call of
`getTupleInPage` that has stored at least `nattrs` strings in `tupleList`. -/
def ScanSafe (q : Query) : Prop :=
  ∀ b, b < 2 ^ depth q.rel + splitp q.rel → suitable q b = true →
    ∀ pg ∈ bucketPages q.rel b, PageSafe (matchesQuery q.vals (nattrs q.rel)) (nattrs q.rel) pg

/-- The matching tuples of a chain of overflow pages, from tuple `j` of its first page on. -/
def chainRest (m : Tuple → Bool) (ov : List Page) : List Nat → Nat → List Tuple
  | [], _ => []
  | i :: rest, j =>
    (match ov[i]? with
      | some pg => pageRest m pg j
      | none => []) ++ pagesMatches m (pagesAt ov rest)

/-- The matching tuples of the buckets `b`, `b+1`, ... up to the last one. -/
def laterMatches (q : Query) (b : Nat) : List Tuple :=
  (List.range' b (2 ^ depth q.rel + splitp q.rel - b)).flatMap (bucketMatches q)

/-- Every stored tuple can be compared with the query: the comparison reads
no field that is missing. -/
def Comparable (q : Query) : Prop :=
  ∀ b, b < q.rel.npages → ∀ t ∈ bucketTuples q.rel b,
    ∃ x, findTupleLoop q.vals (tupleVals t) (nattrs q.rel) 0 = some x

/-- The position of a scan: the cursor fields of `q` are consistent with the
relation, whose chains are `ch`, and `rem` is what the scan has yet to return.
Either the scan is past the last bucket, or it is in a primary page, or it is
in an overflow page of a suitable bucket. -/
def CursorState (ch : Nat → List Nat) (q : Query) (rem : List Tuple) : Prop :=
  (2 ^ depth q.rel + splitp q.rel ≤ q.curpageID ∧ rem = []) ∨
  (q.curpageID < 2 ^ depth q.rel + splitp q.rel ∧ q.is_ovflow = false ∧
    ∃ pg j, q.rel.data[q.curpageID]? = some pg ∧
      (suitable q q.curpageID = true → InPage q pg j) ∧
      rem = (if suitable q q.curpageID then
          pageRest (matchesQuery q.vals (nattrs q.rel)) pg j ++
            pagesMatches (matchesQuery q.vals (nattrs q.rel))
              (pagesAt q.rel.ovflow (ch q.curpageID))
        else []) ++ laterMatches q (q.curpageID + 1)) ∨
  (q.curpageID < 2 ^ depth q.rel + splitp q.rel ∧ q.is_ovflow = true ∧
    suitable q q.curpageID = true ∧
    ∃ i rest pg j, q.curovPageID = some i ∧
      IsChain (links q.rel.ovflow) (some i) (i :: rest) ∧ (i :: rest).Nodup ∧
      (∀ k ∈ i :: rest, k ∈ ch q.curpageID) ∧
      q.rel.ovflow[i]? = some pg ∧ InPage q pg j ∧
      rem = chainRest (matchesQuery q.vals (nattrs q.rel)) q.rel.ovflow (i :: rest) j ++
        laterMatches q (q.curpageID + 1))

/-- The content of `unknownAttMap[k]` after the first loop of `startQuery`:
set for a wildcard, the initial content of the entry otherwise. -/
def attUnknown (uninit : Nat → Bool) (vals : List (List Char)) (k : Nat) : Bool :=
  if vals.getD k [] = ['?'] then true else uninit k

/-- The relation states reached from `r0` by calls of `addToRelation` that
return, whatever they return. -/
inductive Reachable (hash : List Char → Nat) (r0 : Reln) : Reln → Prop
  | init : Reachable hash r0 r0
  | step {r r2 : Reln} {t : Tuple} {res : Option Nat} :
      Reachable hash r0 r → addToRelation hash r t = some (r2, res) → Reachable hash r0 r2

/-- A byte hash used in the examples. -/
def exHash : List Char → Nat := fun s => s.length

/-- A choice vector for a relation with one attribute. -/
def exCv : ChVec := fun k => { att := 0, bit := k }

/-- The relation created with one attribute, one page and depth 0. -/
def exRel : Reln :=
  { nattrs := 1, depth := 0, sp := 0, npages := 1, ntups := 0, cv := exCv
    data := [newPage], ovflow := [] }

/-- A tuple of one field. -/
def exTuple : Tuple := ['a']

/-- A page holding the tuple `a`. -/
def exPage : Page :=
  { free := 2, ovflow := none, ntuples := 1, data := 'a' :: NUL :: List.replicate 1010 NUL }

/-- The relation `exRel` with the tuple `a` stored in its page. -/
def exRelOne : Reln := { exRel with data := [exPage], ntups := 1 }

/-- The query that `startQuery` sets up on `exRelOne` for the pattern `a`. -/
def exQuery : Query :=
  { rel := exRelOne, known := 1, unknown := 0, curpageID := 0, curovPageID := some 0
    is_ovflow := false, curtup := 0, curtupReaded := 0, vals := [['a']], result := none }

/-- The query `exQuery` after its first call of `getNextTuple`. -/
def exQueryNext : Query := { exQuery with curtup := 2, curtupReaded := 1, result := some exTuple }

/-- The relation created with one attribute, four pages and depth 2. -/
def exRelFour : Reln :=
  { nattrs := 1, depth := 2, sp := 0, npages := 4, ntups := 0, cv := exCv
    data := [newPage, newPage, newPage, newPage], ovflow := [] }

/-- The query that `startQuery` sets up on `exRelFour` for the pattern `a`:
the hash of `a` is 1, so bit 0 of `known` is 1 and bit 1 is 0, and no bit is
unknown. -/
def exQueryFour : Query :=
  { rel := exRelFour, known := 1, unknown := 0, curpageID := 0, curovPageID := some 0
    is_ovflow := false, curtup := 0, curtupReaded := 0, vals := [['a']], result := none }

/-- The depth and split pointer after the split pointer advances `k` times. -/
def advanceTimes : Nat → Nat × Nat → Nat × Nat
  | 0, p => p
  | k + 1, p => advanceTimes k (advance p.1 p.2)

/-- A choice vector for a relation with four attributes: bit `k` of the
composite hash is bit `k / 4` of the hash of attribute `k % 4`. -/
def exCv4 : ChVec := fun k => { att := k % 4, bit := k / 4 }

/-- The relation created with four attributes, one page and depth 0. -/
def exRel4 : Reln :=
  { nattrs := 4, depth := 0, sp := 0, npages := 1, ntups := 0, cv := exCv4
    data := [newPage], ovflow := [] }

/-- The tuple `a,b,c,d` of four fields. -/
def exTuple4 : Tuple := ['a', ',', 'b', ',', 'c', ',', 'd']

/-- The relation that `newRelation` stores for four attributes, three pages
and depth 0. -/
def exRelThree : Reln :=
  { nattrs := 4, depth := 0, sp := 0, npages := 3, ntups := 0, cv := exCv4
    data := [newPage, newPage, newPage], ovflow := [] }

/-- A page holding the tuple `a,b,c,d`. -/
def exPage4 : Page :=
  { free := 8, ovflow := none, ntuples := 1
    data := exTuple4 ++ NUL :: List.replicate 1004 NUL }

/-- The relation `exRelThree` after the insertion of `a,b,c,d`. -/
def exRelThreeOne : Reln := { exRelThree with data := [exPage4, newPage, newPage], ntups := 1 }

/-- A tuple of one field that is too long for a page. -/
def exLong : Tuple := List.replicate 1012 'a'

/-- The overflow chains of `r` are strictly linear, with `ch b` the ids of the
chain of bucket `b`: following the links from the primary page of `b` visits
exactly `ch b` and reaches `NO_PAGE`, no id occurs twice in a chain, and no id
occurs in the chains of two primary pages. -/
structure Linear (r : Reln) (ch : Nat → List Nat) : Prop where
  chain : ∀ (b : Nat) (pg : Page),
    r.data[b]? = some pg → IsChain (links r.ovflow) pg.ovflow (ch b)
  nodup : ∀ b, b < r.data.length → (ch b).Nodup
  disj : ∀ b c, b < r.data.length → c < r.data.length → b ≠ c → List.Disjoint (ch b) (ch c)

/-- The six ways in which `addTupleToRelation` returns, for the selected bucket
`p`, its primary page `pg` and its overflow chain `ch p`: the relation it
leaves and the value it returns. -/
inductive InsertCase (r : Reln) (ch : Nat → List Nat) (t : Tuple) (p : Nat) (pg : Page) :
    Reln → Option Nat → Prop
  | primary (pg1 : Page) : addToPage pg t = some pg1 →
      InsertCase r ch t p pg { r with data := r.data.set p pg1, ntups := r.ntups + 1 } (some p)
  | first (q : Page) : addToPage pg t = none → pg.ovflow = none → ch p = [] →
      addToPage newPage t = some q →
      InsertCase r ch t p pg
        { r with data := r.data.set p (pageSetOvflow pg (some r.ovflow.length)),
                 ovflow := r.ovflow ++ [q], ntups := r.ntups + 1 } (some p)
  | firstFail : addToPage pg t = none → pg.ovflow = none → ch p = [] →
      addToPage newPage t = none →
      InsertCase r ch t p pg
        { r with data := r.data.set p (pageSetOvflow pg (some r.ovflow.length)),
                 ovflow := r.ovflow ++ [newPage] } NO_PAGE
  | placed (l1 : List Nat) (i : Nat) (l2 : List Nat) (pgi pg1 : Page) :
      addToPage pg t = none → ch p = l1 ++ i :: l2 →
      (∀ j ∈ l1, ∀ pgj, r.ovflow[j]? = some pgj → addToPage pgj t = none) →
      r.ovflow[i]? = some pgi → addToPage pgi t = some pg1 →
      InsertCase r ch t p pg { r with ovflow := r.ovflow.set i pg1, ntups := r.ntups + 1 } (some p)
  | appended (init : List Nat) (last : Nat) (pgl q : Page) :
      addToPage pg t = none → ch p = init ++ [last] →
      (∀ j ∈ ch p, ∀ pgj, r.ovflow[j]? = some pgj → addToPage pgj t = none) →
      r.ovflow[last]? = some pgl → pgl.ovflow = none → addToPage newPage t = some q →
      InsertCase r ch t p pg
        { r with ovflow := (r.ovflow ++ [q]).set last (pageSetOvflow pgl (some r.ovflow.length)),
                 ntups := r.ntups + 1 } (some p)
  | orphan (init : List Nat) (last : Nat) :
      addToPage pg t = none → ch p = init ++ [last] →
      (∀ j ∈ ch p, ∀ pgj, r.ovflow[j]? = some pgj → addToPage pgj t = none) →
      addToPage newPage t = none →
      InsertCase r ch t p pg { r with ovflow := r.ovflow ++ [newPage] } NO_PAGE

/-- How an insertion changes the chains: `ch2` is the chain function after an
insertion into bucket `p` of a relation with chains `ch`. -/
structure ChainStep (r r2 : Reln) (ch ch2 : Nat → List Nat) (p : Nat) : Prop where
  linear : Linear r2 ch2
  data_len : r2.data.length = r.data.length
  ov_len : r.ovflow.length ≤ r2.ovflow.length
  other : ∀ b, b ≠ p → ch2 b = ch b
  fresh : ∀ i ∈ ch2 p, i ∈ ch p ∨ r.ovflow.length ≤ i
  kept : ∀ i ∈ ch p, i ∈ ch2 p
  meta_eq : r2.depth = r.depth ∧ r2.sp = r.sp ∧ r2.npages = r.npages ∧ r2.nattrs = r.nattrs ∧
    r2.cv = r.cv

/-- A tuple of one field of 1011 bytes, the longest that a page can hold. -/
def exMax : Tuple := List.replicate 1011 'a'

/-- A page filled by the tuple `exMax`. -/
def exPageMax : Page := { free := 1012, ovflow := none, ntuples := 1, data := exMax ++ [NUL] }

/-- The relation `exRel` after the insertion of `exMax`. -/
def exRelA : Reln := { exRel with data := [exPageMax], ntups := 1 }

/-- The relation `exRelA` after a second insertion of `exMax`: the primary page
of bucket 0 is full and links to the overflow page 0, which holds the second
tuple. -/
def exRelB : Reln :=
  { exRel with data := [pageSetOvflow exPageMax (some 0)], ovflow := [exPageMax], ntups := 2 }

/-- The relation `exRelB` after the failed insertion of `exLong`: the overflow
file has one more page. -/
def exRelC : Reln := { exRelB with ovflow := [exPageMax, newPage] }

/-- The page `pg` has room for the tuple `t`: its free space is at least the
length of `t` and of its terminator. -/
def roomFor (t : Tuple) (pg : Page) : Prop := t.length + 1 ≤ pageFreeSpace pg

/-- The tuple `t` matches the pattern with fields `pvals` on its known
attributes: every field `i < n` of the pattern is the wildcard or equals field
`i` of `t`. -/
def agreesOnKnown (pvals : List (List Char)) (n : Nat) (t : Tuple) : Bool :=
  (List.range n).all (fun i => pvals[i]? == some ['?'] || (tupleVals t)[i]? == pvals[i]?)

/-- The reference sequence of a scan, in the words of the specification: the
buckets `0 .. npages - 1` in ascending order, skipping those that are not
scanned; in each bucket the primary page and then the overflow pages in chain
order; in each page the tuples in insertion order; keeping the tuples that
match the pattern on its known attributes. -/
def specScan (r : Reln) (scanned : Nat → Bool) (pvals : List (List Char)) : List Tuple :=
  (List.range r.npages).flatMap (fun b =>
    if scanned b then
      (bucketPages r b).flatMap (fun pg => (pageTuples pg).filter (agreesOnKnown pvals r.nattrs))
    else [])

/-- The relation states reached from `r0` by calls of `addToRelation` on tuples
of the relation (strings without NUL, with one field per attribute) that
return, whatever they return. -/
inductive ReachableBy (hash : List Char → Nat) (r0 : Reln) : Reln → Prop
  | init : ReachableBy hash r0 r0
  | step {r r2 : Reln} {t : Tuple} {res : Option Nat} :
      ReachableBy hash r0 r → NUL ∉ t → TupleOK r t →
      addToRelation hash r t = some (r2, res) → ReachableBy hash r0 r2

/-- The query that `startQuery` sets up on `exRelOne` for the pattern `a` when
the block that `malloc` returns for `unknownAttMap` holds non-zero words. -/
def exQueryGarbage : Query := { exQuery with known := 0, unknown := 4294967295 }

/-- The relation created with one attribute, two pages and depth 1. -/
def exRelTwo : Reln :=
  { nattrs := 1, depth := 1, sp := 0, npages := 2, ntups := 0, cv := exCv
    data := [newPage, newPage], ovflow := [] }

/-- The relation `exRelTwo` after the insertion of `a`, which bucket 1 receives. -/
def exRelTwoOne : Reln := { exRelTwo with data := [newPage, exPage], ntups := 1 }

/-- The query that `startQuery` sets up on `exRelTwoOne` for the all-wildcard
pattern `?`. -/
def exQueryTwo : Query :=
  { rel := exRelTwoOne, known := 0, unknown := 4294967295, curpageID := 0, curovPageID := some 0
    is_ovflow := false, curtup := 0, curtupReaded := 0, vals := [['?']], result := none }

/-- A choice vector over two attributes: item `k` is bit `k / 2` of attribute `k % 2`. -/
def exCv2 : ChVec := fun k => { att := k % 2, bit := k / 2 }

/-- The relation created with two attributes, two pages and depth 1. -/
def exRelPair : Reln :=
  { nattrs := 2, depth := 1, sp := 0, npages := 2, ntups := 0, cv := exCv2
    data := [newPage, newPage], ovflow := [] }

/-- The tuple `a,b` of two fields. -/
def exTuplePair : Tuple := ['a', ',', 'b']

/-- A page holding the tuple `a,b`. -/
def exPagePair : Page :=
  { free := 4, ovflow := none, ntuples := 1
    data := exTuplePair ++ NUL :: List.replicate 1008 NUL }

/-- The relation `exRelPair` after the insertion of `a,b`, which bucket 1 receives. -/
def exRelPairOne : Reln := { exRelPair with data := [newPage, exPagePair], ntups := 1 }

/-- The query that `startQuery` sets up on `exRelPairOne` for the pattern `?,b`. -/
def exQueryPairWild : Query :=
  { rel := exRelPairOne, known := 2, unknown := 1431655765, curpageID := 0
    curovPageID := some 0, is_ovflow := false, curtup := 0, curtupReaded := 0
    vals := [['?'], ['b']], result := none }

/-- The query that `startQuery` sets up on `exRelPairOne` for the pattern `a,c`. -/
def exQueryPairMiss : Query :=
  { rel := exRelPairOne, known := 3, unknown := 0, curpageID := 0
    curovPageID := some 0, is_ovflow := false, curtup := 0, curtupReaded := 0
    vals := [['a'], ['c']], result := none }

theorem hdr_size_le : hdr_size ≤ PAGESIZE := by decide

theorem encode_append (xs ys : List Tuple) : encode (xs ++ ys) = encode xs ++ encode ys := by
  induction xs with
  | nil => rfl
  | cons x xs ih => simp [encode, ih]

theorem dataTotupleListLoop_tuple (t rest : List Char) (n : Nat) (cur : List Char)
    (ht : NUL ∉ t) (hn : t.length + 1 ≤ n) :
    dataTotupleListLoop (t ++ NUL :: rest) n cur =
      (cur.reverse ++ t) :: dataTotupleListLoop rest (n - (t.length + 1)) [] := by
  induction t generalizing n cur with
  | nil =>
    obtain ⟨m, rfl⟩ : ∃ m, n = m + 1 := ⟨n - 1, by simp at hn; omega⟩
    simp [dataTotupleListLoop]
  | cons c t ih =>
    obtain ⟨m, rfl⟩ : ∃ m, n = m + 1 := ⟨n - 1, by simp at hn; omega⟩
    have hc : c ≠ NUL := fun h => ht (by simp [h])
    have ht2 : NUL ∉ t := fun h => ht (by simp [h])
    simp only [List.cons_append, dataTotupleListLoop, hc, if_false, List.append_eq]
    rw [ih m (c :: cur) ht2 (by simp at hn ⊢; omega)]
    simp

theorem dataTotupleListLoop_encode (ts : List Tuple) (rest : List Char) (n : Nat)
    (hts : ∀ t ∈ ts, NUL ∉ t) (hn : (encode ts).length ≤ n) :
    dataTotupleListLoop (encode ts ++ rest) n [] =
      ts ++ dataTotupleListLoop rest (n - (encode ts).length) [] := by
  induction ts generalizing n with
  | nil => simp [encode]
  | cons t ts ih =>
    have h1 : NUL ∉ t := hts t (by simp)
    have h2 : ∀ u ∈ ts, NUL ∉ u := fun u hu => hts u (by simp [hu])
    simp only [encode, List.length_append, List.length_cons] at hn
    simp only [encode, List.append_assoc, List.cons_append]
    rw [dataTotupleListLoop_tuple t _ n [] h1 (by omega), ih _ h2 (by omega)]
    simp only [List.reverse_nil, List.nil_append, List.cons_append, List.length_append,
      List.length_cons]
    congr 3
    omega

theorem dataEnd_eq (p : Page) (h : p.free ≤ PAGESIZE - hdr_size) :
    PAGESIZE - pageFreeSpace p - hdr_size = p.free := by
  have := hdr_size_le
  unfold pageFreeSpace
  omega

theorem pageTuples_of_holds {p : Page} {ts : List Tuple} (h : PageHolds p ts) :
    pageTuples p = ts := by
  obtain ⟨hn, hf, hle, hnt, hd⟩ := h
  unfold pageTuples dataTotupleList pageData pageNTuples
  rw [dataEnd_eq p hle, hd, dataTotupleListLoop_encode ts _ _ hn (by omega), hnt]
  have : p.free - (encode ts).length = 0 := by omega
  rw [this]
  cases h : List.replicate (PAGESIZE - hdr_size - p.free) NUL <;> simp [dataTotupleListLoop]

theorem PageHolds.tuples_unique {p : Page} {ts us : List Tuple} (h : PageHolds p ts)
    (h2 : PageHolds p us) : ts = us := by
  rw [← pageTuples_of_holds h, pageTuples_of_holds h2]

theorem PageWF.holds {p : Page} (h : PageWF p) : PageHolds p (pageTuples p) := by
  obtain ⟨ts, hts⟩ := h
  rw [pageTuples_of_holds hts]
  exact hts

theorem newPage_holds : PageHolds newPage [] := by
  refine ⟨by simp, rfl, Nat.zero_le _, rfl, ?_⟩
  simp [newPage, encode]

theorem pageSetOvflow_holds {p : Page} {ts : List Tuple} (x : Option Nat)
    (h : PageHolds p ts) : PageHolds (pageSetOvflow p x) ts := h

theorem pageTuples_pageSetOvflow (p : Page) (x : Option Nat) :
    pageTuples (pageSetOvflow p x) = pageTuples p := rfl

theorem pageTuples_newPage : pageTuples newPage = [] := pageTuples_of_holds newPage_holds

/-- The strings read from byte offset of tuple `j` on a well-formed page are
the tuples from `j` on, followed by entries that are never read. -/
theorem dataTotupleList_drop {p : Page} {ts : List Tuple} (h : PageHolds p ts) (j : Nat) :
    ∃ junk, dataTotupleList ((pageData p).drop (encode (ts.take j)).length)
      (PAGESIZE - pageFreeSpace p - hdr_size) = ts.drop j ++ junk := by
  obtain ⟨hn, hf, hle, hnt, hd⟩ := h
  have hsplit : encode ts = encode (ts.take j) ++ encode (ts.drop j) := by
    rw [← encode_append, List.take_append_drop]
  have hlen : (encode ts).length = (encode (ts.take j)).length + (encode (ts.drop j)).length := by
    rw [hsplit, List.length_append]
  refine ⟨dataTotupleListLoop (List.replicate (PAGESIZE - hdr_size - p.free) NUL)
    (p.free - (encode (ts.drop j)).length) [], ?_⟩
  unfold dataTotupleList pageData
  rw [dataEnd_eq p hle, hd, hsplit, List.append_assoc, List.drop_left]
  exact dataTotupleListLoop_encode _ _ _ (fun t ht => hn t (List.mem_of_mem_drop ht)) (by omega)

theorem addToPage_full {p : Page} {t : Tuple} (h : pageFreeSpace p < t.length + 1) :
    addToPage p t = none := by
  simp [addToPage, h]

theorem addToPage_holds {p : Page} {ts : List Tuple} {t : Tuple} (h : PageHolds p ts)
    (ht : NUL ∉ t) (hfit : t.length + 1 ≤ pageFreeSpace p) :
    ∃ p1, addToPage p t = some p1 ∧ PageHolds p1 (ts ++ [t]) ∧ p1.ovflow = p.ovflow := by
  obtain ⟨hn, hf, hle, hnt, hd⟩ := h
  have hfs : pageFreeSpace p = PAGESIZE - hdr_size - p.free := rfl
  unfold addToPage
  rw [if_neg (by omega)]
  refine ⟨_, rfl, ?_, rfl⟩
  have henc : encode (ts ++ [t]) = encode ts ++ (t ++ [NUL]) := by
    rw [encode_append]; simp [encode]
  refine ⟨?_, ?_, ?_, ?_, ?_⟩
  · intro u hu
    rcases List.mem_append.mp hu with hu | hu
    · exact hn u hu
    · simp at hu; subst hu; exact ht
  · show p.free + (t.length + 1) = _
    simp only [henc, List.length_append, List.length_cons, List.length_nil]
    omega
  · show p.free + (t.length + 1) ≤ _
    omega
  · show p.ntuples + 1 = _
    simp [hnt]
  · show p.data.take p.free ++ (t ++ [NUL]) ++ p.data.drop (p.free + (t.length + 1)) = _
    show _ = encode (ts ++ [t]) ++ List.replicate (PAGESIZE - hdr_size - (p.free + (t.length + 1))) NUL
    rw [henc]
    have h1 : p.data.take p.free = encode ts := by
      rw [hd, hf, List.take_left]
    have h2 : p.data.drop (p.free + (t.length + 1)) =
        List.replicate (PAGESIZE - hdr_size - (p.free + (t.length + 1))) NUL := by
      rw [hd, hf, ← List.drop_drop, List.drop_left, List.drop_replicate]
      congr 1
      omega
    rw [h1, h2]

theorem addToPage_some_iff {p : Page} {t : Tuple} :
    (∃ p1, addToPage p t = some p1) ↔ t.length + 1 ≤ pageFreeSpace p := by
  unfold addToPage
  split <;> simp <;> omega

theorem length_le_encode {ts : List Tuple} {t : Tuple} (ht : t ∈ ts) :
    t.length + 1 ≤ (encode ts).length := by
  induction ts with
  | nil => simp at ht
  | cons u us ih =>
    simp only [encode, List.length_append, List.length_cons]
    rcases List.mem_cons.mp ht with h | h
    · subst h; omega
    · have := ih h; omega

theorem PageHolds.fits {p : Page} {ts : List Tuple} (h : PageHolds p ts) {t : Tuple}
    (ht : t ∈ ts) : t.length + 1 ≤ PAGESIZE - hdr_size := by
  obtain ⟨_, hf, hle, _, _⟩ := h
  have := length_le_encode ht
  omega

/-! ## Properties of files and overflow chains -/

theorem putPage_of_lt {f : List Page} {i : Nat} (p : Page) (h : i < f.length) :
    putPage f i p = f.set i p := by
  simp [putPage, h]

theorem putPage_length (f : List Page) (p : Page) : putPage f f.length p = f ++ [p] := by
  simp [putPage]

theorem addPage_fst (f : List Page) : (addPage f).1 = f ++ [newPage] := putPage_length f newPage

theorem addPage_snd (f : List Page) : (addPage f).2 = f.length := rfl

theorem addPages_eq (n : Nat) (f : List Page) : addPages n f = f ++ List.replicate n newPage := by
  induction n generalizing f with
  | zero => simp [addPages]
  | succ n ih =>
    simp only [addPages, addPage_fst, ih, List.append_assoc, List.replicate_succ]
    simp only [List.singleton_append]

theorem links_set_ne (ov : List Page) (i j : Nat) (p : Page) (h : j ≠ i) :
    links (ov.set i p) j = links ov j := by
  simp [links, List.getElem?_set_ne (Ne.symm h)]

theorem links_set_same (ov : List Page) (i j : Nat) (p q : Page) (hq : ov[i]? = some q)
    (h : p.ovflow = q.ovflow) : links (ov.set i p) j = links ov j := by
  by_cases hj : j = i
  · subst hj
    have hlt : j < ov.length := by
      rcases Nat.lt_or_ge j ov.length with h1 | h1
      · exact h1
      · rw [List.getElem?_eq_none h1] at hq; cases hq
    simp [links, hq, h, hlt]
  · exact links_set_ne ov i j p hj

theorem links_set_eq (ov : List Page) (i : Nat) (p : Page) (h : i < ov.length) :
    links (ov.set i p) i = some p.ovflow := by
  simp [links, h]

theorem links_append_lt (ov : List Page) (p : Page) (j : Nat) (h : j < ov.length) :
    links (ov ++ [p]) j = links ov j := by
  simp [links, List.getElem?_append_left h]

theorem links_append_eq (ov : List Page) (p : Page) :
    links (ov ++ [p]) ov.length = some p.ovflow := by
  simp [links]

theorem links_lt {ov : List Page} {i : Nat} {x : Option Nat} (h : links ov i = some x) :
    i < ov.length := by
  rcases Nat.lt_or_ge i ov.length with h1 | h1
  · exact h1
  · simp [links, List.getElem?_eq_none h1] at h

theorem IsChain.congr {lk lk2 : Nat → Option (Option Nat)} {s : Option Nat} {ids : List Nat}
    (h : IsChain lk s ids) (hag : ∀ i ∈ ids, lk2 i = lk i) : IsChain lk2 s ids := by
  induction ids generalizing s with
  | nil => exact h
  | cons i rest ih =>
    obtain ⟨hs, nxt, hn, hr⟩ := h
    exact ⟨hs, nxt, by rw [hag i (by simp), hn], ih hr (fun j hj => hag j (by simp [hj]))⟩

theorem IsChain.lt {ov : List Page} {s : Option Nat} {ids : List Nat}
    (h : IsChain (links ov) s ids) : ∀ i ∈ ids, i < ov.length := by
  induction ids generalizing s with
  | nil => simp
  | cons i rest ih =>
    obtain ⟨_, nxt, hn, hr⟩ := h
    intro j hj
    rcases List.mem_cons.mp hj with h1 | h1
    · subst h1; exact links_lt hn
    · exact ih hr j h1

theorem IsChain.ids_unique {lk : Nat → Option (Option Nat)} {s : Option Nat} {ids ids2 : List Nat}
    (h : IsChain lk s ids) (h2 : IsChain lk s ids2) : ids = ids2 := by
  induction ids generalizing s ids2 with
  | nil =>
    cases ids2 with
    | nil => rfl
    | cons j rest2 =>
      obtain ⟨h3, _⟩ := h2
      have h0 : s = none := h
      rw [h0] at h3; cases h3
  | cons i rest ih =>
    obtain ⟨hs, nxt, hn, hr⟩ := h
    cases ids2 with
    | nil =>
      have h0 : s = none := h2
      rw [h0] at hs; cases hs
    | cons j rest2 =>
      obtain ⟨hs2, nxt2, hn2, hr2⟩ := h2
      rw [hs] at hs2
      cases hs2
      rw [hn] at hn2
      cases hn2
      rw [ih hr hr2]

theorem length_le_of_nodup_lt {ids : List Nat} {n : Nat} (hnd : ids.Nodup)
    (hlt : ∀ i ∈ ids, i < n) : ids.length ≤ n := by
  have hsub : ids ⊆ List.range n := fun i hi => List.mem_range.mpr (hlt i hi)
  have := (List.subperm_of_subset hnd hsub).length_le
  simpa using this

theorem IsChain.length_le {ov : List Page} {s : Option Nat} {ids : List Nat}
    (h : IsChain (links ov) s ids) (hnd : ids.Nodup) : ids.length ≤ ov.length :=
  length_le_of_nodup_lt hnd h.lt

theorem chainPages_eq {ov : List Page} {s : Option Nat} {ids : List Nat}
    (h : IsChain (links ov) s ids) (n : Nat) (hn : ids.length ≤ n) :
    chainPages ov n s = pagesAt ov ids := by
  induction ids generalizing s n with
  | nil =>
    have h0 : s = none := h
    subst h0
    cases n <;> simp [chainPages, pagesAt]
  | cons i rest ih =>
    obtain ⟨hs, nxt, hn2, hr⟩ := h
    subst hs
    obtain ⟨m, rfl⟩ : ∃ m, n = m + 1 := ⟨n - 1, by simp at hn; omega⟩
    simp only [links, Option.map_eq_some'] at hn2
    obtain ⟨pg, hpg, hnx⟩ := hn2
    subst hnx
    simp only [chainPages, hpg, pagesAt, List.filterMap_cons]
    rw [ih hr m (by simp at hn; omega)]
    rfl

theorem pagesAt_length {ov : List Page} {s : Option Nat} {ids : List Nat}
    (h : IsChain (links ov) s ids) : (pagesAt ov ids).length = ids.length := by
  induction ids generalizing s with
  | nil => rfl
  | cons i rest ih =>
    obtain ⟨_, nxt, hn2, hr⟩ := h
    simp only [links, Option.map_eq_some'] at hn2
    obtain ⟨pg, hpg, _⟩ := hn2
    simp only [pagesAt, List.filterMap_cons, hpg, List.length_cons]
    have := ih hr
    simp only [pagesAt] at this
    rw [this]

theorem pagesAt_congr {ov ov2 : List Page} {ids : List Nat}
    (h : ∀ i ∈ ids, ov2[i]? = ov[i]?) : pagesAt ov2 ids = pagesAt ov ids := by
  induction ids with
  | nil => rfl
  | cons i rest ih =>
    simp only [pagesAt, List.filterMap_cons, h i (by simp)]
    have := ih (fun j hj => h j (by simp [hj]))
    simp only [pagesAt] at this
    rw [this]

theorem pagesAt_append (ov : List Page) (xs ys : List Nat) :
    pagesAt ov (xs ++ ys) = pagesAt ov xs ++ pagesAt ov ys := by
  simp [pagesAt]

theorem flatMap_range_perm {α : Type} (f g : Nat → List α) (n p : Nat) (X : List α)
    (hp : p < n) (hne : ∀ b, b < n → b ≠ p → g b = f b) (hp2 : (g p).Perm (X ++ f p)) :
    ((List.range n).flatMap g).Perm (X ++ (List.range n).flatMap f) := by
  induction n with
  | zero => omega
  | succ n ih =>
    simp only [List.range_succ, List.flatMap_append, List.flatMap_singleton]
    by_cases hpn : p = n
    · subst hpn
      have hA : (List.range p).flatMap g = (List.range p).flatMap f := by
        apply List.flatMap_congr
        intro b hb
        have hb2 := List.mem_range.mp hb
        exact hne b (by omega) (by omega)
      rw [hA]
      refine (List.Perm.append_left _ hp2).trans ?_
      rw [← List.append_assoc, ← List.append_assoc]
      exact List.Perm.append_right _ List.perm_append_comm
    · have hlt : p < n := by omega
      have h1 := ih hlt (fun b hb hbp => hne b (by omega) hbp)
      rw [hne n (by omega) (by omega), ← List.append_assoc]
      exact List.Perm.append_right _ h1

theorem flatMap_range_congr {α : Type} (f g : Nat → List α) (n : Nat)
    (h : ∀ b, b < n → g b = f b) : (List.range n).flatMap g = (List.range n).flatMap f := by
  apply List.flatMap_congr
  intro b hb
  exact h b (List.mem_range.mp hb)

theorem bucketPages_eq {r : Reln} {b : Nat} {pg : Page} {ids : List Nat}
    (hpg : r.data[b]? = some pg) (hc : IsChain (links r.ovflow) pg.ovflow ids)
    (hnd : ids.Nodup) : bucketPages r b = pg :: pagesAt r.ovflow ids := by
  simp only [bucketPages, hpg]
  rw [chainPages_eq hc _ (hc.length_le hnd)]

theorem bucketTuples_eq {r : Reln} {b : Nat} {pg : Page} {ids : List Nat}
    (hpg : r.data[b]? = some pg) (hc : IsChain (links r.ovflow) pg.ovflow ids)
    (hnd : ids.Nodup) :
    bucketTuples r b = pageTuples pg ++ (pagesAt r.ovflow ids).flatMap pageTuples := by
  simp only [bucketTuples, bucketPages_eq hpg hc hnd, List.flatMap_cons]

theorem WFWith.getPage_some {r : Reln} {ch : Nat → List Nat} (h : WFWith r ch) {b : Nat}
    (hb : b < r.npages) : ∃ pg, r.data[b]? = some pg := by
  have : b < r.data.length := by rw [h.data_len]; exact hb
  exact ⟨r.data[b], List.getElem?_eq_getElem this⟩

theorem WFWith.bucketTuples_wf {r : Reln} {ch : Nat → List Nat} (h : WFWith r ch) {b : Nat}
    (hb : b < r.npages) {pg : Page} (hpg : r.data[b]? = some pg) :
    bucketTuples r b = pageTuples pg ++ (pagesAt r.ovflow (ch b)).flatMap pageTuples :=
  Malh.bucketTuples_eq hpg (h.chain b pg hpg) (h.nodup b hb)

/-- A well-formed relation has what a scan needs. -/
theorem WFWith.scanWF {r : Reln} {ch : Nat → List Nat} (h : WFWith r ch) : ScanWF r ch :=
  { nbuckets_le := Nat.le_of_eq h.npages_eq.symm
    data_len := h.data_len
    cv_ok := h.cv_ok
    data_wf := h.data_wf
    ov_wf := h.ov_wf
    chain := h.chain
    nodup := h.nodup
    arity := h.arity }

theorem ScanWF.page_some {r : Reln} {ch : Nat → List Nat} (h : ScanWF r ch) {b : Nat}
    (hb : b < r.npages) : ∃ pg, r.data[b]? = some pg := by
  have : b < r.data.length := by rw [h.data_len]; exact hb
  exact ⟨r.data[b], List.getElem?_eq_getElem this⟩

theorem ScanWF.bucket_tuples {r : Reln} {ch : Nat → List Nat} (h : ScanWF r ch) {b : Nat}
    (hb : b < r.npages) {pg : Page} (hpg : r.data[b]? = some pg) :
    bucketTuples r b = pageTuples pg ++ (pagesAt r.ovflow (ch b)).flatMap pageTuples :=
  Malh.bucketTuples_eq hpg (h.chain b pg hpg) (h.nodup b hb)

theorem getElem?_lt {α : Type} {l : List α} {i : Nat} {x : α} (h : l[i]? = some x) :
    i < l.length := by
  rcases Nat.lt_or_ge i l.length with h1 | h1
  · exact h1
  · rw [List.getElem?_eq_none h1] at h; cases h

/-- Frame lemma: a change confined to bucket `p` that adds the tuples `X` to it
keeps the relation well-formed and leaves the other buckets as they were. -/
theorem WFWith.frame {r r2 : Reln} {ch ch2 : Nat → List Nat} (h : WFWith r ch) (p : Nat)
    (X : List Tuple) (hp : p < r.npages)
    (hdepth : r2.depth = r.depth) (hsp : r2.sp = r.sp) (hnp : r2.npages = r.npages)
    (hna : r2.nattrs = r.nattrs) (hcv : r2.cv = r.cv)
    (hlen : r2.data.length = r.data.length)
    (hdata : ∀ b, b ≠ p → r2.data[b]? = r.data[b]?)
    (hch : ∀ b, b ≠ p → ch2 b = ch b)
    (hov : ∀ b, b < r.npages → b ≠ p → ∀ i ∈ ch b, r2.ovflow[i]? = r.ovflow[i]?)
    (hdwf : ∀ pg, r2.data[p]? = some pg → PageWF pg)
    (howf : ∀ (i : Nat) (pg : Page), r2.ovflow[i]? = some pg → PageWF pg)
    (hchain : ∀ pg, r2.data[p]? = some pg → IsChain (links r2.ovflow) pg.ovflow (ch2 p))
    (hnd : (ch2 p).Nodup)
    (hfresh : ∀ i ∈ ch2 p, i ∈ ch p ∨ r.ovflow.length ≤ i)
    (hX : ∀ t ∈ X, TupleOK r t)
    (htup : (bucketTuples r2 p).Perm (X ++ bucketTuples r p))
    (hnt : r2.ntups = r.ntups + X.length) :
    WFWith r2 ch2 ∧ (∀ b, b < r.npages → b ≠ p → bucketTuples r2 b = bucketTuples r b) ∧
      (relTuples r2).Perm (X ++ relTuples r) := by
  have hlk : ∀ b, b < r.npages → b ≠ p → ∀ i ∈ ch b, links r2.ovflow i = links r.ovflow i := by
    intro b hb hbp i hi
    simp only [links, hov b hb hbp i hi]
  have hother : ∀ b, b < r.npages → b ≠ p → bucketTuples r2 b = bucketTuples r b := by
    intro b hb hbp
    obtain ⟨pg, hpg⟩ := h.getPage_some hb
    have hpg2 : r2.data[b]? = some pg := by rw [hdata b hbp, hpg]
    have hc2 : IsChain (links r2.ovflow) pg.ovflow (ch b) :=
      (h.chain b pg hpg).congr (hlk b hb hbp)
    rw [Malh.bucketTuples_eq hpg2 hc2 (h.nodup b hb), h.bucketTuples_wf hb hpg,
      pagesAt_congr (hov b hb hbp)]
  have hrel : (relTuples r2).Perm (X ++ relTuples r) := by
    unfold relTuples
    rw [hnp]
    exact flatMap_range_perm _ _ _ p X hp hother htup
  refine ⟨?_, hother, hrel⟩
  refine
    { npages_eq := by rw [hnp, hdepth, hsp]; exact h.npages_eq
      sp_lt := by rw [hdepth, hsp]; exact h.sp_lt
      data_len := by rw [hlen, hnp]; exact h.data_len
      cv_ok := by rw [hcv, hna]; exact h.cv_ok
      data_wf := ?_
      ov_wf := howf
      chain := ?_
      nodup := ?_
      disj := ?_
      arity := ?_
      ntups_eq := ?_ }
  · intro b pg hpg
    by_cases hbp : b = p
    · subst hbp; exact hdwf pg hpg
    · rw [hdata b hbp] at hpg; exact h.data_wf b pg hpg
  · intro b pg hpg
    by_cases hbp : b = p
    · subst hbp; exact hchain pg hpg
    · have hb : b < r.npages := by
        have := getElem?_lt hpg
        rw [hlen, h.data_len] at this
        exact this
      rw [hdata b hbp] at hpg
      rw [hch b hbp]
      exact (h.chain b pg hpg).congr (hlk b hb hbp)
  · intro b hb
    rw [hnp] at hb
    by_cases hbp : b = p
    · subst hbp; exact hnd
    · rw [hch b hbp]; exact h.nodup b hb
  · intro b c hb hc hbc
    rw [hnp] at hb hc
    have key : ∀ c, c < r.npages → c ≠ p → List.Disjoint (ch2 p) (ch c) := by
      intro c hc hcp i hi hic
      rcases hfresh i hi with h1 | h1
      · exact h.disj p c hp hc (Ne.symm hcp) h1 hic
      · obtain ⟨pg, hpg⟩ := h.getPage_some hc
        have := (h.chain c pg hpg).lt i hic
        omega
    by_cases hbp : b = p
    · subst hbp
      have hcp : c ≠ b := Ne.symm hbc
      rw [hch c hcp]
      exact key c hc hcp
    · by_cases hcp : c = p
      · subst hcp
        rw [hch b hbp]
        exact (key b hb hbp).symm
      · rw [hch b hbp, hch c hcp]
        exact h.disj b c hb hc hbc
  · intro b hb t ht
    rw [hnp] at hb
    have hok : ∀ u, TupleOK r u → TupleOK r2 u := by
      intro u hu
      unfold TupleOK at hu ⊢
      rw [hna]; exact hu
    by_cases hbp : b = p
    · subst hbp
      rcases List.mem_append.mp (htup.subset ht) with h1 | h1
      · exact hok t (hX t h1)
      · exact hok t (h.arity b hb t h1)
    · rw [hother b hb hbp] at ht
      exact hok t (h.arity b hb t ht)
  · rw [hnt, hrel.length_eq, List.length_append, h.ntups_eq]
    omega

/-! ## Insertion -/

theorem tupleHashLoop_isSome (hash : List Char → Nat) (cv : ChVec) (vals : List (List Char))
    (n i acc : Nat) (h : ∀ k, i ≤ k → k < i + n → (cv k).att < vals.length) :
    ∃ hv, tupleHashLoop hash cv vals n i acc = some hv := by
  induction n generalizing i acc with
  | zero => exact ⟨acc, rfl⟩
  | succ n ih =>
    have hlt := h i (le_refl i) (by omega)
    simp only [tupleHashLoop, List.getElem?_eq_getElem hlt]
    exact ih (i + 1) _ (fun k hk1 hk2 => h k (by omega) (by omega))

theorem tupleHash_isSome (hash : List Char → Nat) {r : Reln} {t : Tuple}
    (hcv : ∀ k, k < MAXCHVEC → (r.cv k).att < r.nattrs) (hok : TupleOK r t) :
    ∃ hv, tupleHash hash r t = some hv := by
  unfold tupleHash
  apply tupleHashLoop_isSome
  intro k _ hk
  unfold TupleOK at hok
  rw [hok]
  exact hcv k (by simpa using hk)

theorem mod_two_pow_succ (h d : Nat) :
    h % 2 ^ (d + 1) = h % 2 ^ d ∨ h % 2 ^ (d + 1) = h % 2 ^ d + 2 ^ d := by
  rw [Nat.mod_pow_succ]
  rcases Nat.mod_two_eq_zero_or_one (h / 2 ^ d) with h1 | h1 <;> simp [h1]

theorem bucketOf_lt (h d sp : Nat) (hsp : sp < 2 ^ d) : bucketOf h d sp < 2 ^ d + sp := by
  unfold bucketOf getLower
  have hpos : 0 < 2 ^ d := Nat.two_pow_pos d
  have hmod : h % 2 ^ d < 2 ^ d := Nat.mod_lt _ hpos
  split
  · omega
  · simp only
    split
    · rcases mod_two_pow_succ h d with h1 | h1 <;> omega
    · omega

theorem perm_insert_mid {α : Type} (A C X : List α) : (A ++ X ++ C).Perm (X ++ (A ++ C)) := by
  rw [← List.append_assoc]
  exact List.Perm.append_right _ List.perm_append_comm

theorem addToPage_tuples {pg pg1 : Page} {t : Tuple} (hwf : PageWF pg) (hnul : NUL ∉ t)
    (h : addToPage pg t = some pg1) :
    PageHolds pg1 (pageTuples pg ++ [t]) ∧ pg1.ovflow = pg.ovflow := by
  have hfit := addToPage_some_iff.mp ⟨pg1, h⟩
  obtain ⟨p1, h1, h2, h3⟩ := addToPage_holds hwf.holds hnul hfit
  rw [h] at h1
  cases h1
  exact ⟨h2, h3⟩

theorem addToPage_none_of_big {pg : Page} {t : Tuple} (h : PAGESIZE - hdr_size < t.length + 1) :
    addToPage pg t = none := by
  apply addToPage_full
  unfold pageFreeSpace
  omega

theorem addToPage_newPage {t : Tuple} (hnul : NUL ∉ t) (h : t.length + 1 ≤ PAGESIZE - hdr_size) :
    ∃ pg1, addToPage newPage t = some pg1 ∧ PageHolds pg1 [t] ∧ pg1.ovflow = none := by
  obtain ⟨p1, h1, h2, h3⟩ := addToPage_holds newPage_holds hnul (by simpa [pageFreeSpace, newPage] using h)
  exact ⟨p1, h1, by simpa using h2, h3⟩

/-- The scan of the overflow chain stops at the first page with room, or
reaches the end of the chain with its last page in hand. -/
theorem scanChain_spec (ov : List Page) (t : Tuple) (ids : List Nat) :
    ∀ (s prevp : Option Nat) (prevpg : Option Page) (fuel : Nat),
      IsChain (links ov) s ids → ids.length ≤ fuel →
      (∃ l1 i l2 pg pg1, ids = l1 ++ i :: l2 ∧ ov[i]? = some pg ∧ addToPage pg t = some pg1 ∧
          (∀ j ∈ l1, ∀ pgj, ov[j]? = some pgj → addToPage pgj t = none) ∧
          scanChain ov t fuel s prevp prevpg = some (ChainScan.placed i pg1)) ∨
      ((∀ j ∈ ids, ∀ pgj, ov[j]? = some pgj → addToPage pgj t = none) ∧
        ∃ lp lpg, scanChain ov t fuel s prevp prevpg = some (ChainScan.full lp lpg) ∧
          ((ids = [] ∧ lp = prevp ∧ lpg = prevpg) ∨
            ∃ init last pgl, ids = init ++ [last] ∧ lp = some last ∧ lpg = some pgl ∧
              ov[last]? = some pgl ∧ pgl.ovflow = none)) := by
  induction ids with
  | nil =>
    intro s prevp prevpg fuel hc _
    have h0 : s = none := hc
    subst h0
    right
    refine ⟨by simp, prevp, prevpg, ?_, Or.inl ⟨rfl, rfl, rfl⟩⟩
    cases fuel <;> rfl
  | cons i rest ih =>
    intro s prevp prevpg fuel hc hfuel
    obtain ⟨hs, nxt, hn, hr⟩ := hc
    subst hs
    obtain ⟨m, rfl⟩ : ∃ m, fuel = m + 1 := ⟨fuel - 1, by simp at hfuel; omega⟩
    simp only [links, Option.map_eq_some'] at hn
    obtain ⟨pg, hpg, hnx⟩ := hn
    subst hnx
    cases hadd : addToPage pg t with
    | some pg1 =>
      left
      refine ⟨[], i, rest, pg, pg1, rfl, hpg, hadd, by simp, ?_⟩
      simp [scanChain, getPage, hpg, hadd]
    | none =>
      have hstep : scanChain ov t (m + 1) (some i) prevp prevpg =
          scanChain ov t m pg.ovflow (some i) (some pg) := by
        simp [scanChain, getPage, hpg, hadd, pageOvflow]
      rcases ih pg.ovflow (some i) (some pg) m hr (by simp at hfuel; omega) with
        ⟨l1, k, l2, pgk, pgk1, h1, h2, h3, h4, h5⟩ | ⟨h1, lp, lpg, h2, h3⟩
      · left
        refine ⟨i :: l1, k, l2, pgk, pgk1, by simp [h1], h2, h3, ?_, by rw [hstep, h5]⟩
        intro j hj pgj hpgj
        rcases List.mem_cons.mp hj with h6 | h6
        · subst h6; rw [hpg] at hpgj; cases hpgj; exact hadd
        · exact h4 j h6 pgj hpgj
      · right
        refine ⟨?_, lp, lpg, by rw [hstep, h2], Or.inr ?_⟩
        · intro j hj pgj hpgj
          rcases List.mem_cons.mp hj with h6 | h6
          · subst h6; rw [hpg] at hpgj; cases hpgj; exact hadd
          · exact h1 j h6 pgj hpgj
        · rcases h3 with ⟨h4, h5, h6⟩ | ⟨init, last, pgl, h4, h5, h6, h7, h8⟩
          · subst h4
            have h0 : pg.ovflow = none := hr
            exact ⟨[], i, pg, rfl, h5, h6, hpg, h0⟩
          · exact ⟨i :: init, last, pgl, by simp [h4], h5, h6, h7, h8⟩

/-- Replacing a page of a chain by one that stores `X` more. -/
theorem pagesAt_set_perm {ov : List Page} {ids : List Nat} {i : Nat} {pg pg1 : Page}
    {X : List Tuple} (hnd : ids.Nodup) (hi : i ∈ ids) (hpg : ov[i]? = some pg)
    (hX : pageTuples pg1 = pageTuples pg ++ X) :
    ((pagesAt (ov.set i pg1) ids).flatMap pageTuples).Perm
      (X ++ (pagesAt ov ids).flatMap pageTuples) := by
  have hlt := getElem?_lt hpg
  induction ids with
  | nil => simp at hi
  | cons j rest ih =>
    have hnd2 := (List.nodup_cons.mp hnd)
    by_cases hji : j = i
    · subst hji
      have hrest : pagesAt (ov.set j pg1) rest = pagesAt ov rest := by
        apply pagesAt_congr
        intro k hk
        have : j ≠ k := fun h => hnd2.1 (h ▸ hk)
        exact List.getElem?_set_ne this
      have e1 : pagesAt (ov.set j pg1) (j :: rest) = pg1 :: pagesAt ov rest := by
        rw [← hrest]
        simp [pagesAt, hlt]
      have e2 : pagesAt ov (j :: rest) = pg :: pagesAt ov rest := by
        simp [pagesAt, hpg]
      rw [e1, e2]
      simp only [List.flatMap_cons, hX]
      exact perm_insert_mid _ _ _
    · have hi2 : i ∈ rest := by
        rcases List.mem_cons.mp hi with h | h
        · exact absurd h.symm hji
        · exact h
      have e1 : pagesAt (ov.set i pg1) (j :: rest) =
          pagesAt ov [j] ++ pagesAt (ov.set i pg1) rest := by
        have h0 : pagesAt (ov.set i pg1) [j] = pagesAt ov [j] := by
          apply pagesAt_congr
          intro k hk
          simp only [List.mem_singleton] at hk
          subst hk
          exact List.getElem?_set_ne (Ne.symm hji)
        rw [← h0]
        exact pagesAt_append _ [j] rest
      have e2 : pagesAt ov (j :: rest) = pagesAt ov [j] ++ pagesAt ov rest :=
        pagesAt_append _ [j] rest
      rw [e1, e2]
      simp only [List.flatMap_append]
      refine (List.Perm.append_left _ (ih hnd2.2 hi2)).trans ?_
      rw [← List.append_assoc, ← List.append_assoc]
      exact List.Perm.append_right _ List.perm_append_comm

/-- Linking a new page after the last page of a chain. -/
theorem IsChain.snoc {lk lk2 : Nat → Option (Option Nat)} {s : Option Nat} {init : List Nat}
    {last newp : Nat} (h : IsChain lk s (init ++ [last])) (hnd : (init ++ [last]).Nodup)
    (hinit : ∀ i ∈ init, lk2 i = lk i) (hlast : lk2 last = some (some newp))
    (hnew : lk2 newp = some none) : IsChain lk2 s (init ++ [last] ++ [newp]) := by
  induction init generalizing s with
  | nil =>
    obtain ⟨hs, _, _, _⟩ := h
    exact ⟨hs, some newp, hlast, rfl, none, hnew, rfl⟩
  | cons i rest ih =>
    obtain ⟨hs, nxt, hn, hr⟩ := h
    have hnd2 := List.nodup_cons.mp hnd
    exact ⟨hs, nxt, by rw [hinit i (by simp), hn],
      ih hr hnd2.2 (fun j hj => hinit j (by simp [hj]))⟩

section InsertCases

variable {r r2 : Reln} {ch : Nat → List Nat} {p : Nat} {pg : Page} {t : Tuple}

/-- Case 1 of `addTupleToRelation`: the primary page has room. -/
theorem insert_primary (h : WFWith r ch) (hp : p < r.npages) (hpg : r.data[p]? = some pg)
    (hnul : NUL ∉ t) (hok : TupleOK r t) {pg1 : Page} (hadd : addToPage pg t = some pg1)
    (hr2 : r2 = { r with data := putPage r.data p pg1, ntups := r.ntups + 1 }) :
    InsertPost r r2 p [t] := by
  have hlt : p < r.data.length := getElem?_lt hpg
  obtain ⟨hh, hov⟩ := addToPage_tuples (h.data_wf p pg hpg) hnul hadd
  have hput : putPage r.data p pg1 = r.data.set p pg1 := putPage_of_lt pg1 hlt
  have hget : (r.data.set p pg1)[p]? = some pg1 := by simp [hlt]
  have hc : IsChain (links r.ovflow) pg1.ovflow (ch p) := by
    rw [hov]; exact h.chain p pg hpg
  have hd2 : r2.data = r.data.set p pg1 := by rw [hr2, ← hput]
  have ho2 : r2.ovflow = r.ovflow := by rw [hr2]
  have htup : (bucketTuples r2 p).Perm ([t] ++ bucketTuples r p) := by
    rw [@bucketTuples_eq r2 p pg1 (ch p) (by rw [hd2]; exact hget) (by rw [ho2]; exact hc)
      (h.nodup p hp), h.bucketTuples_wf hp hpg, pageTuples_of_holds hh, ho2]
    exact perm_insert_mid _ _ _
  obtain ⟨hwf2, hoth, hrel⟩ := @WFWith.frame r r2 ch ch h p [t] hp (by rw [hr2]) (by rw [hr2])
    (by rw [hr2]) (by rw [hr2]) (by rw [hr2])
    (by simp [hd2]) (fun b hb => by simp [hd2, List.getElem?_set_ne (Ne.symm hb)])
    (fun _ _ => rfl) (fun _ _ _ _ _ => by rw [ho2])
    (fun q hq => by
      simp only [hd2, hget, Option.some.injEq] at hq
      subst hq; exact ⟨_, hh⟩)
    (by rw [ho2]; exact h.ov_wf)
    (fun q hq => by
      simp only [hd2, hget, Option.some.injEq] at hq
      subst hq; rw [ho2]; exact hc)
    (h.nodup p hp) (fun i hi => Or.inl hi)
    (fun u hu => by simp at hu; subst hu; exact hok) htup (by rw [hr2]; rfl)
  exact ⟨by rw [hr2], by rw [hr2], by rw [hr2], by rw [hr2], by rw [hr2], ⟨_, hwf2⟩, hoth, htup,
    hrel, by rw [hr2]; rfl⟩

theorem getElem?_append_singleton {α : Type} (l : List α) (q x : α) (i : Nat)
    (h : (l ++ [q])[i]? = some x) : l[i]? = some x ∨ (i = l.length ∧ x = q) := by
  rcases Nat.lt_trichotomy i l.length with h1 | h1 | h1
  · left; rwa [List.getElem?_append_left h1] at h
  · right; subst h1; simp at h; exact ⟨rfl, h.symm⟩
  · rw [List.getElem?_eq_none (by simp; omega)] at h; cases h

theorem getElem?_set_cases {α : Type} (l : List α) (q x : α) (i j : Nat)
    (h : (l.set i q)[j]? = some x) : l[j]? = some x ∨ (j = i ∧ x = q) := by
  by_cases hji : j = i
  · subst hji
    have hlt : j < l.length := by simpa using getElem?_lt h
    simp [hlt] at h
    exact Or.inr ⟨rfl, h.symm⟩
  · left; rwa [List.getElem?_set_ne (Ne.symm hji)] at h

/-- Case 2 of `addTupleToRelation`: the primary page is full and has no
overflow chain; a page `q` storing `X` becomes the first overflow page. -/
theorem insert_first_ovflow (h : WFWith r ch) (hp : p < r.npages) (hpg : r.data[p]? = some pg)
    (hlink : pg.ovflow = none) {q : Page} {X : List Tuple} (hq : PageHolds q X)
    (hqo : q.ovflow = none) (hX : ∀ u ∈ X, TupleOK r u)
    (hr2 : r2 = { r with data := r.data.set p (pageSetOvflow pg (some r.ovflow.length))
                         ovflow := r.ovflow ++ [q], ntups := r.ntups + X.length }) :
    InsertPost r r2 p X := by
  have hlt : p < r.data.length := getElem?_lt hpg
  have hd2 : r2.data = r.data.set p (pageSetOvflow pg (some r.ovflow.length)) := by rw [hr2]
  have ho2 : r2.ovflow = r.ovflow ++ [q] := by rw [hr2]
  have hget : r2.data[p]? = some (pageSetOvflow pg (some r.ovflow.length)) := by
    rw [hd2]; simp [hlt]
  have hchp : ch p = [] := by
    have := h.chain p pg hpg
    rw [hlink] at this
    exact IsChain.ids_unique this (show IsChain _ none [] from rfl)
  have hc : IsChain (links r2.ovflow) (some r.ovflow.length) [r.ovflow.length] := by
    refine ⟨rfl, none, ?_, rfl⟩
    rw [ho2, links_append_eq, hqo]
  have hotherlt : ∀ b, b < r.npages → ∀ i ∈ ch b, i < r.ovflow.length := by
    intro b hb i hi
    obtain ⟨pgb, hpgb⟩ := h.getPage_some hb
    exact (h.chain b pgb hpgb).lt i hi
  have htup : (bucketTuples r2 p).Perm (X ++ bucketTuples r p) := by
    rw [@bucketTuples_eq r2 p _ [r.ovflow.length] hget hc (by simp), h.bucketTuples_wf hp hpg,
      hchp, ho2]
    have : pagesAt (r.ovflow ++ [q]) [r.ovflow.length] = [q] := by simp [pagesAt]
    rw [this]
    simp only [pagesAt, List.filterMap_nil, List.flatMap_nil, List.append_nil,
      List.flatMap_cons, pageTuples_pageSetOvflow, pageTuples_of_holds hq]
    exact List.perm_append_comm
  obtain ⟨hwf2, hoth, hrel⟩ := @WFWith.frame r r2 ch (Function.update ch p [r.ovflow.length]) h p X
    hp (by rw [hr2]) (by rw [hr2]) (by rw [hr2]) (by rw [hr2]) (by rw [hr2])
    (by simp [hd2]) (fun b hb => by simp [hd2, List.getElem?_set_ne (Ne.symm hb)])
    (fun b hb => Function.update_noteq hb _ _)
    (fun b hb _ i hi => by rw [ho2, List.getElem?_append_left (hotherlt b hb i hi)])
    (fun x hx => by
      rw [hget] at hx; cases hx
      exact ⟨_, pageSetOvflow_holds _ (h.data_wf p pg hpg).holds⟩)
    (fun i x hx => by
      rw [ho2] at hx
      rcases getElem?_append_singleton _ _ _ _ hx with h1 | ⟨_, h1⟩
      · exact h.ov_wf i x h1
      · subst h1; exact ⟨_, hq⟩)
    (fun x hx => by
      rw [hget] at hx; cases hx
      simp only [Function.update_same]
      exact hc)
    (by simp) (fun i hi => by
      simp only [Function.update_same, List.mem_singleton] at hi
      subst hi; exact Or.inr (le_refl _))
    hX htup (by rw [hr2])
  exact ⟨by rw [hr2], by rw [hr2], by rw [hr2], by rw [hr2], by rw [hr2], ⟨_, hwf2⟩, hoth, htup,
    hrel, by rw [hr2]⟩

/-- Case 3 of `addTupleToRelation`, first outcome: a page of the overflow
chain has room. -/
theorem insert_chain_placed (h : WFWith r ch) (hp : p < r.npages) (hpg : r.data[p]? = some pg)
    (hnul : NUL ∉ t) (hok : TupleOK r t) {i : Nat} {pgi pg1 : Page} (hi : i ∈ ch p)
    (hpgi : r.ovflow[i]? = some pgi) (hadd : addToPage pgi t = some pg1)
    (hr2 : r2 = { r with ovflow := r.ovflow.set i pg1, ntups := r.ntups + 1 }) :
    InsertPost r r2 p [t] := by
  have hd2 : r2.data = r.data := by rw [hr2]
  have ho2 : r2.ovflow = r.ovflow.set i pg1 := by rw [hr2]
  obtain ⟨hh, hov⟩ := addToPage_tuples (h.ov_wf i pgi hpgi) hnul hadd
  have hc : IsChain (links r2.ovflow) pg.ovflow (ch p) := by
    rw [ho2]
    exact (h.chain p pg hpg).congr (fun j _ => links_set_same _ _ _ _ _ hpgi hov)
  have htup : (bucketTuples r2 p).Perm ([t] ++ bucketTuples r p) := by
    rw [@bucketTuples_eq r2 p pg (ch p) (by rw [hd2]; exact hpg) hc (h.nodup p hp),
      h.bucketTuples_wf hp hpg, ho2]
    refine (List.Perm.append_left _
      (pagesAt_set_perm (h.nodup p hp) hi hpgi (pageTuples_of_holds hh))).trans ?_
    rw [← List.append_assoc, ← List.append_assoc]
    exact List.Perm.append_right _ List.perm_append_comm
  obtain ⟨hwf2, hoth, hrel⟩ := @WFWith.frame r r2 ch ch h p [t] hp (by rw [hr2]) (by rw [hr2])
    (by rw [hr2]) (by rw [hr2]) (by rw [hr2]) (by rw [hd2]) (fun b _ => by rw [hd2])
    (fun _ _ => rfl)
    (fun b hb hbp j hj => by
      rw [ho2]
      have : i ≠ j := fun e => h.disj p b hp hb (Ne.symm hbp) hi (e ▸ hj)
      exact List.getElem?_set_ne this)
    (fun x hx => by rw [hd2] at hx; exact h.data_wf p x hx)
    (fun j x hx => by
      rw [ho2] at hx
      rcases getElem?_set_cases _ _ _ _ _ hx with h1 | ⟨_, h1⟩
      · exact h.ov_wf j x h1
      · subst h1; exact ⟨_, hh⟩)
    (fun x hx => by
      rw [hd2, hpg] at hx; cases hx
      exact hc)
    (h.nodup p hp) (fun j hj => Or.inl hj)
    (fun u hu => by simp at hu; subst hu; exact hok) htup (by rw [hr2]; rfl)
  exact ⟨by rw [hr2], by rw [hr2], by rw [hr2], by rw [hr2], by rw [hr2], ⟨_, hwf2⟩, hoth, htup,
    hrel, by rw [hr2]; rfl⟩

/-- Case 3 of `addTupleToRelation`, second outcome: every page of the chain is
full; a page `q` storing `t` is appended and linked after the last page. -/
theorem insert_chain_new (h : WFWith r ch) (hp : p < r.npages) (hpg : r.data[p]? = some pg)
    (hok : TupleOK r t) {init : List Nat} {last : Nat} {pgl q : Page}
    (hids : ch p = init ++ [last]) (hpgl : r.ovflow[last]? = some pgl)
    (hq : PageHolds q [t]) (hqo : q.ovflow = none)
    (hr2 : r2 = { r with ovflow := (r.ovflow ++ [q]).set last
                                     (pageSetOvflow pgl (some r.ovflow.length))
                         ntups := r.ntups + 1 }) :
    InsertPost r r2 p [t] := by
  have hd2 : r2.data = r.data := by rw [hr2]
  have ho2 : r2.ovflow =
      (r.ovflow ++ [q]).set last (pageSetOvflow pgl (some r.ovflow.length)) := by rw [hr2]
  have hlast : last < r.ovflow.length := getElem?_lt hpgl
  have hc0 := h.chain p pg hpg
  have hnd0 := h.nodup p hp
  rw [hids] at hc0 hnd0
  have hlastin : last ∉ init := by
    intro hin
    have := List.disjoint_of_nodup_append hnd0 hin
    simp at this
  have hinitlt : ∀ j ∈ init, j < r.ovflow.length := fun j hj => hc0.lt j (by simp [hj])
  have hget : ∀ j, j < r.ovflow.length → j ≠ last → r2.ovflow[j]? = r.ovflow[j]? := by
    intro j hj hjl
    rw [ho2, List.getElem?_set_ne (Ne.symm hjl), List.getElem?_append_left hj]
  have hgetlast : r2.ovflow[last]? = some (pageSetOvflow pgl (some r.ovflow.length)) := by
    rw [ho2]
    exact List.getElem?_set_self (by simp; omega)
  have hgetnew : r2.ovflow[r.ovflow.length]? = some q := by
    rw [ho2, List.getElem?_set_ne (by omega)]
    simp
  have hc : IsChain (links r2.ovflow) pg.ovflow (init ++ [last] ++ [r.ovflow.length]) := by
    refine hc0.snoc hnd0 ?_ ?_ ?_
    · intro j hj
      have : j ≠ last := fun e => hlastin (e ▸ hj)
      simp only [links, hget j (hinitlt j hj) this]
    · simp [links, hgetlast, pageSetOvflow]
    · simp [links, hgetnew, hqo]
  have hnd : (init ++ [last] ++ [r.ovflow.length]).Nodup := by
    refine List.Nodup.append hnd0 (by simp) ?_
    intro j hj hj2
    simp only [List.mem_singleton] at hj2
    subst hj2
    have := hc0.lt _ hj
    omega
  have htup : (bucketTuples r2 p).Perm ([t] ++ bucketTuples r p) := by
    rw [@bucketTuples_eq r2 p pg _ (by rw [hd2]; exact hpg) hc hnd,
      h.bucketTuples_wf hp hpg, hids]
    have e1 : pagesAt r2.ovflow (init ++ [last] ++ [r.ovflow.length]) =
        pagesAt r.ovflow init ++ [pageSetOvflow pgl (some r.ovflow.length)] ++ [q] := by
      rw [pagesAt_append, pagesAt_append]
      congr 1
      · congr 1
        · apply pagesAt_congr
          intro j hj
          exact hget j (hinitlt j hj) (fun e => hlastin (e ▸ hj))
        · simp [pagesAt, hgetlast]
      · simp [pagesAt, hgetnew]
    have e2 : pagesAt r.ovflow (init ++ [last]) = pagesAt r.ovflow init ++ [pgl] := by
      rw [pagesAt_append]
      simp [pagesAt, hpgl]
    rw [e1, e2]
    simp only [List.flatMap_append, List.flatMap_cons, List.flatMap_nil, List.append_nil,
      pageTuples_pageSetOvflow, pageTuples_of_holds hq]
    rw [← List.append_assoc, ← List.append_assoc]
    exact List.perm_append_comm
  obtain ⟨hwf2, hoth, hrel⟩ := @WFWith.frame r r2 ch
    (Function.update ch p (init ++ [last] ++ [r.ovflow.length])) h p [t] hp
    (by rw [hr2]) (by rw [hr2]) (by rw [hr2]) (by rw [hr2]) (by rw [hr2]) (by rw [hd2])
    (fun b _ => by rw [hd2]) (fun b hb => Function.update_noteq hb _ _)
    (fun b hb hbp j hj => by
      obtain ⟨pgb, hpgb⟩ := h.getPage_some hb
      refine hget j ((h.chain b pgb hpgb).lt j hj) ?_
      intro e
      exact h.disj p b hp hb (Ne.symm hbp) (by rw [hids]; simp) (e ▸ hj))
    (fun x hx => by rw [hd2] at hx; exact h.data_wf p x hx)
    (fun j x hx => by
      rw [ho2] at hx
      rcases getElem?_set_cases _ _ _ _ _ hx with h1 | ⟨_, h1⟩
      · rcases getElem?_append_singleton _ _ _ _ h1 with h2 | ⟨_, h2⟩
        · exact h.ov_wf j x h2
        · subst h2; exact ⟨_, hq⟩
      · subst h1; exact ⟨_, pageSetOvflow_holds _ (h.ov_wf last pgl hpgl).holds⟩)
    (fun x hx => by
      rw [hd2, hpg] at hx; cases hx
      simp only [Function.update_same]
      exact hc)
    (by simp only [Function.update_same]; exact hnd)
    (fun j hj => by
      simp only [Function.update_same] at hj
      rcases List.mem_append.mp hj with h1 | h1
      · left; rw [hids]; exact h1
      · right; simp only [List.mem_singleton] at h1; omega)
    (fun u hu => by simp at hu; subst hu; exact hok) htup (by rw [hr2]; rfl)
  exact ⟨by rw [hr2], by rw [hr2], by rw [hr2], by rw [hr2], by rw [hr2], ⟨_, hwf2⟩, hoth, htup,
    hrel, by rw [hr2]; rfl⟩

/-- A failed insertion into a bucket with an overflow chain leaves one more,
empty, page in the overflow file. -/
theorem insert_orphan (h : WFWith r ch) (hp : p < r.npages)
    (hr2 : r2 = { r with ovflow := r.ovflow ++ [newPage] }) :
    InsertPost r r2 p [] := by
  have hd2 : r2.data = r.data := by rw [hr2]
  have ho2 : r2.ovflow = r.ovflow ++ [newPage] := by rw [hr2]
  obtain ⟨pg, hpg⟩ := h.getPage_some hp
  have hlt : ∀ b, b < r.npages → ∀ i ∈ ch b, i < r.ovflow.length := by
    intro b hb i hi
    obtain ⟨pgb, hpgb⟩ := h.getPage_some hb
    exact (h.chain b pgb hpgb).lt i hi
  have hc : IsChain (links r2.ovflow) pg.ovflow (ch p) := by
    refine (h.chain p pg hpg).congr (fun j hj => ?_)
    rw [ho2, links_append_lt _ _ _ (hlt p hp j hj)]
  have htup : (bucketTuples r2 p).Perm ([] ++ bucketTuples r p) := by
    rw [@bucketTuples_eq r2 p pg (ch p) (by rw [hd2]; exact hpg) hc (h.nodup p hp),
      h.bucketTuples_wf hp hpg]
    rw [@pagesAt_congr r.ovflow r2.ovflow (ch p)
      (fun j hj => by rw [ho2, List.getElem?_append_left (hlt p hp j hj)])]
    exact List.Perm.refl _
  obtain ⟨hwf2, hoth, hrel⟩ := @WFWith.frame r r2 ch ch h p [] hp (by rw [hr2]) (by rw [hr2])
    (by rw [hr2]) (by rw [hr2]) (by rw [hr2]) (by rw [hd2]) (fun b _ => by rw [hd2])
    (fun _ _ => rfl)
    (fun b hb _ j hj => by rw [ho2, List.getElem?_append_left (hlt b hb j hj)])
    (fun x hx => by rw [hd2] at hx; exact h.data_wf p x hx)
    (fun j x hx => by
      rw [ho2] at hx
      rcases getElem?_append_singleton _ _ _ _ hx with h2 | ⟨_, h2⟩
      · exact h.ov_wf j x h2
      · subst h2; exact ⟨_, newPage_holds⟩)
    (fun x hx => by
      rw [hd2, hpg] at hx; cases hx
      exact hc)
    (h.nodup p hp) (fun j hj => Or.inl hj) (by simp) htup (by rw [hr2]; rfl)
  exact ⟨by rw [hr2], by rw [hr2], by rw [hr2], by rw [hr2], by rw [hr2], ⟨_, hwf2⟩, hoth, htup,
    hrel, by rw [hr2]; rfl⟩

end InsertCases

theorem WFWith.bucketOf_lt_npages {r : Reln} {ch : Nat → List Nat} (h : WFWith r ch) (hv : Nat) :
    bucketOf hv r.depth r.sp < r.npages := by
  rw [h.npages_eq]
  exact Malh.bucketOf_lt hv r.depth r.sp h.sp_lt

/-- On a well-formed relation `addTupleToRelation` returns: with the selected
bucket when the tuple fits an empty page, with `NO_PAGE` otherwise. -/
theorem addTupleToRelation_spec (hash : List Char → Nat) {r : Reln} {ch : Nat → List Nat}
    (h : WFWith r ch) {t : Tuple} (hnul : NUL ∉ t) (hok : TupleOK r t) :
    ∃ hv, tupleHash hash r t = some hv ∧ ∃ r2,
      (t.length + 1 ≤ PAGESIZE - hdr_size →
        addTupleToRelation hash r t = some (r2, some (bucketOf hv r.depth r.sp)) ∧
          InsertPost r r2 (bucketOf hv r.depth r.sp) [t]) ∧
      (PAGESIZE - hdr_size < t.length + 1 →
        addTupleToRelation hash r t = some (r2, NO_PAGE) ∧
          InsertPost r r2 (bucketOf hv r.depth r.sp) []) := by
  obtain ⟨hv, hhv⟩ := tupleHash_isSome hash h.cv_ok hok
  refine ⟨hv, hhv, ?_⟩
  have hp := h.bucketOf_lt_npages hv
  obtain ⟨pg, hpg⟩ := h.getPage_some hp
  have hplt : bucketOf hv r.depth r.sp < r.data.length := getElem?_lt hpg
  have hchain := h.chain _ pg hpg
  have hfuel : (ch (bucketOf hv r.depth r.sp)).length ≤ r.ovflow.length + 1 :=
    Nat.le_succ_of_le (hchain.length_le (h.nodup _ hp))
  have hnewget : (addPage r.ovflow).1[(addPage r.ovflow).2]? = some newPage := by
    simp [addPage_fst, addPage_snd]
  by_cases hfit : t.length + 1 ≤ PAGESIZE - hdr_size
  · obtain ⟨q, hq1, hq2, hq3⟩ := addToPage_newPage hnul hfit
    have hput1 : putPage (addPage r.ovflow).1 (addPage r.ovflow).2 q = r.ovflow ++ [q] := by
      rw [addPage_fst, addPage_snd, putPage_of_lt _ (by simp)]
      simp
    cases hadd : addToPage pg t with
    | some pg1 =>
      refine ⟨_, fun _ => ⟨?_, insert_primary h hp hpg hnul hok hadd rfl⟩, fun hbig => by omega⟩
      simp only [addTupleToRelation, hhv, getPage, hpg, hadd]
    | none =>
      cases hlink : pg.ovflow with
      | none =>
        refine ⟨_, fun _ => ⟨?_, insert_first_ovflow h hp hpg hlink hq2 hq3
          (fun u hu => by simp at hu; subst hu; exact hok) rfl⟩, fun hbig => by omega⟩
        simp only [addTupleToRelation, hhv, getPage, hpg, hadd, pageOvflow, hlink, hnewget, hq1,
          hput1, putPage_of_lt _ hplt]
        rfl
      | some ovp0 =>
        rw [hlink] at hchain
        rcases scanChain_spec r.ovflow t _ (some ovp0) NO_PAGE none (r.ovflow.length + 1)
            hchain hfuel with
          ⟨l1, i, l2, pgi, pg1, h1, h2, h3, _, h5⟩ | ⟨_, lp, lpg, h2, h3⟩
        · have hi : i ∈ ch (bucketOf hv r.depth r.sp) := by rw [h1]; simp
          refine ⟨_, fun _ => ⟨?_, insert_chain_placed h hp hpg hnul hok hi h2 h3 rfl⟩,
            fun hbig => by omega⟩
          simp only [addTupleToRelation, hhv, getPage, hpg, hadd, pageOvflow, hlink, h5,
            putPage_of_lt _ (getElem?_lt h2)]
        · rcases h3 with ⟨h4, _, _⟩ | ⟨init, last, pgl, h4, h5, h6, h7, _⟩
          · rw [h4] at hchain
            cases (show some ovp0 = none from hchain)
          · subst h5 h6
            refine ⟨_, fun _ => ⟨?_, insert_chain_new h hp hpg hok h4 h7 hq2 hq3 rfl⟩,
              fun hbig => by omega⟩
            simp only [addTupleToRelation, hhv, getPage, hpg, hadd, pageOvflow, hlink, h2,
              hnewget, hq1, hput1]
            rw [putPage_of_lt _ (by simp; have := getElem?_lt h7; omega)]
            rfl
  · have hbig : PAGESIZE - hdr_size < t.length + 1 := by omega
    have hnone : ∀ x : Page, addToPage x t = none := fun x => addToPage_none_of_big hbig
    cases hlink : pg.ovflow with
    | none =>
      refine ⟨_, fun hf => absurd hf hfit, fun _ => ⟨?_, insert_first_ovflow h hp hpg hlink
        newPage_holds rfl (by simp) rfl⟩⟩
      simp only [addTupleToRelation, hhv, getPage, hpg, hnone, pageOvflow, hlink, hnewget,
        putPage_of_lt _ hplt]
      simp only [addPage_fst, addPage_snd]
      rfl
    | some ovp0 =>
      rw [hlink] at hchain
      rcases scanChain_spec r.ovflow t _ (some ovp0) NO_PAGE none (r.ovflow.length + 1)
          hchain hfuel with
        ⟨l1, i, l2, pgi, pg1, h1, h2, h3, _, h5⟩ | ⟨_, lp, lpg, h2, h3⟩
      · rw [hnone] at h3; cases h3
      · rcases h3 with ⟨h4, _, _⟩ | ⟨init, last, pgl, h4, h5, h6, h7, _⟩
        · rw [h4] at hchain
          cases (show some ovp0 = none from hchain)
        · subst h5 h6
          refine ⟨_, fun hf => absurd hf hfit, fun _ => ⟨?_, insert_orphan h hp rfl⟩⟩
          simp only [addTupleToRelation, hhv, getPage, hpg, hnone, pageOvflow, hlink, h2,
            hnewget]
          simp only [addPage_fst]

/-! ## Splitting -/

theorem copyTuples_spec (l : List Tuple) (n i : Nat) (acc : List Tuple) (h : i + n ≤ l.length) :
    copyTuples l n i acc = some (acc ++ (l.drop i).take n) := by
  induction n generalizing i acc with
  | zero => simp [copyTuples]
  | succ n ih =>
    have hi : i < l.length := by omega
    simp only [copyTuples, List.getElem?_eq_getElem hi]
    rw [ih (i + 1) _ (by omega), List.drop_eq_getElem_cons hi, List.take_succ_cons,
      List.append_assoc]
    rfl

theorem PageWF.ntuples_eq {pg : Page} (h : PageWF pg) : pg.ntuples = (pageTuples pg).length :=
  h.holds.2.2.2.1

theorem copyTuples_page {pg : Page} (hwf : PageWF pg) (acc : List Tuple) :
    copyTuples (dataTotupleList (pageData pg) (PAGESIZE - pageFreeSpace pg - hdr_size))
      (pageNTuples pg) 0 acc = some (acc ++ pageTuples pg) := by
  obtain ⟨junk, hj⟩ := dataTotupleList_drop hwf.holds 0
  simp only [List.take_zero, encode, List.length_nil, List.drop_zero] at hj
  rw [copyTuples_spec _ _ _ _ (by rw [hj, pageNTuples, hwf.ntuples_eq]; simp)]
  rfl

theorem countChain_spec (ov : List Page) (ids : List Nat) :
    ∀ (s : Option Nat) (fuel total : Nat), IsChain (links ov) s ids → ids.length ≤ fuel →
      (∀ (i : Nat) (pg : Page), ov[i]? = some pg → PageWF pg) →
      countChain ov fuel s total =
        some (total + ((pagesAt ov ids).flatMap pageTuples).length, none) := by
  induction ids with
  | nil =>
    intro s fuel total hc _ _
    have h0 : s = none := hc
    subst h0
    cases fuel <;> simp [countChain, pagesAt]
  | cons i rest ih =>
    intro s fuel total hc hfuel hwf
    obtain ⟨hs, nxt, hn, hr⟩ := hc
    subst hs
    obtain ⟨m, rfl⟩ : ∃ m, fuel = m + 1 := ⟨fuel - 1, by simp at hfuel; omega⟩
    simp only [links, Option.map_eq_some'] at hn
    obtain ⟨pg, hpg, hnx⟩ := hn
    subst hnx
    simp only [countChain, getPage, hpg, pageOvflow]
    rw [ih _ m _ hr (by simp at hfuel; omega) hwf]
    have e : pagesAt ov (i :: rest) = pg :: pagesAt ov rest := by simp [pagesAt, hpg]
    rw [e, pageNTuples, (hwf i pg hpg).ntuples_eq]
    simp only [List.flatMap_cons, List.length_append]
    rw [Nat.add_assoc]

/-- The clearing loop of `pageSplit` collects the tuples of the chain and
leaves every page of the chain empty with its link kept. -/
theorem clearChain_spec (ids : List Nat) :
    ∀ (ov : List Page) (s : Option Nat) (fuel : Nat) (acc : List Tuple),
      IsChain (links ov) s ids → ids.Nodup → ids.length ≤ fuel →
      (∀ (i : Nat) (pg : Page), ov[i]? = some pg → PageWF pg) →
      ∃ ov2, clearChain fuel ov s acc = some (ov2, acc ++ (pagesAt ov ids).flatMap pageTuples) ∧
        ov2.length = ov.length ∧ (∀ j, j ∉ ids → ov2[j]? = ov[j]?) ∧
        (∀ j, j ∈ ids → ∃ pg, ov[j]? = some pg ∧ ov2[j]? = some (pageSetOvflow newPage pg.ovflow)) := by
  induction ids with
  | nil =>
    intro ov s fuel acc hc _ _ _
    have h0 : s = none := hc
    subst h0
    refine ⟨ov, ?_, rfl, fun _ _ => rfl, by simp⟩
    cases fuel <;> simp [clearChain, pagesAt]
  | cons i rest ih =>
    intro ov s fuel acc hc hnd hfuel hwf
    obtain ⟨hs, nxt, hn, hr⟩ := hc
    subst hs
    obtain ⟨m, rfl⟩ : ∃ m, fuel = m + 1 := ⟨fuel - 1, by simp at hfuel; omega⟩
    simp only [links, Option.map_eq_some'] at hn
    obtain ⟨pg, hpg, hnx⟩ := hn
    subst hnx
    have hnd2 := List.nodup_cons.mp hnd
    have hlt : i < ov.length := getElem?_lt hpg
    have hr1 : IsChain (links (ov.set i (pageSetOvflow newPage pg.ovflow))) pg.ovflow rest :=
      hr.congr (fun j _ => links_set_same _ _ _ _ _ hpg rfl)
    have hwf1 : ∀ (j : Nat) (x : Page),
        (ov.set i (pageSetOvflow newPage pg.ovflow))[j]? = some x → PageWF x := by
      intro j x hx
      rcases getElem?_set_cases _ _ _ _ _ hx with h1 | ⟨_, h1⟩
      · exact hwf j x h1
      · subst h1; exact ⟨_, pageSetOvflow_holds _ newPage_holds⟩
    obtain ⟨ov2, h1, h2, h3, h4⟩ := ih (ov.set i (pageSetOvflow newPage pg.ovflow)) pg.ovflow m
      (acc ++ pageTuples pg) hr1 hnd2.2 (by simp at hfuel; omega) hwf1
    have hrest : pagesAt (ov.set i (pageSetOvflow newPage pg.ovflow)) rest = pagesAt ov rest := by
      apply pagesAt_congr
      intro k hk
      exact List.getElem?_set_ne (fun e => hnd2.1 (by rw [e]; exact hk))
    refine ⟨ov2, ?_, by rw [h2]; simp, ?_, ?_⟩
    · simp only [clearChain, getPage, hpg, copyTuples_page (hwf i pg hpg), pageOvflow,
        putPage_of_lt _ hlt, h1, hrest]
      have e : pagesAt ov (i :: rest) = pg :: pagesAt ov rest := by simp [pagesAt, hpg]
      rw [e]
      simp
    · intro j hj
      have hji : j ≠ i := fun e => hj (by simp [e])
      rw [h3 j (fun e => hj (by simp [e])), List.getElem?_set_ne (Ne.symm hji)]
    · intro j hj
      rcases List.mem_cons.mp hj with e | e
      · subst e
        refine ⟨pg, hpg, ?_⟩
        rw [h3 j hnd2.1, List.getElem?_set_self hlt]
      · obtain ⟨x, hx1, hx2⟩ := h4 j e
        have hji : i ≠ j := fun e2 => hnd2.1 (by rw [e2]; exact e)
        rw [List.getElem?_set_ne hji] at hx1
        exact ⟨x, hx1, hx2⟩

theorem advance_inv (d sp : Nat) (h : sp < 2 ^ d) :
    2 ^ d + sp + 1 = 2 ^ (advance d sp).1 + (advance d sp).2 ∧
      (advance d sp).2 < 2 ^ (advance d sp).1 := by
  unfold advance
  split
  · simp only [Nat.pow_succ]
    have := Nat.two_pow_pos d
    omega
  · simp only
    omega

theorem WFWith.sp_lt_npages {r : Reln} {ch : Nat → List Nat} (h : WFWith r ch) :
    r.sp < r.npages := by
  have := h.sp_lt
  rw [h.npages_eq]
  omega

/-- The state of `pageSplit` before the reinsertion: bucket `sp` and the new
bucket are empty, the other buckets are as before. -/
theorem split_cleared {r r2 : Reln} {ch : Nat → List Nat} (h : WFWith r ch) {ov2 : List Page}
    (hout : ∀ j, j ∉ ch r.sp → ov2[j]? = r.ovflow[j]?)
    (hin : ∀ j, j ∈ ch r.sp →
      ∃ pg, r.ovflow[j]? = some pg ∧ ov2[j]? = some (pageSetOvflow newPage pg.ovflow))
    (hdata : r2.data = (r.data ++ [newPage]).set r.sp (pageSetOvflow newPage none))
    (hov : r2.ovflow = ov2) (hnp : r2.npages = r.npages + 1)
    (hds : (r2.depth, r2.sp) = advance r.depth r.sp) (hna : r2.nattrs = r.nattrs)
    (hcv : r2.cv = r.cv) (hnt : r2.ntups = r.ntups - (bucketTuples r r.sp).length) :
    RelnWF r2 ∧ (∀ b, b < r.npages → b ≠ r.sp → bucketTuples r2 b = bucketTuples r b) ∧
      bucketTuples r2 r.sp = [] ∧ bucketTuples r2 r.npages = [] ∧
      (relTuples r).Perm (bucketTuples r r.sp ++ relTuples r2) := by
  have hsp := h.sp_lt_npages
  have hdl := h.data_len
  have hd : r2.depth = (advance r.depth r.sp).1 := by rw [← hds]
  have hs : r2.sp = (advance r.depth r.sp).2 := by rw [← hds]
  have hadv := advance_inv r.depth r.sp h.sp_lt
  have hlk : ∀ j, links r2.ovflow j = links r.ovflow j := by
    intro j
    rw [hov]
    by_cases hj : j ∈ ch r.sp
    · obtain ⟨pg, h1, h2⟩ := hin j hj
      simp [links, h1, h2, pageSetOvflow]
    · simp only [links, hout j hj]
  have hgsp : r2.data[r.sp]? = some (pageSetOvflow newPage none) := by
    rw [hdata]
    exact List.getElem?_set_self (by simp; omega)
  have hgnew : r2.data[r.npages]? = some newPage := by
    rw [hdata, List.getElem?_set_ne (by omega), ← hdl]
    simp
  have hgother : ∀ b, b < r.npages → b ≠ r.sp → r2.data[b]? = r.data[b]? := by
    intro b hb hbs
    rw [hdata, List.getElem?_set_ne (Ne.symm hbs), List.getElem?_append_left (by omega)]
  have hbsp : bucketTuples r2 r.sp = [] := by
    rw [@bucketTuples_eq r2 r.sp _ [] hgsp rfl (by simp)]
    simp [pagesAt, pageTuples_pageSetOvflow, pageTuples_newPage]
  have hbnew : bucketTuples r2 r.npages = [] := by
    rw [@bucketTuples_eq r2 r.npages _ [] hgnew rfl (by simp)]
    simp [pagesAt, pageTuples_newPage]
  have hother : ∀ b, b < r.npages → b ≠ r.sp → bucketTuples r2 b = bucketTuples r b := by
    intro b hb hbs
    obtain ⟨pg, hpg⟩ := h.getPage_some hb
    have hc := h.chain b pg hpg
    rw [@bucketTuples_eq r2 b pg (ch b) (by rw [hgother b hb hbs, hpg])
      (hc.congr (fun j _ => hlk j)) (h.nodup b hb), h.bucketTuples_wf hb hpg]
    rw [@pagesAt_congr r.ovflow r2.ovflow (ch b) (fun j hj => by
      rw [hov]
      exact hout j (fun hj2 => h.disj b r.sp hb hsp hbs hj hj2))]
  have hrel : (relTuples r).Perm (bucketTuples r r.sp ++ relTuples r2) := by
    have e : relTuples r2 = (List.range r.npages).flatMap (bucketTuples r2) := by
      unfold relTuples
      rw [hnp, List.range_succ, List.flatMap_append]
      simp [hbnew]
    rw [e]
    exact flatMap_range_perm (bucketTuples r2) (bucketTuples r) r.npages r.sp _ hsp
      (fun b hb hbs => (hother b hb hbs).symm) (by rw [hbsp]; simp)
  refine ⟨⟨fun b => if b = r.sp ∨ b = r.npages then [] else ch b, ?_⟩, hother, hbsp, hbnew, hrel⟩
  have hbcases : ∀ b, b < r2.npages → b = r.sp ∨ b = r.npages ∨ (b < r.npages ∧ b ≠ r.sp) := by
    intro b hb
    rw [hnp] at hb
    omega
  refine
    { npages_eq := by rw [hnp, hd, hs, h.npages_eq]; exact hadv.1
      sp_lt := by rw [hd, hs]; exact hadv.2
      data_len := by rw [hdata, hnp]; simp [hdl]
      cv_ok := by rw [hcv, hna]; exact h.cv_ok
      data_wf := ?_
      ov_wf := ?_
      chain := ?_
      nodup := ?_
      disj := ?_
      arity := ?_
      ntups_eq := ?_ }
  · intro b pg hpg
    rw [hdata] at hpg
    rcases getElem?_set_cases _ _ _ _ _ hpg with h1 | ⟨_, h1⟩
    · rcases getElem?_append_singleton _ _ _ _ h1 with h2 | ⟨_, h2⟩
      · exact h.data_wf b pg h2
      · subst h2; exact ⟨_, newPage_holds⟩
    · subst h1; exact ⟨_, pageSetOvflow_holds _ newPage_holds⟩
  · intro j pg hpg
    rw [hov] at hpg
    by_cases hj : j ∈ ch r.sp
    · obtain ⟨x, _, h2⟩ := hin j hj
      rw [h2] at hpg; cases hpg
      exact ⟨_, pageSetOvflow_holds _ newPage_holds⟩
    · rw [hout j hj] at hpg
      exact h.ov_wf j pg hpg
  · intro b pg hpg
    have hb : b < r2.npages := by
      have := getElem?_lt hpg
      rw [hdata] at this
      simp at this
      omega
    rcases hbcases b hb with e | e | ⟨e1, e2⟩
    · subst e
      rw [hgsp] at hpg; cases hpg
      simp only [true_or, if_true]
      exact rfl
    · subst e
      rw [hgnew] at hpg; cases hpg
      simp only [or_true, if_true]
      exact rfl
    · rw [hgother b e1 e2] at hpg
      have : ¬(b = r.sp ∨ b = r.npages) := by omega
      simp only [this, if_false]
      exact (h.chain b pg hpg).congr (fun j _ => hlk j)
  · intro b hb
    rcases hbcases b hb with e | e | ⟨e1, e2⟩
    · simp [e]
    · simp [e]
    · have : ¬(b = r.sp ∨ b = r.npages) := by omega
      simp only [this, if_false]
      exact h.nodup b e1
  · intro b c hb hc hbc
    rcases hbcases b hb with e | e | ⟨e1, e2⟩
    · simp [e]
    · simp [e]
    · rcases hbcases c hc with f | f | ⟨f1, f2⟩
      · simp [f]
      · simp [f]
      · have hb2 : ¬(b = r.sp ∨ b = r.npages) := by omega
        have hc2 : ¬(c = r.sp ∨ c = r.npages) := by omega
        simp only [hb2, hc2, if_false]
        exact h.disj b c e1 f1 hbc
  · intro b hb t ht
    have hok : ∀ u, TupleOK r u → TupleOK r2 u := by
      intro u hu
      unfold TupleOK at hu ⊢
      rw [hna]; exact hu
    rcases hbcases b hb with e | e | ⟨e1, e2⟩
    · rw [e, hbsp] at ht; simp at ht
    · rw [e, hbnew] at ht; simp at ht
    · rw [hother b e1 e2] at ht
      exact hok t (h.arity b e1 t ht)
  · have := hrel.length_eq
    rw [List.length_append] at this
    rw [hnt, h.ntups_eq]
    omega

theorem tupleHash_congr (hash : List Char → Nat) {r r2 : Reln} (h : r2.cv = r.cv) (t : Tuple) :
    tupleHash hash r2 t = tupleHash hash r t := by
  unfold tupleHash chvec
  rw [h]

theorem bucketOf_advance (h d sp : Nat) (hsp : sp < 2 ^ d) (hne : bucketOf h d sp ≠ sp) :
    bucketOf h (advance d sp).1 (advance d sp).2 = bucketOf h d sp := by
  have hmod : h % 2 ^ d < 2 ^ d := Nat.mod_lt _ (Nat.two_pow_pos d)
  unfold advance
  unfold bucketOf getLower at hne ⊢
  by_cases hd : d = 0
  · subst hd
    simp at hsp
    subst hsp
    simp at hne
  · simp only [hd, if_false] at hne ⊢
    split
    · rename_i hs
      simp only [Nat.succ_ne_zero, if_false, Nat.not_lt_zero]
      by_cases hp : h % 2 ^ d < sp
      · simp only [hp, if_true]
      · simp only [hp, if_false] at hne
        omega
    · simp only [hd, if_false]
      by_cases hp : h % 2 ^ d < sp
      · have : h % 2 ^ d < sp + 1 := by omega
        simp only [hp, this, if_true]
      · simp only [hp, if_false] at hne ⊢
        have : ¬ h % 2 ^ d < sp + 1 := by omega
        simp only [this, if_false]

theorem Addressed.insert {hash : List Char → Nat} {r r2 : Reln} {t : Tuple} {hv : Nat}
    (ha : Addressed hash r) (hhv : tupleHash hash r t = some hv)
    (hpost : InsertPost r r2 (bucketOf hv r.depth r.sp) [t]) : Addressed hash r2 := by
  intro b hb u hu
  rw [hpost.npages_eq] at hb
  rw [tupleHash_congr hash hpost.cv_eq, hpost.depth_eq, hpost.sp_eq]
  by_cases hbp : b = bucketOf hv r.depth r.sp
  · subst hbp
    rcases List.mem_append.mp (hpost.bucket.subset hu) with h1 | h1
    · simp only [List.mem_singleton] at h1
      subst h1
      exact ⟨hv, hhv, rfl⟩
    · exact ha _ hb u h1
  · rw [hpost.other b hb hbp] at hu
    exact ha b hb u hu

/-- The reinsertion loop of `pageSplit` stores every tuple it is given. -/
theorem reinsert_spec (hash : List Char → Nat) (T : List Tuple) :
    ∀ (n i : Nat) (r : Reln), RelnWF r → i + n ≤ T.length →
      (∀ t ∈ T, NUL ∉ t ∧ TupleOK r t ∧ t.length + 1 ≤ PAGESIZE - hdr_size) →
      ∃ r2, reinsert hash T n i r = some r2 ∧ RelnWF r2 ∧ r2.depth = r.depth ∧ r2.sp = r.sp ∧
        r2.npages = r.npages ∧ r2.nattrs = r.nattrs ∧ r2.cv = r.cv ∧ r2.ntups = r.ntups + n ∧
        (relTuples r2).Perm ((T.drop i).take n ++ relTuples r) ∧
        (Addressed hash r → Addressed hash r2) := by
  intro n
  induction n with
  | zero =>
    intro i r hwf _ _
    exact ⟨r, rfl, hwf, rfl, rfl, rfl, rfl, rfl, rfl, by simp, id⟩
  | succ n ih =>
    intro i r hwf hlen hT
    have hi : i < T.length := by omega
    obtain ⟨ch, hch⟩ := hwf
    obtain ⟨h1, h2, h3⟩ := hT T[i] (List.getElem_mem hi)
    obtain ⟨hv, hhv, r1, hfit, _⟩ := addTupleToRelation_spec hash hch h1 h2
    obtain ⟨hadd, hpost⟩ := hfit h3
    have hT1 : ∀ t ∈ T, NUL ∉ t ∧ TupleOK r1 t ∧ t.length + 1 ≤ PAGESIZE - hdr_size := by
      intro t ht
      obtain ⟨a, b, c⟩ := hT t ht
      refine ⟨a, ?_, c⟩
      unfold TupleOK at b ⊢
      rw [hpost.nattrs_eq]; exact b
    obtain ⟨r2, g1, g2, g3, g4, g5, g6, g7, g8, g9, g10⟩ := ih (i + 1) r1 hpost.wf (by omega) hT1
    refine ⟨r2, ?_, g2, by rw [g3, hpost.depth_eq], by rw [g4, hpost.sp_eq],
      by rw [g5, hpost.npages_eq], by rw [g6, hpost.nattrs_eq], by rw [g7, hpost.cv_eq],
      by rw [g8, hpost.ntups]; simp; omega, ?_, fun ha => g10 (ha.insert hhv hpost)⟩
    · simp only [reinsert, List.getElem?_eq_getElem hi, hadd, g1]
    · refine g9.trans ?_
      rw [List.drop_eq_getElem_cons hi, List.take_succ_cons]
      refine (List.Perm.append_left _ hpost.rel).trans ?_
      simp only [List.singleton_append, List.cons_append]
      exact List.perm_middle

theorem mem_pagesAt {ov : List Page} {ids : List Nat} {pg : Page} (h : pg ∈ pagesAt ov ids) :
    ∃ i : Nat, ov[i]? = some pg := by
  simp only [pagesAt, List.mem_filterMap] at h
  obtain ⟨i, _, hi⟩ := h
  exact ⟨i, hi⟩

theorem WFWith.mem_bucketTuples {r : Reln} {ch : Nat → List Nat} (h : WFWith r ch) {b : Nat}
    (hb : b < r.npages) {t : Tuple} (ht : t ∈ bucketTuples r b) :
    ∃ pg, PageWF pg ∧ t ∈ pageTuples pg := by
  obtain ⟨pg, hpg⟩ := h.getPage_some hb
  rw [h.bucketTuples_wf hb hpg] at ht
  rcases List.mem_append.mp ht with h1 | h1
  · exact ⟨pg, h.data_wf b pg hpg, h1⟩
  · obtain ⟨x, hx, hx2⟩ := List.mem_flatMap.mp h1
    obtain ⟨i, hi⟩ := mem_pagesAt hx
    exact ⟨x, h.ov_wf i x hi, hx2⟩

theorem WFWith.stored {r : Reln} {ch : Nat → List Nat} (h : WFWith r ch) {b : Nat}
    (hb : b < r.npages) {t : Tuple} (ht : t ∈ bucketTuples r b) :
    NUL ∉ t ∧ TupleOK r t ∧ t.length + 1 ≤ PAGESIZE - hdr_size := by
  obtain ⟨pg, hwf, hmem⟩ := h.mem_bucketTuples hb ht
  exact ⟨hwf.holds.1 t hmem, h.arity b hb t ht, hwf.holds.fits hmem⟩

theorem Addressed.cleared {hash : List Char → Nat} {r r2 : Reln} {ch : Nat → List Nat}
    (h : WFWith r ch) (ha : Addressed hash r) (hnp : r2.npages = r.npages + 1)
    (hds : (r2.depth, r2.sp) = advance r.depth r.sp) (hcv : r2.cv = r.cv)
    (hother : ∀ b, b < r.npages → b ≠ r.sp → bucketTuples r2 b = bucketTuples r b)
    (hbsp : bucketTuples r2 r.sp = []) (hbnew : bucketTuples r2 r.npages = []) :
    Addressed hash r2 := by
  have hd : r2.depth = (advance r.depth r.sp).1 := by rw [← hds]
  have hs : r2.sp = (advance r.depth r.sp).2 := by rw [← hds]
  intro b hb u hu
  rw [hnp] at hb
  by_cases e1 : b = r.sp
  · rw [e1, hbsp] at hu; simp at hu
  · by_cases e2 : b = r.npages
    · rw [e2, hbnew] at hu; simp at hu
    · have hb2 : b < r.npages := by omega
      rw [hother b hb2 e1] at hu
      obtain ⟨hv, h1, h2⟩ := ha b hb2 u hu
      refine ⟨hv, by rw [tupleHash_congr hash hcv, h1], ?_⟩
      rw [hd, hs, bucketOf_advance hv r.depth r.sp h.sp_lt (by rw [h2]; exact e1), h2]

/-- On a well-formed relation `pageSplit` returns; it adds one bucket, advances
the split pointer once, and keeps the stored tuples and their count. -/
theorem pageSplit_spec (hash : List Char → Nat) {r : Reln} {ch : Nat → List Nat}
    (h : WFWith r ch) :
    ∃ r3, pageSplit hash r = some r3 ∧ RelnWF r3 ∧ r3.npages = r.npages + 1 ∧
      (r3.depth, r3.sp) = advance r.depth r.sp ∧ r3.nattrs = r.nattrs ∧ r3.cv = r.cv ∧
      r3.ntups = r.ntups ∧ (relTuples r3).Perm (relTuples r) ∧
      (Addressed hash r → Addressed hash r3) := by
  have hsp := h.sp_lt_npages
  obtain ⟨pg0, hpg0⟩ := h.getPage_some hsp
  have hsplt : r.sp < r.data.length := getElem?_lt hpg0
  have hc := h.chain r.sp pg0 hpg0
  have hnd := h.nodup r.sp hsp
  have hfuel : (ch r.sp).length ≤ r.ovflow.length + 1 := Nat.le_succ_of_le (hc.length_le hnd)
  have hget : (r.data ++ [newPage])[r.sp]? = some pg0 := by
    rw [List.getElem?_append_left hsplt, hpg0]
  have hbt := h.bucketTuples_wf hsp hpg0
  have hcount : countChain r.ovflow (r.ovflow.length + 1) pg0.ovflow pg0.ntuples =
      some ((bucketTuples r r.sp).length, none) := by
    rw [countChain_spec r.ovflow (ch r.sp) pg0.ovflow (r.ovflow.length + 1) pg0.ntuples
      hc hfuel h.ov_wf, (h.data_wf r.sp pg0 hpg0).ntuples_eq, ← List.length_append, ← hbt]
  have hcopy : copyTuples (dataTotupleList (pageData pg0)
      (PAGESIZE - pageFreeSpace pg0 - hdr_size)) pg0.ntuples 0 [] = some (pageTuples pg0) := by
    have := copyTuples_page (h.data_wf r.sp pg0 hpg0) []
    rwa [List.nil_append] at this
  obtain ⟨ov2, hcl, _, hout, hin⟩ := clearChain_spec (ch r.sp) r.ovflow pg0.ovflow
    (r.ovflow.length + 1) ([] ++ pageTuples pg0) hc hnd hfuel h.ov_wf
  rw [List.nil_append, ← hbt] at hcl
  obtain ⟨r2, hr2⟩ : ∃ r2 : Reln, r2 =
      if r.sp + 1 = 2 ^ r.depth then
        { r with data := (r.data ++ [newPage]).set r.sp (pageSetOvflow newPage none)
                 npages := r.npages + 1, ovflow := ov2
                 ntups := r.ntups - (bucketTuples r r.sp).length
                 depth := r.depth + 1, sp := 0 }
      else
        { r with data := (r.data ++ [newPage]).set r.sp (pageSetOvflow newPage none)
                 npages := r.npages + 1, ovflow := ov2
                 ntups := r.ntups - (bucketTuples r r.sp).length, sp := r.sp + 1 } := ⟨_, rfl⟩
  have hds : (r2.depth, r2.sp) = advance r.depth r.sp := by
    rw [hr2]; unfold advance; split <;> rfl
  have hnp : r2.npages = r.npages + 1 := by rw [hr2]; split <;> rfl
  have hna : r2.nattrs = r.nattrs := by rw [hr2]; split <;> rfl
  have hcv : r2.cv = r.cv := by rw [hr2]; split <;> rfl
  have hnt : r2.ntups = r.ntups - (bucketTuples r r.sp).length := by rw [hr2]; split <;> rfl
  obtain ⟨hwf2, hother, hbsp, hbnew, hrel⟩ := split_cleared h hout hin
    (by rw [hr2]; split <;> rfl) (by rw [hr2]; split <;> rfl) hnp hds hna hcv hnt
  have hT : ∀ t ∈ bucketTuples r r.sp,
      NUL ∉ t ∧ TupleOK r2 t ∧ t.length + 1 ≤ PAGESIZE - hdr_size := by
    intro t ht
    obtain ⟨a, b, c⟩ := h.stored hsp ht
    refine ⟨a, ?_, c⟩
    unfold TupleOK at b ⊢
    rw [hna]; exact b
  obtain ⟨r3, g1, g2, g3, g4, g5, g6, g7, g8, g9, g10⟩ := reinsert_spec hash (bucketTuples r r.sp)
    (bucketTuples r r.sp).length 0 r2 hwf2 (by simp) hT
  have hlenle : (bucketTuples r r.sp).length ≤ r.ntups := by
    have := hrel.length_eq
    rw [List.length_append] at this
    rw [h.ntups_eq]
    omega
  refine ⟨r3, ?_, g2, by rw [g5, hnp], by rw [g3, g4, hds], by rw [g6, hna], by rw [g7, hcv],
    by rw [g8, hnt]; omega, ?_, fun ha => g10 (ha.cleared h hnp hds hcv hother hbsp hbnew)⟩
  · simp only [pageSplit, splitp, dataFile, ovflowFile, getPage, addPage_fst, hget, hcount,
      hcopy, pageOvflow, pageNTuples, hcl,
      putPage_of_lt (pageSetOvflow newPage none)
        (show r.sp < (r.data ++ [newPage]).length by simp; omega)]
    rw [← g1, hr2]
  · refine g9.trans ?_
    simp only [List.drop_zero, List.take_length]
    exact hrel.symm

/-! ## `addToRelation`, creation and sequences of insertions -/

/-- A successful `addTupleToRelation` on a well-formed relation. -/
theorem addTupleToRelation_some (hash : List Char → Nat) {r r2 : Reln} {ch : Nat → List Nat}
    (h : WFWith r ch) {t : Tuple} (hnul : NUL ∉ t) (hok : TupleOK r t) {p : Nat}
    (hres : addTupleToRelation hash r t = some (r2, some p)) :
    ∃ hv, tupleHash hash r t = some hv ∧ p = bucketOf hv r.depth r.sp ∧
      InsertPost r r2 p [t] ∧ t.length + 1 ≤ PAGESIZE - hdr_size := by
  obtain ⟨hv, hhv, r3, hfit, hbig⟩ := addTupleToRelation_spec hash h hnul hok
  by_cases hf : t.length + 1 ≤ PAGESIZE - hdr_size
  · obtain ⟨h1, h2⟩ := hfit hf
    rw [hres] at h1
    simp only [Option.some.injEq, Prod.mk.injEq] at h1
    obtain ⟨e1, e2⟩ := h1
    subst e1 e2
    exact ⟨hv, hhv, rfl, h2, hf⟩
  · obtain ⟨h1, _⟩ := hbig (by omega)
    rw [hres] at h1
    simp [NO_PAGE] at h1

/-- A successful `addToRelation` on a well-formed relation. -/
theorem addToRelation_some (hash : List Char → Nat) {r r2 : Reln} (hwf : RelnWF r) {t : Tuple}
    (hnul : NUL ∉ t) (hok : TupleOK r t) {p : Nat}
    (hres : addToRelation hash r t = some (r2, some p)) :
    RelnWF r2 ∧ (relTuples r2).Perm (t :: relTuples r) ∧ r2.ntups = r.ntups + 1 ∧
      r2.nattrs = r.nattrs ∧ r2.cv = r.cv ∧ (Addressed hash r → Addressed hash r2) ∧
      (splitDue r → r2.npages = r.npages + 1 ∧ (r2.depth, r2.sp) = advance r.depth r.sp) ∧
      (¬ splitDue r → r2.npages = r.npages ∧ r2.depth = r.depth ∧ r2.sp = r.sp) ∧
      t ∈ bucketTuples r2 p ∧ p < r2.npages ∧
      ∃ hv, tupleHash hash r2 t = some hv ∧ p = bucketOf hv r2.depth r2.sp := by
  obtain ⟨ch, hch⟩ := hwf
  have nosplit : addTupleToRelation hash r t = some (r2, some p) → ¬ splitDue r →
      RelnWF r2 ∧ (relTuples r2).Perm (t :: relTuples r) ∧ r2.ntups = r.ntups + 1 ∧
      r2.nattrs = r.nattrs ∧ r2.cv = r.cv ∧ (Addressed hash r → Addressed hash r2) ∧
      (splitDue r → r2.npages = r.npages + 1 ∧ (r2.depth, r2.sp) = advance r.depth r.sp) ∧
      (¬ splitDue r → r2.npages = r.npages ∧ r2.depth = r.depth ∧ r2.sp = r.sp) ∧
      t ∈ bucketTuples r2 p ∧ p < r2.npages ∧
      ∃ hv, tupleHash hash r2 t = some hv ∧ p = bucketOf hv r2.depth r2.sp := by
    intro hadd hns
    obtain ⟨hv, hhv, hp, hpost, _⟩ := addTupleToRelation_some hash hch hnul hok hadd
    refine ⟨hpost.wf, hpost.rel, hpost.ntups, hpost.nattrs_eq, hpost.cv_eq,
      fun ha => ?_, fun hs => absurd hs hns,
      fun _ => ⟨hpost.npages_eq, hpost.depth_eq, hpost.sp_eq⟩,
      hpost.bucket.symm.subset (by simp), ?_, hv, ?_, ?_⟩
    · subst hp; exact ha.insert hhv hpost
    · rw [hpost.npages_eq, hp]; exact hch.bucketOf_lt_npages hv
    · rw [tupleHash_congr hash hpost.cv_eq, hhv]
    · rw [hpost.depth_eq, hpost.sp_eq, hp]
  unfold addToRelation at hres
  simp only [nattrs] at hres
  split at hres
  · cases hres
  · split at hres
    · rename_i hnz
      split at hres
      · cases hres
      · split at hres
        · rename_i hmod
          have hdue : splitDue r := ⟨hnz, hmod⟩
          obtain ⟨r1, g1, ⟨ch1, g2⟩, g3, g4, g5, g6, g7, g8, g9⟩ := pageSplit_spec hash hch
          rw [g1] at hres
          simp only at hres
          have hok1 : TupleOK r1 t := by
            unfold TupleOK at hok ⊢
            rw [g5]; exact hok
          obtain ⟨hv, hhv, hp, hpost, _⟩ := addTupleToRelation_some hash g2 hnul hok1 hres
          refine ⟨hpost.wf, hpost.rel.trans (List.Perm.cons t g8), by rw [hpost.ntups, g7]; rfl,
            by rw [hpost.nattrs_eq, g5], by rw [hpost.cv_eq, g6], fun ha => ?_,
            fun _ => ⟨by rw [hpost.npages_eq, g3], by rw [hpost.depth_eq, hpost.sp_eq, g4]⟩,
            fun hns => absurd hdue hns, hpost.bucket.symm.subset (by simp), ?_, hv, ?_, ?_⟩
          · subst hp; exact (g9 ha).insert hhv hpost
          · rw [hpost.npages_eq, hp]; exact g2.bucketOf_lt_npages hv
          · rw [tupleHash_congr hash hpost.cv_eq, hhv]
          · rw [hpost.depth_eq, hpost.sp_eq, hp]
        · rename_i hmod
          exact nosplit hres (fun hs => hmod hs.2)
    · rename_i hz
      exact nosplit hres (fun hs => hz hs.1)

theorem newRelation_wf {nattrs npages d : Nat} {cv : ChVec} {r : Reln}
    (hcv : ∀ k, k < MAXCHVEC → (cv k).att < nattrs) (hnp : npages = 2 ^ d)
    (h : newRelation nattrs npages d (some cv) = some r) :
    WFWith r (fun _ => []) ∧ relTuples r = [] ∧ (∀ b, bucketTuples r b = []) := by
  simp only [newRelation, Option.some.injEq] at h
  subst h
  simp only [addPages_eq, List.nil_append]
  have hb : ∀ b, bucketTuples
      { nattrs := nattrs, depth := d, sp := 0, npages := npages, ntups := 0, cv := cv,
        data := List.replicate npages newPage, ovflow := [] } b = [] := by
    intro b
    unfold bucketTuples bucketPages
    simp only
    by_cases hlt : b < npages
    · rw [List.getElem?_replicate_of_lt hlt]
      simp [chainPages, pageTuples_newPage]
    · rw [List.getElem?_eq_none (by simpa using hlt)]
      simp
  have hrel : relTuples
      { nattrs := nattrs, depth := d, sp := 0, npages := npages, ntups := 0, cv := cv,
        data := List.replicate npages newPage, ovflow := [] } = [] := by
    unfold relTuples
    simp [hb]
  refine ⟨?_, hrel, hb⟩
  refine
    { npages_eq := by simp [hnp]
      sp_lt := Nat.two_pow_pos d
      data_len := by simp
      cv_ok := hcv
      data_wf := ?_
      ov_wf := by simp
      chain := ?_
      nodup := by simp
      disj := by simp
      arity := ?_
      ntups_eq := by rw [hrel]; rfl }
  · intro b pg hpg
    have := List.getElem?_mem hpg
    simp only [List.mem_replicate] at this
    rw [this.2]
    exact ⟨_, newPage_holds⟩
  · intro b pg hpg
    have := List.getElem?_mem hpg
    simp only [List.mem_replicate] at this
    rw [this.2]
    exact rfl
  · intro b _ t ht
    rw [hb] at ht
    simp at ht

theorem Addressed.of_empty {hash : List Char → Nat} {r : Reln} (h : ∀ b, bucketTuples r b = []) :
    Addressed hash r := by
  intro b _ t ht
  rw [h b] at ht
  simp at ht

/-- A run of successful insertions keeps the relation well-formed and adds
exactly the inserted tuples. -/
theorem insertAll_spec (hash : List Char → Nat) (ts : List Tuple) :
    ∀ (r r2 : Reln), RelnWF r → (∀ t ∈ ts, NUL ∉ t ∧ TupleOK r t) →
      insertAll hash r ts = some r2 →
      RelnWF r2 ∧ (relTuples r2).Perm (ts ++ relTuples r) ∧ r2.ntups = r.ntups + ts.length ∧
        r2.nattrs = r.nattrs ∧ r2.cv = r.cv ∧ (Addressed hash r → Addressed hash r2) := by
  induction ts with
  | nil =>
    intro r r2 hwf _ h
    simp only [insertAll, Option.some.injEq] at h
    subst h
    exact ⟨hwf, by simp, rfl, rfl, rfl, id⟩
  | cons t ts ih =>
    intro r r2 hwf hts h
    obtain ⟨hnul, hok⟩ := hts t (by simp)
    simp only [insertAll] at h
    split at h
    · rename_i r1 p hadd
      obtain ⟨g1, g2, g3, g4, g5, g6, _⟩ := addToRelation_some hash hwf hnul hok hadd
      have hts1 : ∀ u ∈ ts, NUL ∉ u ∧ TupleOK r1 u := by
        intro u hu
        obtain ⟨a, b⟩ := hts u (by simp [hu])
        refine ⟨a, ?_⟩
        unfold TupleOK at b ⊢
        rw [g4]; exact b
      obtain ⟨k1, k2, k3, k4, k5, k6⟩ := ih r1 r2 g1 hts1 h
      refine ⟨k1, ?_, by rw [k3, g3]; simp; omega, by rw [k4, g4], by rw [k5, g5],
        fun ha => k6 (g6 ha)⟩
      refine k2.trans ((List.Perm.append_left _ g2).trans ?_)
      simp only [List.cons_append]
      exact List.perm_middle
    · cases h

/-! ## The scan -/

theorem findTupleLoop_isSome (qvals vals : List (List Char)) (n j : Nat)
    (hq : j + n ≤ qvals.length) (hv : j + n ≤ vals.length) :
    ∃ b, findTupleLoop qvals vals n j = some b := by
  induction n generalizing j with
  | zero => exact ⟨true, rfl⟩
  | succ n ih =>
    have h1 : j < qvals.length := by omega
    have h2 : j < vals.length := by omega
    simp only [findTupleLoop, List.getElem?_eq_getElem h1, List.getElem?_eq_getElem h2]
    split
    · split
      · exact ⟨false, rfl⟩
      · exact ih (j + 1) (by omega) (by omega)
    · exact ih (j + 1) (by omega) (by omega)

theorem findTupleLoop_eq {qvals : List (List Char)} {nvals : Nat} {tup : Tuple}
    (h : ∃ b, findTupleLoop qvals (tupleVals tup) nvals 0 = some b) :
    findTupleLoop qvals (tupleVals tup) nvals 0 = some (matchesQuery qvals nvals tup) := by
  obtain ⟨b, hb⟩ := h
  unfold matchesQuery
  rw [hb]
  cases b <;> rfl

/-- The loop of `getTupleInPage` over the tuples `l` that follow the cursor:
it stops after the first matching tuple, at distance `k`.  It returns when the
array holds the entries that the way out releases. -/
theorem getTupleInPageLoop_spec (l : List Tuple) :
    ∀ (pre junk : List Tuple) (q : Query) (R : Nat),
      (∀ t ∈ l, ∃ b, findTupleLoop q.vals (tupleVals t) (nattrs q.rel) 0 = some b) →
      R ≤ (pre ++ l ++ junk).length →
      (l.filter (matchesQuery q.vals (nattrs q.rel)) = [] →
        nattrs q.rel ≤ (pre ++ l ++ junk).length) →
      ∃ k q2 b, getTupleInPageLoop (pre ++ l ++ junk) R l.length pre.length q = some (b, q2) ∧
        SameQuery q q2 ∧ q2.curpageID = q.curpageID ∧ q2.curovPageID = q.curovPageID ∧
        q2.is_ovflow = q.is_ovflow ∧ k ≤ l.length ∧
        q2.curtupReaded = q.curtupReaded + k ∧
        q2.curtup = q.curtup + (encode (l.take k)).length ∧
        ((b = false ∧ k = l.length ∧ l.filter (matchesQuery q.vals (nattrs q.rel)) = []) ∨
          (b = true ∧ ∃ t, q2.result = some t ∧ 1 ≤ k ∧ l[k - 1]? = some t ∧
            matchesQuery q.vals (nattrs q.rel) t = true ∧
            l.filter (matchesQuery q.vals (nattrs q.rel)) =
              t :: (l.drop k).filter (matchesQuery q.vals (nattrs q.rel)))) := by
  induction l with
  | nil =>
    intro pre junk q R _ _ hs
    refine ⟨0, q, false, ?_, ⟨rfl, rfl, rfl, rfl⟩, rfl, rfl, rfl, le_refl _, rfl, rfl,
      Or.inl ⟨rfl, rfl, rfl⟩⟩
    simp only [List.length_nil, getTupleInPageLoop, freeVals, if_pos (hs rfl)]
  | cons t l ih =>
    intro pre junk q R hdef hR hs
    have hget : (pre ++ t :: l ++ junk)[pre.length]? = some t := by
      rw [List.append_assoc, List.getElem?_append_right (le_refl _)]
      simp
    have hm := findTupleLoop_eq (hdef t (by simp))
    cases hmt : matchesQuery q.vals (nattrs q.rel) t with
    | true =>
      rw [hmt] at hm
      refine ⟨1, { q with curtup := q.curtup + t.length + 1, curtupReaded := q.curtupReaded + 1
                          result := some t }, true, ?_, ⟨rfl, rfl, rfl, rfl⟩, rfl, rfl, rfl,
        by simp, rfl, ?_, Or.inr ⟨rfl, t, rfl, le_refl _, by simp, hmt, ?_⟩⟩
      · simp only [List.length_cons, getTupleInPageLoop, hget, hm, freeVals, if_pos hR]
      · simp [encode]; omega
      · simp [List.filter_cons, hmt]
    | false =>
      rw [hmt] at hm
      have e1 : pre ++ [t] ++ l ++ junk = pre ++ t :: l ++ junk := by simp
      have e2 : (pre ++ [t]).length = pre.length + 1 := by simp
      obtain ⟨k, q2, b, h1, h2, h3, h4, h5, h6, h7, h8, h9⟩ := ih (pre ++ [t]) junk
        { q with curtup := q.curtup + t.length + 1, curtupReaded := q.curtupReaded + 1 } R
        (fun u hu => hdef u (by simp [hu]))
        (by rw [e1]; exact hR)
        (fun hf => by
          rw [e1]
          apply hs
          rw [List.filter_cons, hmt]
          exact hf)
      refine ⟨k + 1, q2, b, ?_, h2, h3, h4, h5, by simp; omega, by rw [h7]; simp; omega, ?_, ?_⟩
      · simp only [List.length_cons, getTupleInPageLoop, hget, hm]
        rw [e1, e2] at h1
        exact h1
      · rw [h8]
        simp [encode]
        omega
      · simp only [List.filter_cons, hmt, List.drop_succ_cons]
        simp only [List.length_cons]
        rcases h9 with ⟨a, b2, c⟩ | ⟨a, u, b2, c1, c2, c3, c4⟩
        · exact Or.inl ⟨a, by omega, c⟩
        · refine Or.inr ⟨a, u, b2, by omega, ?_, c3, c4⟩
          obtain ⟨k0, rfl⟩ : ∃ k0, k = k0 + 1 := ⟨k - 1, by omega⟩
          simpa using c2

theorem pageRest_zero (m : Tuple → Bool) (pg : Page) :
    pageRest m pg 0 = (pageTuples pg).filter m := rfl

theorem chainRest_zero (m : Tuple → Bool) {ov : List Page} {s : Option Nat} {ids : List Nat}
    (h : IsChain (links ov) s ids) : chainRest m ov ids 0 = pagesMatches m (pagesAt ov ids) := by
  cases ids with
  | nil => rfl
  | cons i rest =>
    obtain ⟨_, nxt, hn, _⟩ := h
    simp only [links, Option.map_eq_some'] at hn
    obtain ⟨pg, hpg, _⟩ := hn
    have e : pagesAt ov (i :: rest) = pg :: pagesAt ov rest := by simp [pagesAt, hpg]
    simp only [chainRest, hpg, pageRest_zero, e, pagesMatches, List.flatMap_cons]

theorem InPage.zero {q : Query} (pg : Page) (h1 : q.curtupReaded = 0) (h2 : q.curtup = 0) :
    InPage q pg 0 := ⟨Nat.zero_le _, h1, by simp [h2, encode], Or.inl rfl⟩

/-- One call of `getTupleInPage` on a well-formed page: it stops after the
next matching tuple, or at the end of the page, where it returns when the
array holds `nattrs` entries. -/
theorem getTupleInPage_spec {q : Query} {pg : Page} {j : Nat} (hwf : PageWF pg)
    (hin : InPage q pg j)
    (hdef : ∀ t ∈ pageTuples pg,
      ∃ b, findTupleLoop q.vals (tupleVals t) (nattrs q.rel) 0 = some b)
    (hsafe : PageSafe (matchesQuery q.vals (nattrs q.rel)) (nattrs q.rel) pg) :
    ∃ j2 q2 b, getTupleInPage q pg = some (b, q2) ∧ SameQuery q q2 ∧
      q2.curpageID = q.curpageID ∧ q2.curovPageID = q.curovPageID ∧
      q2.is_ovflow = q.is_ovflow ∧ (b = true → InPage q2 pg j2) ∧
      ((b = false ∧ pageRest (matchesQuery q.vals (nattrs q.rel)) pg j = []) ∨
        (b = true ∧ ∃ t, q2.result = some t ∧
          pageRest (matchesQuery q.vals (nattrs q.rel)) pg j =
            t :: pageRest (matchesQuery q.vals (nattrs q.rel)) pg j2)) := by
  obtain ⟨hj, hr, hc, he⟩ := hin
  obtain ⟨junk, hjunk⟩ := dataTotupleList_drop hwf.holds j
  have hlen : ((pageTuples pg).drop j).length = pageNTuples pg - q.curtupReaded := by
    rw [List.length_drop, pageNTuples, hwf.ntuples_eq, hr]
  obtain ⟨k, q2, b, h1, h2, h3, h4, h5, h6, h7, h8, h9⟩ :=
    getTupleInPageLoop_spec ((pageTuples pg).drop j) [] junk q
      ((pageTuples pg).drop j).length
      (fun t ht => hdef t (List.mem_of_mem_drop ht))
      (by simp)
      (fun hf => by
        have := hsafe j hj he hf
        unfold stringsAt at this
        rw [hjunk] at this
        simpa using this)
  have htake : (pageTuples pg).take (j + k) =
      (pageTuples pg).take j ++ ((pageTuples pg).drop j).take k := List.take_add _ _ _
  refine ⟨j + k, q2, b, ?_, h2, h3, h4, h5, ?_, ?_⟩
  · unfold getTupleInPage
    simp only
    rw [hc, hjunk, ← hlen]
    exact h1
  · intro hb
    refine ⟨?_, by rw [h7, hr], ?_, ?_⟩
    · rw [List.length_drop] at h6
      omega
    · rw [h8, hc, htake, encode_append, List.length_append]
    · rcases h9 with ⟨a, _, _⟩ | ⟨_, t, _, c1, c2, c3, _⟩
      · rw [hb] at a
        cases a
      · right
        refine ⟨t, ?_, by rw [h2.1, h2.2.1]; exact c3⟩
        rw [List.getElem?_drop] at c2
        have e : j + k - 1 = j + (k - 1) := by omega
        rw [e]
        exact c2
  · unfold pageRest
    rw [← List.drop_drop, Nat.add_comm] at *
    rcases h9 with ⟨a, _, c⟩ | ⟨a, t, b2, _, _, _, c⟩
    · exact Or.inl ⟨a, c⟩
    · refine Or.inr ⟨a, t, b2, ?_⟩
      rw [c, List.drop_drop]

theorem SameQuery.trans {q q2 q3 : Query} (h : SameQuery q q2) (h2 : SameQuery q2 q3) :
    SameQuery q q3 :=
  ⟨h2.1.trans h.1, h2.2.1.trans h.2.1, h2.2.2.1.trans h.2.2.1, h2.2.2.2.trans h.2.2.2⟩

theorem SameQuery.refl (q : Query) : SameQuery q q := ⟨rfl, rfl, rfl, rfl⟩

theorem SameQuery.matches {q q2 : Query} (h : SameQuery q q2) :
    matchesQuery q2.vals (nattrs q2.rel) = matchesQuery q.vals (nattrs q.rel) := by
  rw [h.1, h.2.1]

/-- The loop of `getNextTuple` over the overflow pages: it stops after the next
matching tuple of the chain, or at the end of the chain. -/
theorem ovflowLoop_spec (ov : List Page) (ids : List Nat) :
    ∀ (q : Query) (fuel j : Nat),
      IsChain (links ov) q.curovPageID ids → ids.Nodup → ids.length ≤ fuel →
      (∀ i pg, q.curovPageID = some i → ov[i]? = some pg → InPage q pg j) →
      (∀ (i : Nat) (pg : Page), ov[i]? = some pg → PageWF pg) →
      (∀ i ∈ ids, ∀ pg, ov[i]? = some pg → ∀ t ∈ pageTuples pg,
        ∃ b, findTupleLoop q.vals (tupleVals t) (nattrs q.rel) 0 = some b) →
      (∀ i ∈ ids, ∀ pg, ov[i]? = some pg →
        PageSafe (matchesQuery q.vals (nattrs q.rel)) (nattrs q.rel) pg) →
      ∃ q2 b, ovflowLoop ov fuel q = some (b, q2) ∧ SameQuery q q2 ∧
        q2.curpageID = q.curpageID ∧ q2.is_ovflow = q.is_ovflow ∧
        ((b = false ∧ chainRest (matchesQuery q.vals (nattrs q.rel)) ov ids j = []) ∨
          (b = true ∧ ∃ t i2 rest2 pg2 j2, q2.result = some t ∧ q2.curovPageID = some i2 ∧
            IsChain (links ov) (some i2) (i2 :: rest2) ∧ (i2 :: rest2).Nodup ∧
            (∀ i ∈ i2 :: rest2, i ∈ ids) ∧
            ov[i2]? = some pg2 ∧ InPage q2 pg2 j2 ∧
            chainRest (matchesQuery q.vals (nattrs q.rel)) ov ids j =
              t :: chainRest (matchesQuery q.vals (nattrs q.rel)) ov (i2 :: rest2) j2)) := by
  induction ids with
  | nil =>
    intro q fuel j hc _ _ _ _ _ _
    have h0 : q.curovPageID = none := hc
    refine ⟨q, false, ?_, SameQuery.refl q, rfl, rfl, Or.inl ⟨rfl, rfl⟩⟩
    unfold ovflowLoop
    rw [h0]
  | cons i rest ih =>
    intro q fuel j hc hnd hfuel hin hwf hdef hsafe
    have hc0 := hc
    obtain ⟨hs, nxt, hn, hr⟩ := hc
    obtain ⟨m, rfl⟩ : ∃ m, fuel = m + 1 := ⟨fuel - 1, by simp at hfuel; omega⟩
    simp only [links, Option.map_eq_some'] at hn
    obtain ⟨pg, hpg, hnx⟩ := hn
    subst hnx
    have hnd2 := List.nodup_cons.mp hnd
    obtain ⟨j2, q1, b, h1, h2, h3, h4, h5, h6, h7⟩ :=
      getTupleInPage_spec (hwf i pg hpg) (hin i pg hs hpg) (hdef i (by simp) pg hpg)
        (hsafe i (by simp) pg hpg)
    rcases h7 with ⟨hb, hrest⟩ | ⟨hb, t, ht, hrest⟩
    · subst hb
      have hq1c : IsChain (links ov)
          ({ q1 with curtup := 0, curtupReaded := 0, curovPageID := pageOvflow pg } :
            Query).curovPageID rest := hr
      obtain ⟨q2, b, g1, g2, g3, g4, g5⟩ := ih
        { q1 with curtup := 0, curtupReaded := 0, curovPageID := pageOvflow pg } m 0 hq1c hnd2.2
        (by simp at hfuel; omega) (fun k x _ _ => InPage.zero x rfl rfl) hwf
        (fun k hk x hx t ht => by
          have := hdef k (by simp [hk]) x hx t ht
          rw [← h2.1, ← h2.2.1] at this
          exact this)
        (fun k hk x hx => by
          have := hsafe k (by simp [hk]) x hx
          rw [← h2.1, ← h2.2.1] at this
          exact this)
      have hmq : matchesQuery q1.vals (nattrs q1.rel) = matchesQuery q.vals (nattrs q.rel) :=
        h2.matches
      have hstep : ovflowLoop ov (m + 1) q = some (b, q2) := by
        rw [ovflowLoop, hs]
        simp only [getPage, hpg, h1]
        exact g1
      have hcr : chainRest (matchesQuery q.vals (nattrs q.rel)) ov (i :: rest) j =
          chainRest (matchesQuery q.vals (nattrs q.rel)) ov rest 0 := by
        simp only [chainRest, hpg, hrest, List.nil_append]
        exact (chainRest_zero _ hr).symm
      refine ⟨q2, b, hstep, h2.trans ⟨g2.1, g2.2.1, g2.2.2.1, g2.2.2.2⟩, by rw [g3]; exact h3,
        by rw [g4]; exact h5, ?_⟩
      rw [hcr]
      simp only [hmq] at g5
      rcases g5 with ⟨a, c⟩ | ⟨a, t, i2, rest2, pg2, j3, c1, c2, c3, c4, c5, c6, c7, c8⟩
      · exact Or.inl ⟨a, c⟩
      · exact Or.inr ⟨a, t, i2, rest2, pg2, j3, c1, c2, c3, c4,
          fun k hk => by simp [c5 k hk], c6, c7, c8⟩
    · subst hb
      refine ⟨q1, true, ?_, h2, h3, h5, Or.inr ⟨rfl, t, i, rest, pg, j2, ht, by rw [h4, hs],
        by rw [← hs]; exact hc0, hnd, fun k hk => hk, hpg, h6 rfl, ?_⟩⟩
      · rw [ovflowLoop, hs]
        simp only [getPage, hpg, h1]
      · simp only [chainRest, hpg, hrest, List.cons_append]

theorem SameQuery.suitable_eq {q q2 : Query} (h : SameQuery q q2) (b : Nat) :
    suitable q2 b = suitable q b := by
  unfold suitable
  rw [h.1, h.2.2.1, h.2.2.2]

theorem SameQuery.bucketMatches_eq {q q2 : Query} (h : SameQuery q q2) :
    bucketMatches q2 = bucketMatches q := by
  funext b
  unfold Malh.bucketMatches
  rw [h.suitable_eq, h.1, h.2.1]

theorem SameQuery.laterMatches_eq {q q2 : Query} (h : SameQuery q q2) (b : Nat) :
    laterMatches q2 b = laterMatches q b := by
  unfold Malh.laterMatches
  rw [h.bucketMatches_eq, h.1]

theorem laterMatches_of_le {q : Query} {b : Nat}
    (h : 2 ^ depth q.rel + splitp q.rel ≤ b) : laterMatches q b = [] := by
  unfold laterMatches
  rw [Nat.sub_eq_zero_of_le h]
  rfl

theorem laterMatches_of_lt {q : Query} {b : Nat}
    (h : b < 2 ^ depth q.rel + splitp q.rel) :
    laterMatches q b = bucketMatches q b ++ laterMatches q (b + 1) := by
  unfold laterMatches
  obtain ⟨m, hm⟩ : ∃ m, 2 ^ depth q.rel + splitp q.rel - b = m + 1 :=
    ⟨2 ^ depth q.rel + splitp q.rel - b - 1, by omega⟩
  have hm2 : 2 ^ depth q.rel + splitp q.rel - (b + 1) = m := by omega
  rw [hm, hm2, List.range'_succ, List.flatMap_cons]

theorem referenceScan_eq (q : Query) : referenceScan q = laterMatches q 0 := by
  unfold referenceScan laterMatches
  rw [List.range_eq_range']
  rfl

theorem mem_pagesAt_of {ov : List Page} {ids : List Nat} {i : Nat} {pg : Page} (hi : i ∈ ids)
    (hpg : ov[i]? = some pg) : pg ∈ pagesAt ov ids := by
  simp only [pagesAt, List.mem_filterMap]
  exact ⟨i, hi, hpg⟩

theorem WFWith.nbuckets {r : Reln} {ch : Nat → List Nat} (h : WFWith r ch) :
    2 ^ depth r + splitp r = r.npages := h.npages_eq.symm

theorem ScanWF.buckets_le {r : Reln} {ch : Nat → List Nat} (h : ScanWF r ch) :
    2 ^ depth r + splitp r ≤ r.npages := h.nbuckets_le

theorem ScanWF.bucketMatches_wf {r : Reln} {ch : Nat → List Nat} (h : ScanWF r ch) {q : Query}
    (hq : q.rel = r) {b : Nat} (hb : b < r.npages) {pg : Page} (hpg : r.data[b]? = some pg) :
    bucketMatches q b =
      if suitable q b then
        pageRest (matchesQuery q.vals (nattrs q.rel)) pg 0 ++
          pagesMatches (matchesQuery q.vals (nattrs q.rel)) (pagesAt r.ovflow (ch b))
      else [] := by
  unfold Malh.bucketMatches
  rw [hq, bucketPages_eq hpg (h.chain b pg hpg) (h.nodup b hb)]
  rfl

/-- A scan that enters a bucket is in a valid position. -/
theorem CursorState.fresh {r : Reln} {ch : Nat → List Nat} (h : ScanWF r ch) (q : Query)
    (hq : q.rel = r) (hov : q.is_ovflow = false) (h1 : q.curtupReaded = 0)
    (h2 : q.curtup = 0) : CursorState ch q (laterMatches q q.curpageID) := by
  by_cases hb : q.curpageID < 2 ^ depth q.rel + splitp q.rel
  · right; left
    have hb2 : q.curpageID < r.npages := by
      rw [hq] at hb
      exact Nat.lt_of_lt_of_le hb h.buckets_le
    obtain ⟨pg, hpg⟩ := h.page_some hb2
    refine ⟨hb, hov, pg, 0, by rw [hq]; exact hpg, fun _ => InPage.zero pg h1 h2, ?_⟩
    rw [laterMatches_of_lt hb, h.bucketMatches_wf hq hb2 hpg, hq]
  · left
    exact ⟨by omega, laterMatches_of_le (by omega)⟩

theorem Comparable.data {r : Reln} {ch : Nat → List Nat} (h : ScanWF r ch) {q : Query}
    (hq : q.rel = r) (hc : Comparable q) {b : Nat} (hb : b < r.npages) {pg : Page}
    (hpg : r.data[b]? = some pg) :
    ∀ t ∈ pageTuples pg, ∃ x, findTupleLoop q.vals (tupleVals t) (nattrs q.rel) 0 = some x := by
  intro t ht
  refine hc b (by rw [hq]; exact hb) t ?_
  rw [hq, h.bucket_tuples hb hpg]
  exact List.mem_append_left _ ht

theorem Comparable.ovflow {r : Reln} {ch : Nat → List Nat} (h : ScanWF r ch) {q : Query}
    (hq : q.rel = r) (hc : Comparable q) {b : Nat} (hb : b < r.npages) {i : Nat}
    (hi : i ∈ ch b) {pg : Page} (hpg : r.ovflow[i]? = some pg) :
    ∀ t ∈ pageTuples pg, ∃ x, findTupleLoop q.vals (tupleVals t) (nattrs q.rel) 0 = some x := by
  intro t ht
  obtain ⟨pg0, hpg0⟩ := h.page_some hb
  refine hc b (by rw [hq]; exact hb) t ?_
  rw [hq, h.bucket_tuples hb hpg0]
  exact List.mem_append_right _ (List.mem_flatMap.mpr ⟨pg, mem_pagesAt_of hi hpg, ht⟩)

theorem Comparable.same {q q2 : Query} (h : SameQuery q q2) (hc : Comparable q) :
    Comparable q2 := by
  unfold Comparable
  rw [h.1, h.2.1]
  exact hc

theorem ScanSafe.of_data {r : Reln} {ch : Nat → List Nat} (h : ScanWF r ch) {q : Query}
    (hq : q.rel = r) (hs : ScanSafe q) {b : Nat} (hb : b < 2 ^ depth r + splitp r)
    (hsu : suitable q b = true) {pg : Page} (hpg : r.data[b]? = some pg) :
    PageSafe (matchesQuery q.vals (nattrs q.rel)) (nattrs q.rel) pg := by
  refine hs b (by rw [hq]; exact hb) hsu pg ?_
  rw [hq, bucketPages_eq hpg (h.chain b pg hpg) (h.nodup b (Nat.lt_of_lt_of_le hb h.buckets_le))]
  exact List.mem_cons_self _ _

theorem ScanSafe.of_ovflow {r : Reln} {ch : Nat → List Nat} (h : ScanWF r ch) {q : Query}
    (hq : q.rel = r) (hs : ScanSafe q) {b : Nat} (hb : b < 2 ^ depth r + splitp r)
    (hsu : suitable q b = true) {i : Nat} (hi : i ∈ ch b) {pg : Page}
    (hpg : r.ovflow[i]? = some pg) :
    PageSafe (matchesQuery q.vals (nattrs q.rel)) (nattrs q.rel) pg := by
  obtain ⟨pg0, hpg0⟩ := h.page_some (Nat.lt_of_lt_of_le hb h.buckets_le)
  refine hs b (by rw [hq]; exact hb) hsu pg ?_
  rw [hq, bucketPages_eq hpg0 (h.chain b pg0 hpg0)
    (h.nodup b (Nat.lt_of_lt_of_le hb h.buckets_le))]
  exact List.mem_cons_of_mem _ (mem_pagesAt_of hi hpg)

theorem ScanSafe.of_same {q q2 : Query} (h : SameQuery q q2) (hc : ScanSafe q) : ScanSafe q2 := by
  intro b hb hsu pg hpg
  rw [h.1] at hb hpg
  rw [h.suitable_eq] at hsu
  rw [h.1, h.2.1]
  exact hc b hb hsu pg hpg

/-- One call of the bucket loop of `getNextTuple` from a valid position: it
returns the next tuple of the reference order and a valid position, or `NULL`
when nothing remains. -/
theorem getNextTupleLoop_spec {r : Reln} {ch : Nat → List Nat} (h : ScanWF r ch) :
    ∀ (n : Nat) (q : Query) (rem : List Tuple), q.rel = r →
      2 ^ depth q.rel + splitp q.rel - q.curpageID ≤ n → Comparable q → ScanSafe q →
      CursorState ch q rem →
      ∃ q2 res, getNextTupleLoop (getLower q.unknown (depth q.rel))
          (getLower q.known (depth q.rel)) q.rel.data q.rel.ovflow n q = some (q2, res) ∧
        SameQuery q q2 ∧
        ((rem = [] ∧ res = none) ∨
          ∃ t tl, rem = t :: tl ∧ res = some t ∧ CursorState ch q2 tl) := by
  intro n
  induction n with
  | zero =>
    intro q rem hq hfuel hcmp _ hcs
    have hle : ¬ q.curpageID < 2 ^ depth q.rel + splitp q.rel := by omega
    rcases hcs with ⟨_, hrem⟩ | ⟨hlt, _⟩ | ⟨hlt, _⟩
    · refine ⟨q, none, ?_, SameQuery.refl q, Or.inl ⟨hrem, rfl⟩⟩
      rw [getNextTupleLoop, if_neg hle]
    · exact absurd hlt hle
    · exact absurd hlt hle
  | succ n ih =>
    intro q rem hq hfuel hcmp hsafe hcs
    subst hq
    have next : ∀ q1 : Query, SameQuery q q1 → q1.is_ovflow = false → q1.curtupReaded = 0 →
        q1.curtup = 0 → q1.curpageID = q.curpageID + 1 →
        ∃ q2 res, getNextTupleLoop (getLower q.unknown (depth q.rel))
            (getLower q.known (depth q.rel)) q.rel.data q.rel.ovflow n q1 = some (q2, res) ∧
          SameQuery q q2 ∧
          ((laterMatches q (q.curpageID + 1) = [] ∧ res = none) ∨
            ∃ t tl, laterMatches q (q.curpageID + 1) = t :: tl ∧ res = some t ∧
              CursorState ch q2 tl) := by
      intro q1 hs h1 h2 h3 h4
      have hcs1 := CursorState.fresh h q1 hs.1 h1 h2 h3
      rw [h4, hs.laterMatches_eq] at hcs1
      obtain ⟨q2, res, g1, g2, g3⟩ := ih q1 _ hs.1 (by rw [hs.1, h4]; omega) (hcmp.same hs)
        (hsafe.of_same hs) hcs1
      rw [hs.1, hs.2.2.1, hs.2.2.2] at g1
      exact ⟨q2, res, g1, hs.trans g2, g3⟩
    have hsu : pageSuitableLoop (getLower q.unknown (depth q.rel))
        (getLower q.known (depth q.rel)) q.curpageID (depth q.rel) 0 =
        suitable q q.curpageID := rfl
    have chain : ∀ (q1 : Query) (ids : List Nat) (j : Nat), SameQuery q q1 →
        q1.curpageID = q.curpageID → q.curpageID < q.rel.npages →
        q.curpageID < 2 ^ depth q.rel + splitp q.rel →
        IsChain (links q.rel.ovflow) q1.curovPageID ids → ids.Nodup →
        (∀ k ∈ ids, k ∈ ch q.curpageID) →
        (ids ≠ [] → q1.is_ovflow = true ∧ suitable q q.curpageID = true) →
        (∀ i pg, q1.curovPageID = some i → q.rel.ovflow[i]? = some pg → InPage q1 pg j) →
        ∃ q2 res,
          (match ovflowLoop q.rel.ovflow (q.rel.ovflow.length + 1) q1 with
            | none => none
            | some (true, q3) => some (q3, q3.result)
            | some (false, q3) =>
              getNextTupleLoop (getLower q.unknown (depth q.rel))
                (getLower q.known (depth q.rel)) q.rel.data q.rel.ovflow n
                { q3 with is_ovflow := false, curtup := 0, curtupReaded := 0
                          curpageID := q3.curpageID + 1 }) = some (q2, res) ∧
          SameQuery q q2 ∧
          ((chainRest (matchesQuery q.vals (nattrs q.rel)) q.rel.ovflow ids j ++
                laterMatches q (q.curpageID + 1) = [] ∧ res = none) ∨
            ∃ t tl, chainRest (matchesQuery q.vals (nattrs q.rel)) q.rel.ovflow ids j ++
                laterMatches q (q.curpageID + 1) = t :: tl ∧ res = some t ∧
              CursorState ch q2 tl) := by
      intro q1 ids j hs hcur hb hlt hc hnd hsub hne hin
      obtain ⟨q3, b, g1, g2, g3, g4, g5⟩ := ovflowLoop_spec q.rel.ovflow ids q1
        (q.rel.ovflow.length + 1) j
        hc hnd (Nat.le_succ_of_le (length_le_of_nodup_lt hnd (fun k hk => by
          obtain ⟨pg0, hpg0⟩ := h.page_some hb
          exact (h.chain _ pg0 hpg0).lt k (hsub k hk)))) hin h.ov_wf
        (fun i hi pg hpg => Comparable.ovflow h hs.1 (hcmp.same hs) hb (hsub i hi) hpg)
        (fun i hi pg hpg => ScanSafe.of_ovflow h hs.1 (hsafe.of_same hs) hlt
          (by rw [hs.suitable_eq]; exact (hne (List.ne_nil_of_mem hi)).2) (hsub i hi) hpg)
      rw [hs.matches] at g5
      have hs3 : SameQuery q q3 := hs.trans g2
      rcases g5 with ⟨hb2, hrest⟩ | ⟨hb2, t, i2, rest2, pg2, j2, c1, c2, c3, c4, c5, c6, c7, c8⟩
      · subst hb2
        obtain ⟨q4, res, k1, k2, k3⟩ := next
          { q3 with is_ovflow := false, curtup := 0, curtupReaded := 0
                    curpageID := q3.curpageID + 1 }
          ⟨hs3.1, hs3.2.1, hs3.2.2.1, hs3.2.2.2⟩ rfl rfl rfl
          (by show q3.curpageID + 1 = _; rw [g3, hcur])
        refine ⟨q4, res, ?_, k2, ?_⟩
        · simp only [g1]; exact k1
        · rw [hrest, List.nil_append]; exact k3
      · subst hb2
        refine ⟨q3, some t, ?_, hs3, Or.inr ⟨t, _, by rw [c8, List.cons_append], rfl, ?_⟩⟩
        · simp only [g1, c1]
        · right; right
          have hcur3 : q3.curpageID = q.curpageID := by rw [g3, hcur]
          have hidsne : ids ≠ [] := by
            intro e
            have := c5 i2 (by simp)
            rw [e] at this
            simp at this
          refine ⟨?_, by rw [g4]; exact (hne hidsne).1, ?_, i2, rest2, pg2, j2, c2, ?_, c4, ?_, ?_,
            c7, ?_⟩
          · rw [hs3.1, hcur3]; exact hlt
          · rw [hs3.suitable_eq, hcur3]; exact (hne hidsne).2
          · rw [hs3.1]; exact c3
          · intro k hk; rw [hcur3]; exact hsub k (c5 k hk)
          · rw [hs3.1]; exact c6
          · rw [hs3.matches, hs3.1, hcur3, hs3.laterMatches_eq]
    rcases hcs with ⟨hle, hrem⟩ | ⟨hlt, hov, pg, j, hpg, hin, hrem⟩ |
      ⟨hlt, hov, hsuit, i, rest, pg, j, hcur, hc, hnd, hsub, hpg, hin, hrem⟩
    · refine ⟨q, none, ?_, SameQuery.refl q, Or.inl ⟨hrem, rfl⟩⟩
      rw [getNextTupleLoop, if_neg (by omega)]
    · have hb : q.curpageID < q.rel.npages := Nat.lt_of_lt_of_le hlt h.buckets_le
      by_cases hsuit : suitable q q.curpageID = true
      · simp only [hsuit, if_true] at hrem
        obtain ⟨j2, q1, b, g1, g2, g3, g4, g5, g6, g7⟩ :=
          getTupleInPage_spec (h.data_wf _ pg hpg) (hin hsuit) (Comparable.data h rfl hcmp hb hpg)
            (ScanSafe.of_data h rfl hsafe hlt hsuit hpg)
        rcases g7 with ⟨hb2, hrest⟩ | ⟨hb2, t, ht, hrest⟩
        · subst hb2
          obtain ⟨q2, res, k1, k2, k3⟩ := chain
            { q1 with curovPageID := pageOvflow pg, is_ovflow := (pageOvflow pg).isSome
                      curtup := 0, curtupReaded := 0 } (ch q.curpageID) 0
            ⟨g2.1, g2.2.1, g2.2.2.1, g2.2.2.2⟩ g3 hb hlt (h.chain _ pg hpg) (h.nodup _ hb)
            (fun k hk => hk)
            (fun hne => by
              refine ⟨?_, hsuit⟩
              show (pageOvflow pg).isSome = true
              have hc := h.chain _ pg hpg
              cases hids : ch q.curpageID with
              | nil => exact absurd hids hne
              | cons a l =>
                rw [hids] at hc
                obtain ⟨e, _⟩ := hc
                simp [pageOvflow, e])
            (fun _ x _ _ => InPage.zero x rfl rfl)
          refine ⟨q2, res, ?_, k2, ?_⟩
          · rw [getNextTupleLoop, if_pos hlt]
            simp only [hsu, hsuit, Bool.not_true, Bool.false_eq_true, if_false, hov, if_true,
              getPage, hpg, g1]
            exact k1
          · rw [hrem, hrest, List.nil_append, ← chainRest_zero _ (h.chain _ pg hpg)]
            exact k3
        · subst hb2
          refine ⟨q1, some t, ?_, g2, Or.inr ⟨t,
            (pageRest (matchesQuery q.vals (nattrs q.rel)) pg j2 ++
              pagesMatches (matchesQuery q.vals (nattrs q.rel))
                (pagesAt q.rel.ovflow (ch q.curpageID))) ++ laterMatches q (q.curpageID + 1),
            by rw [hrem, hrest]; rfl, rfl, ?_⟩⟩
          · rw [getNextTupleLoop, if_pos hlt]
            simp only [hsu, hsuit, Bool.not_true, Bool.false_eq_true, if_false, hov, if_true,
              getPage, hpg, g1, ht]
          · right; left
            refine ⟨by rw [g2.1, g3]; exact hlt, by rw [g5]; exact hov, pg, j2,
              by rw [g2.1, g3]; exact hpg, fun _ => g6 rfl, ?_⟩
            rw [g2.suitable_eq, g3, hsuit, g2.matches, g2.1, g2.laterMatches_eq]
            simp only [if_true]
      · have hsf : suitable q q.curpageID = false := by
          cases hx : suitable q q.curpageID with
          | true => exact absurd hx hsuit
          | false => rfl
        simp only [hsf, Bool.false_eq_true, if_false, List.nil_append] at hrem
        obtain ⟨q2, res, k1, k2, k3⟩ := next
          { q with curtup := 0, curtupReaded := 0, curpageID := q.curpageID + 1 }
          (SameQuery.refl q) hov rfl rfl rfl
        refine ⟨q2, res, ?_, k2, by rw [hrem]; exact k3⟩
        rw [getNextTupleLoop, if_pos hlt]
        simp only [hsu, hsf, Bool.not_false, if_true]
        exact k1
    · have hb : q.curpageID < q.rel.npages := Nat.lt_of_lt_of_le hlt h.buckets_le
      obtain ⟨q2, res, k1, k2, k3⟩ := chain q (i :: rest) j (SameQuery.refl q) rfl hb hlt
        (by rw [hcur]; exact hc) hnd hsub (fun _ => ⟨hov, hsuit⟩)
        (fun i2 x hi2 hx => by
          rw [hcur] at hi2
          cases hi2
          rw [hpg] at hx
          cases hx
          exact hin)
      refine ⟨q2, res, ?_, k2, ?_⟩
      · rw [getNextTupleLoop, if_pos hlt]
        simp only [hsu, hsuit, Bool.not_true, Bool.false_eq_true, if_false, hov]
        exact k1
      · rw [hrem]
        exact k3

/-- One call of `getNextTuple` from a valid position of a scan. -/
theorem getNextTuple_spec {r : Reln} {ch : Nat → List Nat} (h : ScanWF r ch) {q : Query}
    {rem : List Tuple} (hq : q.rel = r) (hcmp : Comparable q) (hsafe : ScanSafe q)
    (hcs : CursorState ch q rem) :
    ∃ q2 res, getNextTuple q = some (q2, res) ∧ SameQuery q q2 ∧
      ((rem = [] ∧ res = none) ∨
        ∃ t tl, rem = t :: tl ∧ res = some t ∧ CursorState ch q2 tl) := by
  unfold getNextTuple
  simp only [dataFile, ovflowFile]
  exact getNextTupleLoop_spec h _ q rem hq (le_refl _) hcmp hsafe hcs

/-- Calling `getNextTuple` until it returns `NULL` yields exactly what remains
at the position of the scan, as soon as more calls are allowed than tuples remain. -/
theorem scanAll_spec {r : Reln} {ch : Nat → List Nat} (h : ScanWF r ch) (rem : List Tuple) :
    ∀ (q : Query) (n : Nat), q.rel = r → Comparable q → ScanSafe q → CursorState ch q rem →
      rem.length < n → scanAll n q = some rem := by
  induction rem with
  | nil =>
    intro q n hq hcmp hsafe hcs hn
    obtain ⟨m, rfl⟩ : ∃ m, n = m + 1 := ⟨n - 1, by simp at hn; omega⟩
    obtain ⟨q2, res, g1, _, g3⟩ := getNextTuple_spec h hq hcmp hsafe hcs
    rcases g3 with ⟨_, hres⟩ | ⟨t, tl, e, _⟩
    · subst hres
      simp only [scanAll, g1]
    · cases e
  | cons t tl ih =>
    intro q n hq hcmp hsafe hcs hn
    obtain ⟨m, rfl⟩ : ∃ m, n = m + 1 := ⟨n - 1, by simp at hn; omega⟩
    obtain ⟨q2, res, g1, g2, g3⟩ := getNextTuple_spec h hq hcmp hsafe hcs
    rcases g3 with ⟨e, _⟩ | ⟨t2, tl2, e, hres, hcs2⟩
    · cases e
    · cases e
      subst hres
      have := ih q2 m (by rw [g2.1, hq]) (hcmp.same g2) (hsafe.of_same g2) hcs2
        (by simp at hn; omega)
      simp only [scanAll, g1, this]

/-! ## Bits, hashing and query set-up -/

theorem testBit_setBit (x i j : Nat) :
    (setBit x i).testBit j = (x.testBit j || decide (i = j)) := by
  unfold setBit
  rw [Nat.testBit_or, Nat.one_shiftLeft, Nat.testBit_two_pow]

theorem testBit_getLower (x d i : Nat) (h : i < d) : (getLower x d).testBit i = x.testBit i := by
  unfold getLower
  rw [Nat.testBit_mod_two_pow]
  simp [h]

/-- Bit `j` of the composite hash is bit `cv[j].bit` of the hash of attribute `cv[j].att`. -/
theorem tupleHashLoop_bits (hash : List Char → Nat) (cv : ChVec) (vals : List (List Char)) :
    ∀ (n i acc hv : Nat), (∀ j, i ≤ j → acc.testBit j = false) →
      tupleHashLoop hash cv vals n i acc = some hv →
      ∀ j, hv.testBit j =
        if i ≤ j ∧ j < i + n then (hash (vals.getD (cv j).att [])).testBit (cv j).bit
        else acc.testBit j := by
  intro n
  induction n with
  | zero =>
    intro i acc hv _ h j
    simp only [tupleHashLoop, Option.some.injEq] at h
    subst h
    have : ¬ (i ≤ j ∧ j < i + 0) := by omega
    rw [if_neg this]
  | succ n ih =>
    intro i acc hv hacc h j
    simp only [tupleHashLoop] at h
    split at h
    · cases h
    · rename_i v hv2
      have hget : vals.getD (cv i).att [] = v := by
        rw [List.getD_eq_getElem?_getD, hv2]; rfl
      have hacc2 : ∀ k, i + 1 ≤ k →
          (if bitIsSet (hash v) (cv i).bit then setBit acc i else acc).testBit k = false := by
        intro k hk
        split
        · rw [testBit_setBit, hacc k (by omega)]
          simp; omega
        · exact hacc k (by omega)
      rw [ih (i + 1) _ hv hacc2 h j]
      by_cases hji : j = i
      · subst hji
        have h1 : ¬ (j + 1 ≤ j ∧ j < j + 1 + n) := by omega
        have h2 : j ≤ j ∧ j < j + (n + 1) := by omega
        rw [if_neg h1, if_pos h2, hget]
        unfold bitIsSet
        split
        · rename_i hb
          rw [testBit_setBit, hb]; simp
        · rename_i hb
          simp only [Bool.not_eq_true] at hb
          rw [hb, hacc j (le_refl j)]
      · by_cases hr : i + 1 ≤ j ∧ j < i + 1 + n
        · have h2 : i ≤ j ∧ j < i + (n + 1) := by omega
          rw [if_pos hr, if_pos h2]
        · have h2 : ¬ (i ≤ j ∧ j < i + (n + 1)) := by omega
          rw [if_neg hr, if_neg h2]
          unfold bitIsSet
          split
          · rw [testBit_setBit]
            simp [Ne.symm hji]
          · rfl

theorem tupleHash_bits {hash : List Char → Nat} {r : Reln} {t : Tuple} {hv : Nat}
    (h : tupleHash hash r t = some hv) (j : Nat) (hj : j < MAXCHVEC) :
    hv.testBit j = (hash ((tupleVals t).getD (r.cv j).att [])).testBit (r.cv j).bit := by
  have := tupleHashLoop_bits hash (chvec r) (tupleVals t) MAXCHVEC 0 0 hv (by simp) h j
  rw [this, if_pos ⟨Nat.zero_le _, by omega⟩]
  rfl

theorem unknownAttMapLoop_spec (uninit : Nat → Bool) (vals : List (List Char)) :
    ∀ (n i : Nat) (m : List Bool), i + n ≤ vals.length →
      unknownAttMapLoop uninit vals n i m =
        some (m ++ (List.range' i n).map (attUnknown uninit vals)) := by
  intro n
  induction n with
  | zero => intro i m _; simp [unknownAttMapLoop]
  | succ n ih =>
    intro i m h
    have hi : i < vals.length := by omega
    simp only [unknownAttMapLoop, List.getElem?_eq_getElem hi]
    rw [ih (i + 1) _ (by omega), List.range'_succ, List.map_cons, List.append_assoc]
    congr 2
    unfold attUnknown
    rw [List.getD_eq_getElem?_getD, List.getElem?_eq_getElem hi]
    rfl

theorem startQueryLoop_spec (hash : List Char → Nat) (cv : ChVec) (vals : List (List Char))
    (f : Nat → Bool) (nvals : Nat) :
    ∀ (n i known unknown : Nat),
      (∀ k, i ≤ k → k < i + n → (cv k).att < nvals ∧ (cv k).att < vals.length) →
      (∀ j, i ≤ j → known.testBit j = false) → (∀ j, i ≤ j → unknown.testBit j = false) →
      ∃ kn un, startQueryLoop hash cv vals ((List.range nvals).map f) n i known unknown =
          some (kn, un) ∧
        ∀ j, un.testBit j = (if i ≤ j ∧ j < i + n then f (cv j).att else unknown.testBit j) ∧
          kn.testBit j =
            (if i ≤ j ∧ j < i + n then
              (!f (cv j).att && (hash (vals.getD (cv j).att [])).testBit (cv j).bit)
            else known.testBit j) := by
  intro n
  induction n with
  | zero =>
    intro i known unknown _ _ _
    refine ⟨known, unknown, rfl, fun j => ?_⟩
    have : ¬ (i ≤ j ∧ j < i + 0) := by omega
    simp only [if_neg this, and_self]
  | succ n ih =>
    intro i known unknown hatt hk hu
    obtain ⟨ha1, ha2⟩ := hatt i (le_refl i) (by omega)
    have hmap : ((List.range nvals).map f)[(cv i).att]? = some (f (cv i).att) := by
      rw [List.getElem?_map, List.getElem?_range ha1]
      rfl
    have hget : vals.getD (cv i).att [] = vals[(cv i).att] := by
      rw [List.getD_eq_getElem?_getD, List.getElem?_eq_getElem ha2]
      rfl
    have hatt2 : ∀ k, i + 1 ≤ k → k < i + 1 + n →
        (cv k).att < nvals ∧ (cv k).att < vals.length :=
      fun k h1 h2 => hatt k (by omega) (by omega)
    cases hf : f (cv i).att with
    | true =>
      have hu2 : ∀ j, i + 1 ≤ j → (setBit unknown i).testBit j = false := by
        intro j hj
        rw [testBit_setBit, hu j (by omega)]
        simp; omega
      obtain ⟨kn, un, g1, g2⟩ := ih (i + 1) known (setBit unknown i) hatt2
        (fun j hj => hk j (by omega)) hu2
      refine ⟨kn, un, ?_, fun j => ?_⟩
      · simp only [startQueryLoop, hmap, hf]
        exact g1
      · obtain ⟨g3, g4⟩ := g2 j
        rw [g3, g4]
        by_cases hji : j = i
        · subst hji
          have h1 : ¬ (j + 1 ≤ j ∧ j < j + 1 + n) := by omega
          have h2 : j ≤ j ∧ j < j + (n + 1) := by omega
          rw [if_neg h1, if_neg h1, if_pos h2, if_pos h2, testBit_setBit, hf, hk j (le_refl j)]
          simp
        · by_cases hr : i + 1 ≤ j ∧ j < i + 1 + n
          · have h2 : i ≤ j ∧ j < i + (n + 1) := by omega
            rw [if_pos hr, if_pos hr, if_pos h2, if_pos h2]
            exact ⟨rfl, rfl⟩
          · have h2 : ¬ (i ≤ j ∧ j < i + (n + 1)) := by omega
            rw [if_neg hr, if_neg hr, if_neg h2, if_neg h2, testBit_setBit]
            simp [Ne.symm hji]
    | false =>
      have hk2 : ∀ j, i + 1 ≤ j →
          (if bitIsSet (hash vals[(cv i).att]) (cv i).bit then setBit known i
            else known).testBit j = false := by
        intro j hj
        split
        · rw [testBit_setBit, hk j (by omega)]
          simp; omega
        · exact hk j (by omega)
      obtain ⟨kn, un, g1, g2⟩ := ih (i + 1) _ unknown hatt2 hk2 (fun j hj => hu j (by omega))
      refine ⟨kn, un, ?_, fun j => ?_⟩
      · simp only [startQueryLoop, hmap, hf, List.getElem?_eq_getElem ha2]
        exact g1
      · obtain ⟨g3, g4⟩ := g2 j
        rw [g3, g4]
        by_cases hji : j = i
        · subst hji
          have h1 : ¬ (j + 1 ≤ j ∧ j < j + 1 + n) := by omega
          have h2 : j ≤ j ∧ j < j + (n + 1) := by omega
          rw [if_neg h1, if_neg h1, if_pos h2, if_pos h2, hf, hu j (le_refl j), hget]
          refine ⟨rfl, ?_⟩
          unfold bitIsSet
          split
          · rename_i hb
            rw [testBit_setBit, hb]; simp
          · rename_i hb
            simp only [Bool.not_eq_true] at hb
            rw [hb, hk j (le_refl j)]
            rfl
        · by_cases hr : i + 1 ≤ j ∧ j < i + 1 + n
          · have h2 : i ≤ j ∧ j < i + (n + 1) := by omega
            rw [if_pos hr, if_pos hr, if_pos h2, if_pos h2]
            exact ⟨rfl, rfl⟩
          · have h2 : ¬ (i ≤ j ∧ j < i + (n + 1)) := by omega
            rw [if_neg hr, if_neg hr, if_neg h2, if_neg h2]
            refine ⟨rfl, ?_⟩
            unfold bitIsSet
            split
            · rw [testBit_setBit]
              simp [Ne.symm hji]
            · rfl

/-- On a pattern with `nattrs` fields `startQuery` returns a query at the start
of the scan whose `known` and `unknown` words are formed bit by bit from the
choice vector. -/
theorem startQuery_spec (hash : List Char → Nat) (uninit : Nat → Bool) {r : Reln} {P : List Char}
    (hcv : ∀ k, k < MAXCHVEC → (r.cv k).att < r.nattrs) (hP : (tupleVals P).length = r.nattrs) :
    ∃ q, startQuery hash uninit r P = some q ∧ q.rel = r ∧ q.vals = tupleVals P ∧
      q.curpageID = 0 ∧ q.is_ovflow = false ∧ q.curtup = 0 ∧ q.curtupReaded = 0 ∧
      ∀ j, j < MAXCHVEC →
        q.unknown.testBit j = attUnknown uninit (tupleVals P) (r.cv j).att ∧
        q.known.testBit j = (!attUnknown uninit (tupleVals P) (r.cv j).att &&
          (hash ((tupleVals P).getD (r.cv j).att [])).testBit (r.cv j).bit) := by
  have h1 := unknownAttMapLoop_spec uninit (tupleVals P) r.nattrs 0 [] (by omega)
  rw [List.nil_append, ← List.range_eq_range'] at h1
  obtain ⟨kn, un, h2, h3⟩ := startQueryLoop_spec hash r.cv (tupleVals P)
    (attUnknown uninit (tupleVals P)) r.nattrs MAXCHVEC 0 0 0
    (fun k _ hk => ⟨hcv k (by omega), by rw [hP]; exact hcv k (by omega)⟩) (by simp) (by simp)
  refine ⟨{ rel := r, known := kn, unknown := un, curpageID := 0, curovPageID := some 0
            is_ovflow := false, curtup := 0, curtupReaded := 0, vals := tupleVals P
            result := none }, ?_, rfl, rfl, rfl, rfl, rfl, rfl, ?_⟩
  · simp only [startQuery, chvec, nattrs, h1, h2]
  · intro j hj
    obtain ⟨g1, g2⟩ := h3 j
    have hc : 0 ≤ j ∧ j < 0 + MAXCHVEC := ⟨Nat.zero_le _, by omega⟩
    show un.testBit j = _ ∧ kn.testBit j = _
    rw [g1, g2, if_pos hc, if_pos hc]
    exact ⟨rfl, rfl⟩

theorem pageSuitableLoop_true (U K B : Nat) :
    ∀ (n i : Nat), (∀ k, i ≤ k → k < i + n → U.testBit k = false → K.testBit k = B.testBit k) →
      pageSuitableLoop U K B n i = true := by
  intro n
  induction n with
  | zero => intro i _; rfl
  | succ n ih =>
    intro i h
    simp only [pageSuitableLoop, bitIsSet]
    cases hu : U.testBit i with
    | false =>
      simp only [Bool.not_false, if_true]
      have e := h i (le_refl i) (by omega) hu
      simp [e]
    | true =>
      simp only [Bool.not_true, Bool.false_eq_true, if_false]
      exact ih (i + 1) (fun k h1 h2 => h k (by omega) (by omega))

/-! ## Facts that hold in every state -/

/-- Whatever the state, a call of `addTupleToRelation` that returns leaves the
depth, the split pointer and the page count alone, and a bucket it returns is
the one selected from the hash. -/
theorem addTupleToRelation_meta (hash : List Char → Nat) {r r2 : Reln} {t : Tuple}
    {res : Option Nat} (h : addTupleToRelation hash r t = some (r2, res)) :
    r2.depth = r.depth ∧ r2.sp = r.sp ∧ r2.npages = r.npages ∧ r2.nattrs = r.nattrs ∧
      r2.cv = r.cv ∧
      ∃ H, tupleHash hash r t = some H ∧ ∀ p, res = some p → p = bucketOf H r.depth r.sp := by
  unfold addTupleToRelation at h
  cases hh : tupleHash hash r t with
  | none => simp [hh] at h
  | some H =>
    simp only [hh] at h
    refine ⟨?_, ?_, ?_, ?_, ?_, H, rfl, ?_⟩ <;>
    · repeat' split at h
      all_goals first
        | (cases h
           first
             | rfl
             | (intro p hp; first | (cases hp; rfl) | (simp [NO_PAGE] at hp)))
        | cases h

theorem reinsert_meta (hash : List Char → Nat) (T : List Tuple) :
    ∀ (n i : Nat) (r r2 : Reln), reinsert hash T n i r = some r2 →
      r2.depth = r.depth ∧ r2.sp = r.sp ∧ r2.npages = r.npages ∧ r2.nattrs = r.nattrs ∧
        r2.cv = r.cv := by
  intro n
  induction n with
  | zero =>
    intro i r r2 h
    simp only [reinsert, Option.some.injEq] at h
    subst h
    exact ⟨rfl, rfl, rfl, rfl, rfl⟩
  | succ n ih =>
    intro i r r2 h
    simp only [reinsert] at h
    split at h
    · cases h
    · split at h
      · cases h
      · cases h
      · rename_i r1 p hadd
        obtain ⟨a1, a2, a3, a4, a5, _⟩ := addTupleToRelation_meta hash hadd
        obtain ⟨b1, b2, b3, b4, b5⟩ := ih _ _ _ h
        exact ⟨b1.trans a1, b2.trans a2, b3.trans a3, b4.trans a4, b5.trans a5⟩

/-- Whatever the state, a call of `pageSplit` that returns has added one page
and advanced the split pointer once. -/
theorem pageSplit_meta (hash : List Char → Nat) {r r3 : Reln} (h : pageSplit hash r = some r3) :
    r3.npages = r.npages + 1 ∧ (r3.depth, r3.sp) = advance r.depth r.sp ∧
      r3.nattrs = r.nattrs ∧ r3.cv = r.cv := by
  unfold pageSplit at h
  simp only at h
  repeat' split at h
  all_goals first
    | cases h
    | (obtain ⟨b1, b2, b3, b4, b5⟩ := reinsert_meta hash _ _ _ _ _ h
       refine ⟨b3, ?_, b4, b5⟩
       rw [b1, b2]
       unfold advance
       simp_all)

/-- Whatever the state, a call of `addToRelation` that returns has split
exactly when the split was due. -/
theorem addToRelation_meta (hash : List Char → Nat) {r r2 : Reln} {t : Tuple} {res : Option Nat}
    (h : addToRelation hash r t = some (r2, res)) :
    (splitDue r → r2.npages = r.npages + 1 ∧ (r2.depth, r2.sp) = advance r.depth r.sp) ∧
      (¬ splitDue r → r2.npages = r.npages ∧ r2.depth = r.depth ∧ r2.sp = r.sp) ∧
      r2.nattrs = r.nattrs ∧ r2.cv = r.cv := by
  have nosplit : addTupleToRelation hash r t = some (r2, res) → ¬ splitDue r →
      (splitDue r → r2.npages = r.npages + 1 ∧ (r2.depth, r2.sp) = advance r.depth r.sp) ∧
      (¬ splitDue r → r2.npages = r.npages ∧ r2.depth = r.depth ∧ r2.sp = r.sp) ∧
      r2.nattrs = r.nattrs ∧ r2.cv = r.cv := by
    intro hadd hns
    obtain ⟨a1, a2, a3, a4, a5, _⟩ := addTupleToRelation_meta hash hadd
    exact ⟨fun hs => absurd hs hns, fun _ => ⟨a3, a1, a2⟩, a4, a5⟩
  unfold addToRelation at h
  simp only [nattrs] at h
  split at h
  · cases h
  · split at h
    · rename_i hnz
      split at h
      · cases h
      · split at h
        · rename_i hmod
          have hdue : splitDue r := ⟨hnz, hmod⟩
          split at h
          · cases h
          · rename_i r1 hsplit
            obtain ⟨a1, a2, a3, a4, a5, _⟩ := addTupleToRelation_meta hash h
            obtain ⟨b1, b2, b3, b4⟩ := pageSplit_meta hash hsplit
            exact ⟨fun _ => ⟨by rw [a3, b1], by rw [a1, a2, b2]⟩, fun hns => absurd hdue hns,
              a4.trans b3, a5.trans b4⟩
        · rename_i hmod
          exact nosplit h (fun hs => hmod hs.2)
    · rename_i hz
      exact nosplit h (fun hs => hz hs.1)

theorem Reachable.inv {hash : List Char → Nat} {r0 r : Reln} (h : Reachable hash r0 r)
    (h0 : r0.npages = 2 ^ r0.depth + r0.sp ∧ r0.sp < 2 ^ r0.depth) :
    r.npages = 2 ^ r.depth + r.sp ∧ r.sp < 2 ^ r.depth := by
  induction h with
  | init => exact h0
  | @step ra rb t res _ hstep ih =>
    obtain ⟨a1, a2, _⟩ := addToRelation_meta hash hstep
    by_cases hd : splitDue ra
    · obtain ⟨b1, b2⟩ := a1 hd
      have hd2 : rb.depth = (advance ra.depth ra.sp).1 := by rw [← b2]
      have hs2 : rb.sp = (advance ra.depth ra.sp).2 := by rw [← b2]
      have := advance_inv ra.depth ra.sp ih.2
      rw [b1, hd2, hs2, ih.1]
      exact this
    · obtain ⟨b1, b2, b3⟩ := a2 hd
      rw [b1, b2, b3]
      exact ih

theorem findTupleLoop_true {qvals vals : List (List Char)} :
    ∀ (n j : Nat), findTupleLoop qvals vals n j = some true →
      ∀ k, j ≤ k → k < j + n → ∀ v, qvals[k]? = some v → v ≠ ['?'] → vals[k]? = some v := by
  intro n
  induction n with
  | zero => intro j _ k h1 h2; omega
  | succ n ih =>
    intro j h k h1 h2 v hv hne
    simp only [findTupleLoop] at h
    split at h
    · cases h
    · rename_i qv hqv
      split at h
      · rename_i hq
        split at h
        · cases h
        · rename_i u hu
          split at h
          · cases h
          · rename_i hvu
            simp only [ne_eq, Decidable.not_not] at hvu
            by_cases hkj : k = j
            · subst hkj
              rw [hqv] at hv
              cases hv
              rw [hu, hvu]
            · exact ih (j + 1) h k (by omega) (by omega) v hv hne
      · rename_i hq
        simp only [ne_eq, Decidable.not_not] at hq
        by_cases hkj : k = j
        · subst hkj
          rw [hqv] at hv
          cases hv
          exact absurd hq hne
        · exact ih (j + 1) h k (by omega) (by omega) v hv hne

/-- Whatever the page, a tuple found by `getTupleInPage` passed the match test. -/
theorem getTupleInPageLoop_found (l : List Tuple) (R : Nat) :
    ∀ (n i : Nat) (q q2 : Query) (b : Bool), getTupleInPageLoop l R n i q = some (b, q2) →
      SameQuery q q2 ∧ (b = true → ∃ tup, q2.result = some tup ∧
        findTupleLoop q.vals (tupleVals tup) (nattrs q.rel) 0 = some true) := by
  intro n
  induction n with
  | zero =>
    intro i q q2 b h
    simp only [getTupleInPageLoop] at h
    split at h
    · cases h
    · simp only [Option.some.injEq, Prod.mk.injEq] at h
      obtain ⟨h1, h2⟩ := h
      subst h1 h2
      exact ⟨SameQuery.refl q, fun hb => by cases hb⟩
  | succ n ih =>
    intro i q q2 b h
    simp only [getTupleInPageLoop] at h
    split at h
    · cases h
    · rename_i tup _
      split at h
      · cases h
      · rename_i hm
        split at h
        · cases h
        · simp only [Option.some.injEq, Prod.mk.injEq] at h
          obtain ⟨h1, h2⟩ := h
          subst h1 h2
          exact ⟨⟨rfl, rfl, rfl, rfl⟩, fun _ => ⟨tup, rfl, hm⟩⟩
      · obtain ⟨g1, g2⟩ := ih _ _ _ _ h
        exact ⟨⟨g1.1, g1.2.1, g1.2.2.1, g1.2.2.2⟩, g2⟩

theorem getTupleInPage_found {q q2 : Query} {pg : Page} {b : Bool}
    (h : getTupleInPage q pg = some (b, q2)) :
    SameQuery q q2 ∧ (b = true → ∃ tup, q2.result = some tup ∧
      findTupleLoop q.vals (tupleVals tup) (nattrs q.rel) 0 = some true) :=
  getTupleInPageLoop_found _ _ _ _ _ _ _ h

theorem ovflowLoop_found (ov : List Page) :
    ∀ (fuel : Nat) (q q2 : Query) (b : Bool), ovflowLoop ov fuel q = some (b, q2) →
      SameQuery q q2 ∧ (b = true → ∃ tup, q2.result = some tup ∧
        findTupleLoop q.vals (tupleVals tup) (nattrs q.rel) 0 = some true) := by
  intro fuel
  induction fuel with
  | zero =>
    intro q q2 b h
    unfold ovflowLoop at h
    split at h
    · simp only [Option.some.injEq, Prod.mk.injEq] at h
      obtain ⟨h1, h2⟩ := h
      subst h1 h2
      exact ⟨SameQuery.refl q, fun hb => by cases hb⟩
    · cases h
  | succ n ih =>
    intro q q2 b h
    unfold ovflowLoop at h
    split at h
    · simp only [Option.some.injEq, Prod.mk.injEq] at h
      obtain ⟨h1, h2⟩ := h
      subst h1 h2
      exact ⟨SameQuery.refl q, fun hb => by cases hb⟩
    · simp only at h
      split at h
      · cases h
      · split at h
        · cases h
        · rename_i q1 hg
          simp only [Option.some.injEq, Prod.mk.injEq] at h
          obtain ⟨h1, h2⟩ := h
          subst h1 h2
          exact getTupleInPage_found hg
        · rename_i q1 hg
          obtain ⟨g1, _⟩ := getTupleInPage_found hg
          obtain ⟨k1, k2⟩ := ih _ _ _ h
          refine ⟨g1.trans ⟨k1.1, k1.2.1, k1.2.2.1, k1.2.2.2⟩, fun hb => ?_⟩
          obtain ⟨tup, e1, e2⟩ := k2 hb
          refine ⟨tup, e1, ?_⟩
          rw [← g1.1, ← g1.2.1]
          exact e2

/-- Whatever the state of the relation and of the cursor, a tuple returned by
the bucket loop of `getNextTuple` passed the match test of the query. -/
theorem getNextTupleLoop_found (U K : Nat) (df ovf : List Page) :
    ∀ (n : Nat) (q q2 : Query) (res : Option Tuple),
      getNextTupleLoop U K df ovf n q = some (q2, res) →
      SameQuery q q2 ∧ ∀ t, res = some t →
        findTupleLoop q.vals (tupleVals t) (nattrs q.rel) 0 = some true := by
  intro n
  induction n with
  | zero =>
    intro q q2 res h
    unfold getNextTupleLoop at h
    split at h
    · cases h
    · simp only [Option.some.injEq, Prod.mk.injEq] at h
      obtain ⟨h1, h2⟩ := h
      subst h1 h2
      exact ⟨SameQuery.refl q, fun t ht => by cases ht⟩
  | succ n ih =>
    intro q q2 res h
    have recur : ∀ q1 : Query, SameQuery q q1 →
        getNextTupleLoop U K df ovf n q1 = some (q2, res) →
        SameQuery q q2 ∧ ∀ t, res = some t →
          findTupleLoop q.vals (tupleVals t) (nattrs q.rel) 0 = some true := by
      intro q1 hs h1
      obtain ⟨k1, k2⟩ := ih _ _ _ h1
      refine ⟨hs.trans k1, fun t ht => ?_⟩
      have := k2 t ht
      rw [hs.1, hs.2.1] at this
      exact this
    have found : ∀ q1 : Query, SameQuery q q1 →
        (∃ tup, q1.result = some tup ∧
          findTupleLoop q.vals (tupleVals tup) (nattrs q.rel) 0 = some true) →
        some (q1, q1.result) = some (q2, res) →
        SameQuery q q2 ∧ ∀ t, res = some t →
          findTupleLoop q.vals (tupleVals t) (nattrs q.rel) 0 = some true := by
      intro q1 hs hex h1
      simp only [Option.some.injEq, Prod.mk.injEq] at h1
      obtain ⟨e1, e2⟩ := h1
      subst e1 e2
      obtain ⟨tup, a1, a2⟩ := hex
      refine ⟨hs, fun t ht => ?_⟩
      rw [a1] at ht
      cases ht
      exact a2
    have chain : ∀ q1 : Query, SameQuery q q1 →
        (match ovflowLoop ovf (ovf.length + 1) q1 with
          | none => none
          | some (true, q3) => some (q3, q3.result)
          | some (false, q3) =>
            getNextTupleLoop U K df ovf n
              { q3 with is_ovflow := false, curtup := 0, curtupReaded := 0
                        curpageID := q3.curpageID + 1 }) = some (q2, res) →
        SameQuery q q2 ∧ ∀ t, res = some t →
          findTupleLoop q.vals (tupleVals t) (nattrs q.rel) 0 = some true := by
      intro q1 hs h1
      split at h1
      · cases h1
      · rename_i q3 ho
        obtain ⟨g1, g2⟩ := ovflowLoop_found _ _ _ _ _ ho
        obtain ⟨tup, a1, a2⟩ := g2 rfl
        refine found q3 (hs.trans g1) ⟨tup, a1, ?_⟩ h1
        rw [hs.1, hs.2.1] at a2
        exact a2
      · rename_i q3 ho
        obtain ⟨g1, _⟩ := ovflowLoop_found _ _ _ _ _ ho
        have hs3 := hs.trans g1
        refine recur _ ?_ h1
        exact ⟨hs3.1, hs3.2.1, hs3.2.2.1, hs3.2.2.2⟩
    unfold getNextTupleLoop at h
    split at h
    · simp only at h
      split at h
      · refine recur _ ?_ h
        exact ⟨rfl, rfl, rfl, rfl⟩
      · split at h
        · cases h
        · rename_i q1 hprim
          split at hprim
          · split at hprim
            · cases hprim
            · split at hprim
              · cases hprim
              · rename_i q0 hg
                simp only [Option.some.injEq, Prod.mk.injEq] at hprim
                obtain ⟨_, e⟩ := hprim
                subst e
                obtain ⟨g1, g2⟩ := getTupleInPage_found hg
                exact found q0 g1 (g2 rfl) h
              · simp only [Option.some.injEq, Prod.mk.injEq, Bool.false_eq_true, false_and]
                  at hprim
          · simp only [Option.some.injEq, Prod.mk.injEq, Bool.false_eq_true, false_and]
              at hprim
        · rename_i q1 hprim
          split at hprim
          · split at hprim
            · cases hprim
            · split at hprim
              · cases hprim
              · simp only [Option.some.injEq, Prod.mk.injEq, Bool.true_eq_false, false_and]
                  at hprim
              · rename_i q0 hg
                simp only [Option.some.injEq, Prod.mk.injEq, true_and] at hprim
                subst hprim
                obtain ⟨g1, _⟩ := getTupleInPage_found hg
                refine chain _ ?_ h
                exact ⟨g1.1, g1.2.1, g1.2.2.1, g1.2.2.2⟩
          · simp only [Option.some.injEq, Prod.mk.injEq, true_and] at hprim
            subst hprim
            exact chain _ (SameQuery.refl q) h
    · simp only [Option.some.injEq, Prod.mk.injEq] at h
      obtain ⟨h1, h2⟩ := h
      subst h1 h2
      exact ⟨SameQuery.refl q, fun t ht => by cases ht⟩

theorem getNextTuple_found {q q2 : Query} {res : Option Tuple}
    (h : getNextTuple q = some (q2, res)) :
    SameQuery q q2 ∧ ∀ t, res = some t →
      findTupleLoop q.vals (tupleVals t) (nattrs q.rel) 0 = some true :=
  getNextTupleLoop_found _ _ _ _ _ _ _ _ h

theorem findTupleLoop_of_agree {qvals vals : List (List Char)} :
    ∀ (n j : Nat), j + n ≤ qvals.length →
      (∀ k, j ≤ k → k < j + n → qvals[k]? = some ['?'] ∨ (vals[k]? = qvals[k]? )) →
      findTupleLoop qvals vals n j = some true := by
  intro n
  induction n with
  | zero => intro j _ _; rfl
  | succ n ih =>
    intro j hlen h
    have hj : j < qvals.length := by omega
    have hrec := ih (j + 1) (by omega) (fun k h1 h2 => h k (by omega) (by omega))
    simp only [findTupleLoop, List.getElem?_eq_getElem hj]
    rcases h j (le_refl j) (by omega) with h1 | h1
    · rw [List.getElem?_eq_getElem hj] at h1
      simp only [Option.some.injEq] at h1
      simp only [h1, ne_eq, not_true_eq_false, if_false]
      exact hrec
    · rw [List.getElem?_eq_getElem hj] at h1
      rw [h1]
      split
      · simp only [ne_eq, not_true_eq_false, if_false]
        exact hrec
      · exact hrec

theorem bucketOf_testBit (h d sp k : Nat) (hk : k < d) :
    (bucketOf h d sp).testBit k = h.testBit k := by
  unfold bucketOf getLower
  have hd : d ≠ 0 := by omega
  simp only [hd, if_false]
  split
  · rw [Nat.testBit_mod_two_pow]
    simp [show k < d + 1 by omega]
  · rw [Nat.testBit_mod_two_pow]
    simp [hk]

theorem suitable_of_agree {q : Query} {b : Nat}
    (h : ∀ k, k < depth q.rel → q.unknown.testBit k = false →
      q.known.testBit k = b.testBit k) : suitable q b = true := by
  unfold suitable
  apply pageSuitableLoop_true
  intro k _ hk hu
  simp only [Nat.zero_add] at hk
  rw [testBit_getLower _ _ _ hk] at hu ⊢
  exact h k hk hu

theorem mem_pagesMatches {m : Tuple → Bool} {pgs : List Page} {t : Tuple}
    (ht : t ∈ pgs.flatMap pageTuples) (hm : m t = true) : t ∈ pagesMatches m pgs := by
  obtain ⟨pg, hpg, htp⟩ := List.mem_flatMap.mp ht
  exact List.mem_flatMap.mpr ⟨pg, hpg, List.mem_filter.mpr ⟨htp, hm⟩⟩

theorem pagesMatches_all {m : Tuple → Bool} {pgs : List Page}
    (hm : ∀ t, m t = true) : pagesMatches m pgs = pgs.flatMap pageTuples := by
  unfold pagesMatches
  congr 1
  funext pg
  exact List.filter_eq_self.mpr (fun t _ => hm t)

theorem mem_relTuples {r : Reln} {t : Tuple} (h : t ∈ relTuples r) :
    ∃ b, b < r.npages ∧ t ∈ bucketTuples r b := by
  obtain ⟨b, hb, ht⟩ := List.mem_flatMap.mp h
  exact ⟨b, List.mem_range.mp hb, ht⟩

/-- A well-formed relation accepts every tuple of its schema that fits a page,
provided the split threshold is not zero. -/
theorem addToRelation_exists (hash : List Char → Nat) {r : Reln} (hwf : RelnWF r) {t : Tuple}
    (hnul : NUL ∉ t) (hok : TupleOK r t) (hfit : t.length + 1 ≤ PAGESIZE - hdr_size)
    (hT : timeToSplit r.nattrs ≠ 0) :
    ∃ r2 p, addToRelation hash r t = some (r2, some p) := by
  have hmod : ¬ (10 * r.nattrs) % 2 ^ 32 = 0 := by
    intro e
    apply hT
    unfold timeToSplit
    rw [e]
  obtain ⟨ch, hch⟩ := hwf
  have direct : ∃ r2 p, addTupleToRelation hash r t = some (r2, some p) := by
    obtain ⟨hv, _, r2, h1, _⟩ := addTupleToRelation_spec hash hch hnul hok
    exact ⟨r2, _, (h1 hfit).1⟩
  unfold addToRelation
  simp only [nattrs, hmod, if_false, hT]
  split
  · split
    · obtain ⟨r1, g1, ⟨ch1, g2⟩, _, _, g5, _⟩ := pageSplit_spec hash hch
      have hok1 : TupleOK r1 t := by
        unfold TupleOK at hok ⊢
        rw [g5]; exact hok
      obtain ⟨hv, _, r2, h1, _⟩ := addTupleToRelation_spec hash g2 hnul hok1
      refine ⟨r2, bucketOf hv r1.depth r1.sp, ?_⟩
      simp only [g1]
      exact (h1 hfit).1
    · exact direct
  · exact direct

theorem insertAll_exists (hash : List Char → Nat) (ts : List Tuple) :
    ∀ (r : Reln), RelnWF r → timeToSplit r.nattrs ≠ 0 →
      (∀ t ∈ ts, NUL ∉ t ∧ TupleOK r t ∧ t.length + 1 ≤ PAGESIZE - hdr_size) →
      ∃ r2, insertAll hash r ts = some r2 := by
  induction ts with
  | nil => intro r _ _ _; exact ⟨r, rfl⟩
  | cons t ts ih =>
    intro r hwf hT hts
    obtain ⟨a1, a2, a3⟩ := hts t (by simp)
    obtain ⟨r1, p, h1⟩ := addToRelation_exists hash hwf a1 a2 a3 hT
    obtain ⟨g1, _, _, g4, _⟩ := addToRelation_some hash hwf a1 a2 h1
    obtain ⟨r2, h2⟩ := ih r1 g1 (by rw [g4]; exact hT) (fun u hu => by
      obtain ⟨b1, b2, b3⟩ := hts u (by simp [hu])
      refine ⟨b1, ?_, b3⟩
      unfold TupleOK at b2 ⊢
      rw [g4]; exact b2)
    exact ⟨r2, by simp only [insertAll, h1, h2]⟩

/-! ## Examples -/

theorem exRel_new : newRelation 1 (2 ^ 0) 0 (some exCv) = some exRel := rfl

theorem exRel_wf : RelnWF exRel :=
  ⟨_, (newRelation_wf (fun _ _ => Nat.zero_lt_one) rfl exRel_new).1⟩

theorem exTuple_ok : NUL ∉ exTuple ∧ TupleOK exRel exTuple ∧
    exTuple.length + 1 ≤ PAGESIZE - hdr_size := by
  refine ⟨by decide, rfl, by decide⟩

/-! ## The claims -/

/-- C1: `addTupleToRelation` selects bucket 0 when the depth is 0; otherwise,
with `p` the low `depth` bits of the composite hash `H`, it selects the low
`depth+1` bits of `H` when `p < sp` and `p` itself when `p >= sp`.  A call that
returns a bucket returns exactly that one, in every relation state, and on a
well-formed relation the tuple is then stored in the primary page or the
overflow chain of that bucket. -/
theorem c1_bucket_selection (hash : List Char → Nat) (r r2 : Reln) (t : Tuple) (b : Nat)
    (hres : addTupleToRelation hash r t = some (r2, some b)) :
    (∃ H, tupleHash hash r t = some H ∧
      b = (if r.depth = 0 then 0
           else if H % 2 ^ r.depth < r.sp then H % 2 ^ (r.depth + 1) else H % 2 ^ r.depth)) ∧
    (RelnWF r → NUL ∉ t → TupleOK r t → t ∈ bucketTuples r2 b) := by
  obtain ⟨_, _, _, _, _, H, hH, hb⟩ := addTupleToRelation_meta hash hres
  refine ⟨⟨H, hH, hb b rfl⟩, ?_⟩
  rintro ⟨ch, hch⟩ hnul hok
  obtain ⟨_, _, _, hpost, _⟩ := addTupleToRelation_some hash hch hnul hok hres
  exact hpost.bucket.symm.subset (by simp)

/-- Witness of C1: the insertion of `a` into the newly created relation. -/
theorem c1_bucket_selection_witness :
    ∃ r2 b, addTupleToRelation exHash exRel exTuple = some (r2, some b) ∧
      b = 0 ∧ exTuple ∈ bucketTuples r2 b := by
  obtain ⟨ch, hch⟩ := exRel_wf
  obtain ⟨hv, _, r2, h1, _⟩ := addTupleToRelation_spec exHash hch exTuple_ok.1 exTuple_ok.2.1
  obtain ⟨hres, _⟩ := h1 exTuple_ok.2.2
  have hc := c1_bucket_selection exHash exRel r2 exTuple _ hres
  obtain ⟨⟨H, _, hb⟩, hin⟩ := hc
  exact ⟨r2, _, hres, hb, hin ⟨ch, hch⟩ exTuple_ok.1 exTuple_ok.2.1⟩

/-- C2: in a relation state with `npages = 2^depth + sp`, `sp < 2^depth` and
one primary page per bucket, the bucket selected for any hash `H` is below
`npages` and its primary page is read; the same holds for the depth and split
pointer left by `pageSplit`, under which the reinsertions and the triggering
insertion select their buckets. -/
theorem c2_bucket_exists (hash : List Char → Nat) (r : Reln) (H : Nat)
    (hnp : r.npages = 2 ^ r.depth + r.sp) (hsp : r.sp < 2 ^ r.depth)
    (hlen : r.data.length = r.npages) :
    bucketOf H r.depth r.sp < r.npages ∧
      (∃ pg, getPage r.data (bucketOf H r.depth r.sp) = some pg) ∧
      bucketOf H (advance r.depth r.sp).1 (advance r.depth r.sp).2 < r.npages + 1 ∧
      (RelnWF r → ∃ r3, pageSplit hash r = some r3 ∧
        (r3.depth, r3.sp) = advance r.depth r.sp ∧ r3.npages = r.npages + 1 ∧
        bucketOf H r3.depth r3.sp < r3.npages ∧
        ∃ pg, getPage r3.data (bucketOf H r3.depth r3.sp) = some pg) := by
  have h1 : bucketOf H r.depth r.sp < r.npages := by
    rw [hnp]; exact bucketOf_lt H r.depth r.sp hsp
  have hadv := advance_inv r.depth r.sp hsp
  have hlt : bucketOf H r.depth r.sp < r.data.length := by rw [hlen]; exact h1
  refine ⟨h1, ⟨r.data[bucketOf H r.depth r.sp], List.getElem?_eq_getElem hlt⟩, ?_, ?_⟩
  · rw [hnp, hadv.1]
    exact bucketOf_lt H _ _ hadv.2
  · rintro ⟨ch, hch⟩
    obtain ⟨r3, g1, ⟨ch3, g2⟩, g3, g4, _⟩ := pageSplit_spec hash hch
    have hlt3 := g2.bucketOf_lt_npages H
    obtain ⟨pg, hpg⟩ := g2.getPage_some hlt3
    exact ⟨r3, g1, g4, g3, hlt3, pg, hpg⟩

/-- Witness of C2: the newly created relation with one page. -/
theorem c2_bucket_exists_witness :
    bucketOf 5 exRel.depth exRel.sp < exRel.npages ∧
      ∃ pg, getPage exRel.data (bucketOf 5 exRel.depth exRel.sp) = some pg :=
  ⟨(c2_bucket_exists exHash exRel 5 rfl (by decide) rfl).1,
    (c2_bucket_exists exHash exRel 5 rfl (by decide) rfl).2.1⟩

/-- The state after a run of successful insertions into a newly created relation. -/
theorem created_run (hash : List Char → Nat) {nattrs d : Nat} {cv : ChVec} {r0 r : Reln}
    {ts : List Tuple} (hcv : ∀ k, k < MAXCHVEC → (cv k).att < nattrs)
    (hnew : newRelation nattrs (2 ^ d) d (some cv) = some r0)
    (hts : ∀ t ∈ ts, NUL ∉ t ∧ (tupleVals t).length = nattrs)
    (hins : insertAll hash r0 ts = some r) :
    RelnWF r ∧ (relTuples r).Perm ts ∧ r.ntups = ts.length ∧ r.nattrs = nattrs ∧ r.cv = cv ∧
      Addressed hash r := by
  obtain ⟨hwf0, hrel0, hb0⟩ := newRelation_wf hcv rfl hnew
  have hn0 : r0.nattrs = nattrs ∧ r0.cv = cv ∧ r0.ntups = 0 := by
    simp only [newRelation, Option.some.injEq] at hnew
    subst hnew
    exact ⟨rfl, rfl, rfl⟩
  obtain ⟨g1, g2, g3, g4, g5, g6⟩ := insertAll_spec hash ts r0 r ⟨_, hwf0⟩
    (fun t ht => ⟨(hts t ht).1, by unfold TupleOK; rw [hn0.1]; exact (hts t ht).2⟩) hins
  rw [hrel0, List.append_nil] at g2
  exact ⟨g1, g2, by rw [g3, hn0.2.2]; simp, g4.trans hn0.1, g5.trans hn0.2.1,
    g6 (Addressed.of_empty hb0)⟩

/-- On a relation that has what a scan needs every stored tuple can be compared
with a query that has one field per attribute. -/
theorem ScanWF.to_comparable {r : Reln} {ch : Nat → List Nat} (h : ScanWF r ch) {q : Query}
    (hq : q.rel = r) (hv : q.vals.length = r.nattrs) : Comparable q := by
  intro b hb t ht
  rw [hq] at hb ht
  have ha := h.arity b hb t ht
  unfold TupleOK at ha
  rw [hq]
  exact findTupleLoop_isSome _ _ _ _ (by rw [hv]; simp [Malh.nattrs])
    (by rw [ha]; simp [Malh.nattrs])

/-- The scan set up by `startQuery` on a relation that has what a scan needs
returns the reference result, provided that each call of `getTupleInPage` that
reaches the end of a page has stored at least `nattrs` strings. -/
theorem scan_reference (hash : List Char → Nat) (uninit : Nat → Bool) {r : Reln}
    {ch : Nat → List Nat} (hch : ScanWF r ch) {P : List Char}
    (hP : (tupleVals P).length = r.nattrs) :
    ∃ q, startQuery hash uninit r P = some q ∧ q.rel = r ∧ q.vals = tupleVals P ∧
      q.curpageID = 0 ∧
      (∀ j, j < MAXCHVEC →
        q.unknown.testBit j = attUnknown uninit (tupleVals P) (r.cv j).att ∧
        q.known.testBit j = (!attUnknown uninit (tupleVals P) (r.cv j).att &&
          (hash ((tupleVals P).getD (r.cv j).att [])).testBit (r.cv j).bit)) ∧
      (ScanSafe q → ∀ n, (referenceScan q).length < n → scanAll n q = some (referenceScan q)) := by
  obtain ⟨q, h1, h2, h3, h4, h5, h6, h7, h8⟩ := startQuery_spec hash uninit hch.cv_ok hP
  refine ⟨q, h1, h2, h3, h4, h8, fun hsafe n hn => ?_⟩
  have hcs := CursorState.fresh hch q h2 h5 h7 h6
  rw [h4, ← referenceScan_eq] at hcs
  exact scanAll_spec hch _ q n h2 (hch.to_comparable h2 (by rw [h3, hP])) hsafe hcs hn

theorem exRun : ∃ r, insertAll exHash exRel [exTuple] = some r ∧ r.depth = 0 := by
  obtain ⟨r, hr⟩ := insertAll_exists exHash [exTuple] exRel exRel_wf (by decide)
    (fun t ht => by simp at ht; subst ht; exact exTuple_ok)
  refine ⟨r, hr, ?_⟩
  simp only [insertAll] at hr
  split at hr
  · rename_i r1 p hadd
    simp only [Option.some.injEq] at hr
    subst hr
    have hns : ¬ splitDue exRel := fun hs => hs.1 rfl
    exact ((addToRelation_meta exHash hadd).2.1 hns).2.1
  · cases hr

/-- After the tuples `ts` are inserted with `addToRelation` into a relation
created with `npages0 = 2^depth0`, every insertion succeeding, the reference
result `out` of the scan for the all-wildcard pattern is a permutation of `ts`,
and the scan returns it, call after call until `NULL`, provided that each call
of `getTupleInPage` that reaches the end of a page has stored at least `nattrs`
strings. -/
theorem wildcard_scan_of_safe (hash : List Char → Nat) (uninit : Nat → Bool)
    (nattrs d : Nat) (cv : ChVec) (r0 r : Reln) (ts : List Tuple) (P : List Char)
    (hcv : ∀ k, k < MAXCHVEC → (cv k).att < nattrs)
    (hnew : newRelation nattrs (2 ^ d) d (some cv) = some r0)
    (hts : ∀ t ∈ ts, NUL ∉ t ∧ (tupleVals t).length = nattrs)
    (hins : insertAll hash r0 ts = some r)
    (hdepth : r.depth ≤ MAXCHVEC)
    (hP : tupleVals P = List.replicate nattrs ['?']) :
    ∃ q out, startQuery hash uninit r P = some q ∧
      (ScanSafe q → ∀ n, out.length < n → scanAll n q = some out) ∧ out.Perm ts := by
  obtain ⟨hwf, hrel, _, hna, hcvr, _⟩ := created_run hash hcv hnew hts hins
  have hPlen : (tupleVals P).length = r.nattrs := by rw [hP, hna]; simp
  have hwild : ∀ k, k < nattrs → (tupleVals P)[k]? = some ['?'] := by
    intro k hk
    rw [hP, List.getElem?_replicate_of_lt hk]
  have hmatch : ∀ (q : Query), q.rel = r → q.vals = tupleVals P → ∀ t,
      findTupleLoop q.vals (tupleVals t) (Malh.nattrs q.rel) 0 = some true := by
    intro q h1 h2 t
    rw [h1, h2]
    apply findTupleLoop_of_agree
    · rw [hPlen]; exact Nat.le_of_eq (Nat.zero_add _)
    · intro k _ hk
      left
      exact hwild k (by simp only [Malh.nattrs, hna] at hk; omega)
  obtain ⟨ch, hch⟩ := hwf
  obtain ⟨q, h1, h2, h3, _, h4, h5⟩ := scan_reference hash uninit hch.scanWF hPlen
  have hsuit : ∀ b, suitable q b = true := by
    intro b
    apply suitable_of_agree
    intro k hk hu
    rw [h2] at hk
    have hk2 : k < MAXCHVEC := Nat.lt_of_lt_of_le hk hdepth
    rw [(h4 k hk2).1] at hu
    have ha : (r.cv k).att < nattrs := by rw [hcvr]; exact hcv k hk2
    unfold attUnknown at hu
    rw [List.getD_eq_getElem?_getD, hwild _ ha] at hu
    simp at hu
  have href : referenceScan q = relTuples r := by
    unfold referenceScan relTuples
    rw [h2, hch.nbuckets]
    apply flatMap_range_congr
    intro b _
    unfold bucketMatches
    rw [hsuit b, if_pos rfl, h2]
    exact pagesMatches_all (fun t => by
      have := hmatch q h2 h3 t
      rw [h2, h3] at this
      unfold matchesQuery
      rw [h3, this]
      rfl)
  rw [href] at h5
  exact ⟨q, relTuples r, h1, h5, hrel⟩

/-- For a tuple `t` inserted with `addToRelation` into a relation created with
`npages0 = 2^depth0` (other insertions and splits before and after), and a
pattern `P` whose fields are each the wildcard or the field of `t`, the bucket
holding `t` passes the suitability test of `getNextTuple`, and the scan started
by `startQuery` returns `t`, provided that each call of `getTupleInPage` that
reaches the end of a page has stored at least `nattrs` strings. -/
theorem scan_finds_of_safe (hash : List Char → Nat) (uninit : Nat → Bool)
    (nattrs d : Nat) (cv : ChVec) (r0 r : Reln) (ts : List Tuple) (t : Tuple) (P : List Char)
    (hcv : ∀ k, k < MAXCHVEC → (cv k).att < nattrs)
    (hnew : newRelation nattrs (2 ^ d) d (some cv) = some r0)
    (hts : ∀ u ∈ ts, NUL ∉ u ∧ (tupleVals u).length = nattrs)
    (hins : insertAll hash r0 ts = some r)
    (hdepth : r.depth ≤ MAXCHVEC)
    (ht : t ∈ ts)
    (hP : (tupleVals P).length = nattrs)
    (hagree : ∀ i, i < nattrs →
      (tupleVals P)[i]? = some ['?'] ∨ (tupleVals P)[i]? = (tupleVals t)[i]?) :
    ∃ q out, startQuery hash uninit r P = some q ∧
      (∃ b, b < r.npages ∧ t ∈ bucketTuples r b ∧ suitable q b = true) ∧
      (ScanSafe q → ∀ n, out.length < n → scanAll n q = some out) ∧ t ∈ out := by
  obtain ⟨hwf, hrel, _, hna, hcvr, haddr⟩ := created_run hash hcv hnew hts hins
  have hPlen : (tupleVals P).length = r.nattrs := by rw [hP, hna]
  obtain ⟨ch, hch⟩ := hwf
  obtain ⟨q, h1, h2, h3, _, h4, h5⟩ := scan_reference hash uninit hch.scanWF hPlen
  obtain ⟨b, hb, htb⟩ := mem_relTuples (hrel.symm.subset ht)
  obtain ⟨hv, hhv, hbk⟩ := haddr b hb t htb
  have hsuit : suitable q b = true := by
    apply suitable_of_agree
    intro k hk hu
    rw [h2] at hk
    have hk2 : k < MAXCHVEC := Nat.lt_of_lt_of_le hk hdepth
    have ha : (r.cv k).att < nattrs := by rw [hcvr]; exact hcv k hk2
    have hk3 : k < r.depth := hk
    obtain ⟨g1, g2⟩ := h4 k hk2
    rw [g1] at hu
    rw [g2, hu, ← hbk, bucketOf_testBit _ _ _ _ hk3, tupleHash_bits hhv k hk2]
    unfold attUnknown at hu
    rcases hagree _ ha with e | e
    · rw [List.getD_eq_getElem?_getD, e] at hu
      simp at hu
    · rw [List.getD_eq_getElem?_getD, List.getD_eq_getElem?_getD, e]
      rfl
  have hm : matchesQuery q.vals (Malh.nattrs q.rel) t = true := by
    unfold matchesQuery
    rw [h2, h3, findTupleLoop_of_agree _ 0 (by rw [hPlen]; simp [Malh.nattrs])]
    · rfl
    · intro k _ hk
      have hk2 : k < nattrs := by simp only [Malh.nattrs, hna] at hk; omega
      rcases hagree k hk2 with e | e
      · exact Or.inl e
      · exact Or.inr e.symm
  have hin : t ∈ referenceScan q := by
    unfold referenceScan
    refine List.mem_flatMap.mpr ⟨b, ?_, ?_⟩
    · rw [h2, hch.nbuckets]; exact List.mem_range.mpr hb
    · unfold bucketMatches
      rw [hsuit, if_pos rfl, h2]
      rw [h2] at hm
      exact mem_pagesMatches htb hm
  exact ⟨q, referenceScan q, h1, ⟨b, hb, htb, hsuit⟩, h5, hin⟩

theorem startQuery_fields {hash : List Char → Nat} {uninit : Nat → Bool} {r : Reln}
    {P : List Char} {q0 : Query} (h : startQuery hash uninit r P = some q0) :
    q0.rel = r ∧ q0.vals = tupleVals P := by
  unfold startQuery at h
  simp only at h
  split at h
  · cases h
  · split at h
    · cases h
    · simp only [Option.some.injEq] at h
      subst h
      exact ⟨rfl, rfl⟩

theorem exQuery_start : startQuery exHash (fun _ => false) exRelOne exTuple = some exQuery :=
  rfl

theorem exQuery_next : getNextTuple exQuery = some (exQueryNext, some exTuple) := rfl

/-- C5: in every relation state, for every pattern `P` and every state `q` of
the scan that `startQuery` set up for `P`, a tuple returned by `getNextTuple`
agrees with `P` on every known attribute: when field `i` of `P` is not the
wildcard, field `i` of the tuple equals it.  The query after the call is again
a state of that scan. -/
theorem c5_returned_tuple_agrees (hash : List Char → Nat) (uninit : Nat → Bool) (r : Reln)
    (P : List Char) (q0 q q2 : Query) (t : Tuple) (i : Nat) (v : List Char)
    (hstart : startQuery hash uninit r P = some q0) (hscan : SameQuery q0 q)
    (hret : getNextTuple q = some (q2, some t))
    (hi : i < nattrs r) (hv : (tupleVals P)[i]? = some v) (hknown : v ≠ ['?']) :
    (tupleVals t)[i]? = some v ∧ SameQuery q0 q2 := by
  obtain ⟨e1, e2⟩ := startQuery_fields hstart
  obtain ⟨hs, hfound⟩ := getNextTuple_found hret
  have hm := hfound t rfl
  refine ⟨?_, hscan.trans hs⟩
  refine findTupleLoop_true _ 0 hm i (Nat.zero_le i) ?_ v ?_ hknown
  · rw [hscan.1, e1]
    simpa using hi
  · rw [hscan.2.1, e2]
    exact hv

/-- Witness of C5: the first call of the scan for the pattern `a` on a relation
holding the tuple `a`. -/
theorem c5_returned_tuple_agrees_witness :
    startQuery exHash (fun _ => false) exRelOne exTuple = some exQuery ∧
      getNextTuple exQuery = some (exQueryNext, some exTuple) ∧
      (tupleVals exTuple)[0]? = some ['a'] ∧ SameQuery exQuery exQueryNext :=
  ⟨exQuery_start, exQuery_next,
    c5_returned_tuple_agrees exHash (fun _ => false) exRelOne exTuple exQuery exQuery exQueryNext
      exTuple 0 ['a'] exQuery_start (SameQuery.refl exQuery) exQuery_next (by decide) rfl
      (by decide)⟩

theorem exRelFour_new : newRelation 1 4 2 (some exCv) = some exRelFour := rfl

theorem exQueryFour_start :
    startQuery exHash (fun _ => false) exRelFour exTuple = some exQueryFour := rfl

/-- The suitability loop of `getNextTuple` stops at the first bit position that
is not unknown: its answer is the comparison at that position alone. -/
theorem pageSuitableLoop_first_known (unknown known b : Nat) :
    ∀ (n i : Nat), bitIsSet unknown i = false →
      pageSuitableLoop unknown known b (n + 1) i = (bitIsSet known i == bitIsSet b i) := by
  intro n i hu
  simp only [pageSuitableLoop, hu, Bool.not_false, if_true]
  cases bitIsSet known i <;> cases bitIsSet b i <;> rfl

/-- C6 (the code departs from the claim): on the relation created with depth 2
and four pages, the query for the pattern `a` has known bits 01 and no unknown
bit.  Bucket 3 agrees with them on bit 0 only, so by the claim it is not a
candidate, yet the suitability test of `getNextTuple` accepts it, because its
loop leaves at the first known bit. -/
theorem c6_candidate_test_first_known_bit_only :
    newRelation 1 4 2 (some exCv) = some exRelFour ∧
      startQuery exHash (fun _ => false) exRelFour exTuple = some exQueryFour ∧
      3 < exRelFour.npages ∧
      suitable exQueryFour 3 = true ∧
      ¬ (∀ i, i < depth exQueryFour.rel →
          bitIsSet (getLower exQueryFour.unknown (depth exQueryFour.rel)) i = true ∨
          bitIsSet (getLower exQueryFour.known (depth exQueryFour.rel)) i = bitIsSet 3 i) := by
  refine ⟨exRelFour_new, exQueryFour_start, by decide, by decide, ?_⟩
  intro h
  exact absurd (h 1 (by decide)) (by decide)

theorem div_pred_step (T m : Nat) :
    (m ≠ 0 ∧ m % T = 0 → m / T = (m - 1) / T + 1) ∧
      (¬ (m ≠ 0 ∧ m % T = 0) → m / T = (m - 1) / T) := by
  cases m with
  | zero => simp
  | succ k =>
    have h := Nat.succ_div k T
    simp only [Nat.succ_eq_add_one] at h
    simp only [Nat.add_sub_cancel, ne_eq, Nat.add_one_ne_zero, not_false_eq_true, true_and]
    constructor
    · intro hm
      rw [h, if_pos (Nat.dvd_of_mod_eq_zero hm)]
    · intro hm
      rw [h, if_neg (fun hd => hm (Nat.mod_eq_zero_of_dvd hd)), Nat.add_zero]

theorem advanceTimes_succ (k : Nat) (d sp : Nat) :
    advanceTimes (k + 1) (d, sp) = advanceTimes k (advance d sp) := rfl

/-- A run of successful insertions from a well-formed relation holding `m`
tuples splits once for every tuple count in `[m, m + len)` that is a non-zero
multiple of `timeToSplit`. -/
theorem insertAll_pages (hash : List Char → Nat) (ts : List Tuple) :
    ∀ (r r2 : Reln), RelnWF r → (∀ t ∈ ts, NUL ∉ t ∧ TupleOK r t) →
      insertAll hash r ts = some r2 →
      (r.ntups - 1) / timeToSplit r.nattrs ≤ (r.ntups + ts.length - 1) / timeToSplit r.nattrs ∧
      r2.npages + (r.ntups - 1) / timeToSplit r.nattrs =
        r.npages + (r.ntups + ts.length - 1) / timeToSplit r.nattrs ∧
      (r2.depth, r2.sp) =
        advanceTimes ((r.ntups + ts.length - 1) / timeToSplit r.nattrs -
          (r.ntups - 1) / timeToSplit r.nattrs) (r.depth, r.sp) := by
  induction ts with
  | nil =>
    intro r r2 _ _ h
    simp only [insertAll, Option.some.injEq] at h
    subst h
    simp [advanceTimes]
  | cons t ts ih =>
    intro r r2 hwf hts h
    obtain ⟨hnul, hok⟩ := hts t (by simp)
    simp only [insertAll] at h
    split at h
    · rename_i r1 p hadd
      obtain ⟨g1, _, g3, g4, _, _, g7, g8, _⟩ := addToRelation_some hash hwf hnul hok hadd
      obtain ⟨i1, i2, i3⟩ := ih r1 r2 g1 (fun u hu => by
        obtain ⟨b1, b2⟩ := hts u (by simp [hu])
        refine ⟨b1, ?_⟩
        unfold TupleOK at b2 ⊢
        rw [g4]; exact b2) h
      rw [g3, g4] at i1 i2 i3
      have e1 : r.ntups + 1 - 1 = r.ntups := by omega
      have e2 : r.ntups + 1 + ts.length - 1 = r.ntups + (t :: ts).length - 1 := by
        simp only [List.length_cons]; omega
      rw [e1, e2] at i1 i2 i3
      obtain ⟨s1, s2⟩ := div_pred_step (timeToSplit r.nattrs) r.ntups
      generalize (r.ntups + (t :: ts).length - 1) / timeToSplit r.nattrs = c at i1 i2 i3 ⊢
      by_cases hs : splitDue r
      · obtain ⟨k1, k2⟩ := g7 hs
        have s := s1 hs
        generalize (r.ntups - 1) / timeToSplit r.nattrs = a at s ⊢
        rw [s] at i1 i2 i3
        refine ⟨by omega, by omega, ?_⟩
        have e3 : c - a = (c - (a + 1)) + 1 := by omega
        rw [i3, e3, advanceTimes_succ, k2]
      · obtain ⟨k1, k2, k3⟩ := g8 hs
        have s := s2 hs
        rw [s] at i1 i2 i3
        refine ⟨i1, by omega, ?_⟩
        rw [i3, k2, k3]
    · cases h

theorem exRel4_new : newRelation 4 (2 ^ 0) 0 (some exCv4) = some exRel4 := rfl

theorem exCv4_ok : ∀ k, k < MAXCHVEC → (exCv4 k).att < 4 := fun k _ => Nat.mod_lt k (by decide)

theorem exRel4_wf : RelnWF exRel4 := ⟨_, (newRelation_wf exCv4_ok rfl exRel4_new).1⟩

theorem exTuple4_ok : NUL ∉ exTuple4 ∧ (tupleVals exTuple4).length = 4 ∧
    exTuple4.length + 1 ≤ PAGESIZE - hdr_size := by
  refine ⟨by decide, rfl, by decide⟩

/-- How `addToRelation` runs: with a split due it is `pageSplit` followed by
`addTupleToRelation` on the split relation, otherwise `addTupleToRelation`
alone. -/
theorem addToRelation_run (hash : List Char → Nat) {r : Reln} {t : Tuple}
    {x : Reln × Option Nat} (h : addToRelation hash r t = some x) :
    (splitDue r → ∃ r1, pageSplit hash r = some r1 ∧ addTupleToRelation hash r1 t = some x) ∧
      (¬ splitDue r → addTupleToRelation hash r t = some x) := by
  unfold addToRelation at h
  simp only [nattrs] at h
  split at h
  · cases h
  · split at h
    · rename_i hnz
      split at h
      · cases h
      · split at h
        · rename_i hmod
          have hdue : splitDue r := ⟨hnz, hmod⟩
          split at h
          · cases h
          · rename_i r1 hsplit
            exact ⟨fun _ => ⟨r1, hsplit, h⟩, fun hns => absurd hdue hns⟩
        · rename_i hmod
          exact ⟨fun hs => absurd hs.2 hmod, fun _ => h⟩
    · rename_i hz
      exact ⟨fun hs => absurd hs.1 hz, fun _ => h⟩

theorem timeToSplit_eq {n : Nat} (hT : 0 < 1024 / (10 * n)) :
    timeToSplit n = 1024 / (10 * n) ∧ timeToSplit n ≠ 0 := by
  have hpos : 0 < 10 * n := by
    rcases Nat.eq_zero_or_pos (10 * n) with h | h
    · rw [h] at hT; simp at hT
    · exact h
  have hle : 10 * n ≤ 1024 := by
    by_contra hc
    rw [Nat.div_eq_of_lt (by omega)] at hT
    exact absurd hT (by decide)
  have hmod : (10 * n) % 2 ^ 32 = 10 * n := Nat.mod_eq_of_lt (by omega)
  unfold timeToSplit
  rw [hmod]
  exact ⟨rfl, by omega⟩

/-- The state of a created relation after a run of successful insertions:
one split for every tuple count below the number of insertions that is a
non-zero multiple of `timeToSplit`. -/
theorem created_run_pages (hash : List Char → Nat) {nattrs d : Nat} {cv : ChVec} {r0 r : Reln}
    {ts : List Tuple} (hcv : ∀ k, k < MAXCHVEC → (cv k).att < nattrs)
    (hnew : newRelation nattrs (2 ^ d) d (some cv) = some r0)
    (hts : ∀ t ∈ ts, NUL ∉ t ∧ (tupleVals t).length = nattrs)
    (hins : insertAll hash r0 ts = some r) :
    r.npages = 2 ^ d + (ts.length - 1) / timeToSplit nattrs ∧
      (r.depth, r.sp) = advanceTimes ((ts.length - 1) / timeToSplit nattrs) (d, 0) := by
  obtain ⟨hwf0, _, _⟩ := newRelation_wf hcv rfl hnew
  simp only [newRelation, Option.some.injEq] at hnew
  subst hnew
  obtain ⟨_, h2, h3⟩ := insertAll_pages hash ts _ r ⟨_, hwf0⟩ hts hins
  simp only [Nat.zero_sub, Nat.zero_div, Nat.zero_add, Nat.add_zero, Nat.sub_zero] at h2 h3
  exact ⟨h2, h3⟩

theorem exRun25 : ∃ r, insertAll exHash exRel4 (List.replicate 25 exTuple4) = some r :=
  insertAll_exists exHash _ exRel4 exRel4_wf (by decide)
    (fun t ht => by rw [List.eq_of_mem_replicate ht]; exact exTuple4_ok)

theorem exRun25_fields : ∀ u ∈ List.replicate 25 exTuple4,
    NUL ∉ u ∧ (tupleVals u).length = 4 := fun u hu => by
  rw [List.eq_of_mem_replicate hu]
  exact ⟨exTuple4_ok.1, exTuple4_ok.2.1⟩

/-- C7 (the claim as written fails): on the relation created with `nattrs = 4`,
`npages0 = 1`, `depth0 = 0`, where `T_split = 25`, the state after 25 successful
inserts still has `depth = 0`, `sp = 0` and `npages = 1`: no split has happened
during the insert numbered `1 * T_split`. -/
theorem c7_no_split_during_insert_25 :
    newRelation 4 1 0 (some exCv4) = some exRel4 ∧ timeToSplit 4 = 25 ∧
      ∃ r, insertAll exHash exRel4 (List.replicate 25 exTuple4) = some r ∧
        r.depth = 0 ∧ r.sp = 0 ∧ r.npages = 1 ∧ ¬ (r.depth = 1 ∧ r.sp = 0 ∧ r.npages = 2) := by
  refine ⟨rfl, by decide, ?_⟩
  obtain ⟨r, hr⟩ := exRun25
  obtain ⟨h1, h2⟩ := created_run_pages exHash exCv4_ok exRel4_new exRun25_fields hr
  have hz : ((List.replicate 25 exTuple4).length - 1) / timeToSplit 4 = 0 := by decide
  rw [hz] at h1 h2
  simp only [advanceTimes, Prod.mk.injEq] at h2
  refine ⟨r, hr, h2.1, h2.2, h1, ?_⟩
  rintro ⟨hd, _, _⟩
  rw [h2.1] at hd
  exact absurd hd (by decide)

theorem exRelThree_new : newRelation 4 3 0 (some exCv4) = some exRelThree := rfl

theorem exRelThree_insert :
    addToRelation exHash exRelThree exTuple4 = some (exRelThreeOne, some 0) := rfl

theorem Reachable.of_insertAll (hash : List Char → Nat) (r0 : Reln) (ts : List Tuple) :
    ∀ (r r2 : Reln), Reachable hash r0 r → insertAll hash r ts = some r2 →
      Reachable hash r0 r2 := by
  induction ts with
  | nil =>
    intro r r2 hr h
    simp only [insertAll, Option.some.injEq] at h
    subst h
    exact hr
  | cons t ts ih =>
    intro r r2 hr h
    simp only [insertAll] at h
    split at h
    · rename_i r1 p hadd
      exact ih r1 r2 (Reachable.step hr hadd) h
    · cases h

/-- C8 (as the code has it): when the relation is created with
`npages0 = 2^depth0`, every state reachable from it by any sequence of
`addToRelation` calls has `npages = 2^depth + sp` and `0 <= sp < 2^depth`. -/
theorem c8_pages_invariant (hash : List Char → Nat) (nattrs d : Nat) (cv : Option ChVec)
    (r0 r : Reln) (hnew : newRelation nattrs (2 ^ d) d cv = some r0)
    (hreach : Reachable hash r0 r) :
    r.npages = 2 ^ r.depth + r.sp ∧ 0 ≤ r.sp ∧ r.sp < 2 ^ r.depth := by
  have h0 : r0.npages = 2 ^ r0.depth + r0.sp ∧ r0.sp < 2 ^ r0.depth := by
    cases cv with
    | none => simp [newRelation] at hnew
    | some c =>
      simp only [newRelation, Option.some.injEq] at hnew
      subst hnew
      exact ⟨rfl, Nat.two_pow_pos d⟩
  obtain ⟨h1, h2⟩ := Reachable.inv hreach h0
  exact ⟨h1, Nat.zero_le _, h2⟩

/-- Witness of C8: the relation created with four attributes, one page and
depth 0, after 25 insertions. -/
theorem c8_pages_invariant_witness :
    ∃ r, insertAll exHash exRel4 (List.replicate 25 exTuple4) = some r ∧
      r.npages = 2 ^ r.depth + r.sp ∧ 0 ≤ r.sp ∧ r.sp < 2 ^ r.depth := by
  obtain ⟨r, hr⟩ := exRun25
  exact ⟨r, hr, c8_pages_invariant exHash 4 0 (some exCv4) exRel4 r exRel4_new
    (Reachable.of_insertAll exHash exRel4 _ exRel4 r Reachable.init hr)⟩

/-- C8 (the claim as written fails): `newRelation` stores the page count and
the depth it is given, so the relation created with three pages and depth 0,
and the state after one `addToRelation` call on it, have `npages = 3` while
`2^depth + sp = 1`. -/
theorem c8_three_pages_depth_zero :
    newRelation 4 3 0 (some exCv4) = some exRelThree ∧
      Reachable exHash exRelThree exRelThree ∧
      Reachable exHash exRelThree exRelThreeOne ∧
      ¬ (exRelThree.npages = 2 ^ exRelThree.depth + exRelThree.sp) ∧
      ¬ (exRelThreeOne.npages = 2 ^ exRelThreeOne.depth + exRelThreeOne.sp) :=
  ⟨rfl, Reachable.init, Reachable.step Reachable.init exRelThree_insert, by decide, by decide⟩

/-- C9: on every well-formed relation `pageSplit` returns (no reinsertion
fails), the tuples reachable from the primary pages are afterwards a
permutation of those before, `ntups` has its value from before the call, and
the relation is again well-formed. -/
theorem c9_split_preserves_tuples (hash : List Char → Nat) (r : Reln) (hwf : RelnWF r) :
    ∃ r3, pageSplit hash r = some r3 ∧ (relTuples r3).Perm (relTuples r) ∧
      r3.ntups = r.ntups ∧ RelnWF r3 := by
  obtain ⟨ch, hch⟩ := hwf
  obtain ⟨r3, h1, h2, _, _, _, _, h7, h8, _⟩ := pageSplit_spec hash hch
  exact ⟨r3, h1, h8, h7, h2⟩

/-- Witness of C9: a split of the relation holding 25 copies of `a,b,c,d`. -/
theorem c9_split_preserves_tuples_witness :
    ∃ r, insertAll exHash exRel4 (List.replicate 25 exTuple4) = some r ∧
      ∃ r3, pageSplit exHash r = some r3 ∧ (relTuples r3).Perm (relTuples r) ∧
        r3.ntups = r.ntups ∧ RelnWF r3 := by
  obtain ⟨r, hr⟩ := exRun25
  obtain ⟨hwf, _⟩ := insertAll_spec exHash _ exRel4 r exRel4_wf
    (fun u hu => by rw [List.eq_of_mem_replicate hu]; exact ⟨exTuple4_ok.1, exTuple4_ok.2.1⟩) hr
  exact ⟨r, hr, c9_split_preserves_tuples exHash r hwf⟩

theorem tupleVals_no_comma : ∀ (t : List Char), ',' ∉ t → (tupleVals t).length = 1 := by
  intro t
  induction t with
  | nil => intro _; rfl
  | cons c cs ih =>
    intro h
    have hc : c ≠ ',' := fun e => h (by simp [e])
    have hcs := ih (fun e => h (by simp [e]))
    simp only [tupleVals, hc, if_false]
    split
    · rfl
    · rename_i f fs heq
      rw [heq] at hcs
      simpa using hcs

theorem exLong_ok : NUL ∉ exLong ∧ TupleOK exRel exLong ∧
    exLong.length > PAGESIZE - hdr_size - 1 := by
  refine ⟨?_, ?_, ?_⟩
  · intro h
    exact absurd (List.eq_of_mem_replicate h) (by decide)
  · exact tupleVals_no_comma _ (fun h => absurd (List.eq_of_mem_replicate h) (by decide))
  · simp only [exLong, List.length_replicate]
    decide

/-- C10: on a well-formed relation, for a tuple `t` of the relation (a string
without NUL, with one field per attribute), `addTupleToRelation` returns; it
returns `NO_PAGE` exactly when `len(t) > PAGESIZE - hdr_size - 1`; when it
returns `NO_PAGE` the tuple count is unchanged, and when it returns a bucket id
the tuple count has grown by exactly 1. -/
theorem c10_no_page_iff_too_long (hash : List Char → Nat) (r : Reln) (t : Tuple)
    (hwf : RelnWF r) (hnul : NUL ∉ t) (hok : TupleOK r t) :
    ∃ r2 res, addTupleToRelation hash r t = some (r2, res) ∧
      (res = NO_PAGE ↔ t.length > PAGESIZE - hdr_size - 1) ∧
      (res = NO_PAGE → r2.ntups = r.ntups) ∧
      (∀ b, res = some b → r2.ntups = r.ntups + 1) := by
  obtain ⟨ch, hch⟩ := hwf
  obtain ⟨hv, _, r2, hfit, hbig⟩ := addTupleToRelation_spec hash hch hnul hok
  have hpos : 0 < PAGESIZE - hdr_size := by decide
  by_cases hf : t.length + 1 ≤ PAGESIZE - hdr_size
  · obtain ⟨h1, h2⟩ := hfit hf
    refine ⟨r2, _, h1, ?_, ?_, ?_⟩
    · constructor
      · intro e; simp [NO_PAGE] at e
      · intro e
        generalize PAGESIZE - hdr_size = m at hf e hpos
        omega
    · intro e; simp [NO_PAGE] at e
    · intro b _
      simpa using h2.ntups
  · obtain ⟨h1, h2⟩ := hbig (by omega)
    refine ⟨r2, _, h1, ?_, ?_, ?_⟩
    · constructor
      · intro _
        generalize PAGESIZE - hdr_size = m at hf hpos
        omega
      · intro _; rfl
    · intro _
      simpa using h2.ntups
    · intro b e; simp [NO_PAGE] at e

/-- Witness of C10: on the relation created with one attribute, the tuple `a`
is stored and a tuple of 1012 bytes is refused. -/
theorem c10_no_page_iff_too_long_witness :
    (∃ r2 res, addTupleToRelation exHash exRel exTuple = some (r2, res) ∧
      (res = NO_PAGE ↔ exTuple.length > PAGESIZE - hdr_size - 1) ∧
      (res = NO_PAGE → r2.ntups = exRel.ntups) ∧
      (∀ b, res = some b → r2.ntups = exRel.ntups + 1)) ∧
    (∃ r2 res, addTupleToRelation exHash exRel exLong = some (r2, res) ∧
      (res = NO_PAGE ↔ exLong.length > PAGESIZE - hdr_size - 1) ∧
      (res = NO_PAGE → r2.ntups = exRel.ntups) ∧
      (∀ b, res = some b → r2.ntups = exRel.ntups + 1)) :=
  ⟨c10_no_page_iff_too_long exHash exRel exTuple exRel_wf exTuple_ok.1 exTuple_ok.2.1,
    c10_no_page_iff_too_long exHash exRel exLong exRel_wf exLong_ok.1 exLong_ok.2.1⟩

theorem WFWith.to_linear {r : Reln} {ch : Nat → List Nat} (h : WFWith r ch) : Linear r ch :=
  ⟨h.chain, fun b hb => h.nodup b (by rw [← h.data_len]; exact hb),
    fun b c hb hc => h.disj b c (by rw [← h.data_len]; exact hb) (by rw [← h.data_len]; exact hc)⟩

/-- Every call of `addTupleToRelation` that returns does so in one of the six
ways of `InsertCase`. -/
theorem addTupleToRelation_inv (hash : List Char → Nat) {r r2 : Reln} {ch : Nat → List Nat}
    (h : Linear r ch) {t : Tuple} {res : Option Nat}
    (hres : addTupleToRelation hash r t = some (r2, res)) :
    ∃ hv pg, tupleHash hash r t = some hv ∧ r.data[bucketOf hv r.depth r.sp]? = some pg ∧
      InsertCase r ch t (bucketOf hv r.depth r.sp) pg r2 res := by
  cases hhv : tupleHash hash r t with
  | none => simp [addTupleToRelation, hhv] at hres
  | some hv =>
    cases hpg : r.data[bucketOf hv r.depth r.sp]? with
    | none => simp [addTupleToRelation, hhv, getPage, hpg] at hres
    | some pg =>
      refine ⟨hv, pg, rfl, hpg, ?_⟩
      have hplt : bucketOf hv r.depth r.sp < r.data.length := getElem?_lt hpg
      have hchain := h.chain _ pg hpg
      have hfuel : (ch (bucketOf hv r.depth r.sp)).length ≤ r.ovflow.length + 1 :=
        Nat.le_succ_of_le (hchain.length_le (h.nodup _ hplt))
      have hnewget : (addPage r.ovflow).1[(addPage r.ovflow).2]? = some newPage := by
        simp [addPage_fst, addPage_snd]
      have hput1 : ∀ q : Page,
          putPage (addPage r.ovflow).1 (addPage r.ovflow).2 q = r.ovflow ++ [q] := by
        intro q
        rw [addPage_fst, addPage_snd, putPage_of_lt _ (by simp)]
        simp
      cases hadd : addToPage pg t with
      | some pg1 =>
        simp only [addTupleToRelation, hhv, getPage, hpg, hadd, putPage_of_lt _ hplt,
          Option.some.injEq, Prod.mk.injEq] at hres
        obtain ⟨e1, e2⟩ := hres
        subst e1 e2
        exact InsertCase.primary pg1 hadd
      | none =>
        cases hlink : pg.ovflow with
        | none =>
          have hchp : ch (bucketOf hv r.depth r.sp) = [] := by
            rw [hlink] at hchain
            exact IsChain.ids_unique hchain (show IsChain _ none [] from rfl)
          cases hnew : addToPage newPage t with
          | some q =>
            simp only [addTupleToRelation, hhv, getPage, hpg, hadd, pageOvflow, hlink, hnewget,
              hnew, hput1, putPage_of_lt _ hplt, Option.some.injEq, Prod.mk.injEq] at hres
            obtain ⟨e1, e2⟩ := hres
            subst e1 e2
            exact InsertCase.first q hadd hlink hchp hnew
          | none =>
            simp only [addTupleToRelation, hhv, getPage, hpg, hadd, pageOvflow, hlink, hnewget,
              hnew, putPage_of_lt _ hplt] at hres
            simp only [addPage_fst, addPage_snd, Option.some.injEq, Prod.mk.injEq] at hres
            obtain ⟨e1, e2⟩ := hres
            subst e1 e2
            exact InsertCase.firstFail hadd hlink hchp hnew
        | some ovp0 =>
          rw [hlink] at hchain
          rcases scanChain_spec r.ovflow t _ (some ovp0) NO_PAGE none (r.ovflow.length + 1)
              hchain hfuel with
            ⟨l1, i, l2, pgi, pg1, h1, h2, h3, h4, h5⟩ | ⟨hfull, lp, lpg, h2, h3⟩
          · simp only [addTupleToRelation, hhv, getPage, hpg, hadd, pageOvflow, hlink, h5,
              putPage_of_lt _ (getElem?_lt h2), Option.some.injEq, Prod.mk.injEq] at hres
            obtain ⟨e1, e2⟩ := hres
            subst e1 e2
            exact InsertCase.placed l1 i l2 pgi pg1 hadd h1 h4 h2 h3
          · rcases h3 with ⟨h4, _, _⟩ | ⟨init, last, pgl, h4, h5, h6, h7, h8⟩
            · rw [h4] at hchain
              cases (show some ovp0 = none from hchain)
            · subst h5 h6
              cases hnew : addToPage newPage t with
              | some q =>
                simp only [addTupleToRelation, hhv, getPage, hpg, hadd, pageOvflow, hlink, h2,
                  hnewget, hnew, hput1, Option.some.injEq, Prod.mk.injEq] at hres
                rw [putPage_of_lt _ (by simp; have := getElem?_lt h7; omega)] at hres
                obtain ⟨e1, e2⟩ := hres
                subst e1 e2
                exact InsertCase.appended init last pgl q hadd h4 hfull h7 h8 hnew
              | none =>
                simp only [addTupleToRelation, hhv, getPage, hpg, hadd, pageOvflow, hlink, h2,
                  hnewget, hnew] at hres
                simp only [addPage_fst, Option.some.injEq, Prod.mk.injEq] at hres
                obtain ⟨e1, e2⟩ := hres
                subst e1 e2
                exact InsertCase.orphan init last hadd h4 hfull hnew

theorem Linear.ids_lt {r : Reln} {ch : Nat → List Nat} (h : Linear r ch) {b : Nat}
    (hb : b < r.data.length) : ∀ i ∈ ch b, i < r.ovflow.length := by
  have hpg : r.data[b]? = some r.data[b] := List.getElem?_eq_getElem hb
  exact (h.chain b _ hpg).lt

/-- A change confined to bucket `p` keeps the chains linear: the other primary
pages and the links of their chains are kept, and the new chain of `p` is made
of its old pages and of pages that did not exist. -/
theorem Linear.frame_bucket {r r2 : Reln} {ch ch2 : Nat → List Nat} (h : Linear r ch) (p : Nat)
    (hlen : r2.data.length = r.data.length)
    (hdata : ∀ b, b ≠ p → r2.data[b]? = r.data[b]?)
    (hch : ∀ b, b ≠ p → ch2 b = ch b)
    (hlk : ∀ b, b < r.data.length → b ≠ p → ∀ i ∈ ch b, links r2.ovflow i = links r.ovflow i)
    (hchain : ∀ pg, r2.data[p]? = some pg → IsChain (links r2.ovflow) pg.ovflow (ch2 p))
    (hnd : (ch2 p).Nodup)
    (hfresh : ∀ i ∈ ch2 p, (p < r.data.length ∧ i ∈ ch p) ∨ r.ovflow.length ≤ i) :
    Linear r2 ch2 := by
  have key : ∀ c, c < r.data.length → c ≠ p → List.Disjoint (ch2 p) (ch c) := by
    intro c hc hcp i hi hi2
    rcases hfresh i hi with ⟨hp, h1⟩ | h1
    · exact h.disj p c hp hc (Ne.symm hcp) h1 hi2
    · have := h.ids_lt hc i hi2
      omega
  refine ⟨?_, ?_, ?_⟩
  · intro b pg hpg
    by_cases hb : b = p
    · subst hb
      exact hchain pg hpg
    · rw [hdata b hb] at hpg
      rw [hch b hb]
      exact (h.chain b pg hpg).congr (hlk b (getElem?_lt hpg) hb)
  · intro b hb
    by_cases hbp : b = p
    · subst hbp
      exact hnd
    · rw [hch b hbp]
      exact h.nodup b (by rw [← hlen]; exact hb)
  · intro b c hb hc hbc
    rw [hlen] at hb hc
    by_cases hbp : b = p
    · subst hbp
      rw [hch c (Ne.symm hbc)]
      exact key c hc (Ne.symm hbc)
    · by_cases hcp : c = p
      · subst hcp
        rw [hch b hbp]
        exact (key b hb hbp).symm
      · rw [hch b hbp, hch c hcp]
        exact h.disj b c hb hc hbc

theorem addToPage_ovflow {pg pg1 : Page} {t : Tuple} (h : addToPage pg t = some pg1) :
    pg1.ovflow = pg.ovflow := by
  unfold addToPage at h
  split at h
  · cases h
  · simp only [Option.some.injEq] at h
    subst h
    rfl

theorem InsertCase.chains {r r2 : Reln} {ch : Nat → List Nat} {t : Tuple} {p : Nat} {pg : Page}
    {res : Option Nat} (h : Linear r ch) (hpg : r.data[p]? = some pg)
    (hc : InsertCase r ch t p pg r2 res) : ∃ ch2, ChainStep r r2 ch ch2 p := by
  have hp : p < r.data.length := getElem?_lt hpg
  have hc0 := h.chain p pg hpg
  have hnd0 := h.nodup p hp
  cases hc with
  | primary pg1 hadd =>
    have hov := addToPage_ovflow hadd
    refine ⟨ch, ?_, by simp, le_refl _, fun _ _ => rfl, fun i hi => Or.inl hi, fun i hi => hi,
      ⟨rfl, rfl, rfl, rfl, rfl⟩⟩
    refine h.frame_bucket p (by simp) (fun b hb => by simp [List.getElem?_set_ne (Ne.symm hb)])
      (fun _ _ => rfl) (fun _ _ _ _ _ => rfl) ?_ hnd0 (fun i hi => Or.inl ⟨hp, hi⟩)
    intro x hx
    simp only [List.getElem?_set_self hp, Option.some.injEq] at hx
    subst hx
    rw [hov]
    exact hc0
  | first q hadd hlink hchp hnew =>
    have hqo : q.ovflow = none := addToPage_ovflow hnew
    refine ⟨Function.update ch p [r.ovflow.length], ?_, by simp, by simp,
      fun b hb => Function.update_noteq hb _ _, ?_, ?_, ⟨rfl, rfl, rfl, rfl, rfl⟩⟩
    · refine h.frame_bucket p (by simp) (fun b hb => by simp [List.getElem?_set_ne (Ne.symm hb)])
        (fun b hb => Function.update_noteq hb _ _)
        (fun b hb _ i hi => links_append_lt _ _ _ (h.ids_lt hb i hi)) ?_ (by simp) ?_
      · intro x hx
        simp only [List.getElem?_set_self hp, Option.some.injEq] at hx
        subst hx
        simp only [Function.update_same]
        refine ⟨rfl, none, ?_, rfl⟩
        simp only [links_append_eq, hqo]
      · intro i hi
        simp only [Function.update_same, List.mem_singleton] at hi
        subst hi
        exact Or.inr (le_refl _)
    · intro i hi
      simp only [Function.update_same, List.mem_singleton] at hi
      subst hi
      exact Or.inr (le_refl _)
    · intro i hi
      rw [hchp] at hi
      cases hi
  | firstFail hadd hlink hchp hnew =>
    refine ⟨Function.update ch p [r.ovflow.length], ?_, by simp, by simp,
      fun b hb => Function.update_noteq hb _ _, ?_, ?_, ⟨rfl, rfl, rfl, rfl, rfl⟩⟩
    · refine h.frame_bucket p (by simp) (fun b hb => by simp [List.getElem?_set_ne (Ne.symm hb)])
        (fun b hb => Function.update_noteq hb _ _)
        (fun b hb _ i hi => links_append_lt _ _ _ (h.ids_lt hb i hi)) ?_ (by simp) ?_
      · intro x hx
        simp only [List.getElem?_set_self hp, Option.some.injEq] at hx
        subst hx
        simp only [Function.update_same]
        refine ⟨rfl, none, ?_, rfl⟩
        simp only [links_append_eq]
        rfl
      · intro i hi
        simp only [Function.update_same, List.mem_singleton] at hi
        subst hi
        exact Or.inr (le_refl _)
    · intro i hi
      simp only [Function.update_same, List.mem_singleton] at hi
      subst hi
      exact Or.inr (le_refl _)
    · intro i hi
      rw [hchp] at hi
      cases hi
  | placed l1 i l2 pgi pg1 hadd hids hfull hpgi haddi =>
    have hov := addToPage_ovflow haddi
    refine ⟨ch, ?_, rfl, by simp, fun _ _ => rfl, fun i hi => Or.inl hi, fun i hi => hi,
      ⟨rfl, rfl, rfl, rfl, rfl⟩⟩
    refine h.frame_bucket p rfl (fun _ _ => rfl) (fun _ _ => rfl)
      (fun _ _ _ j _ => links_set_same _ _ _ _ _ hpgi hov) ?_ hnd0 (fun i hi => Or.inl ⟨hp, hi⟩)
    intro x hx
    have hx2 : r.data[p]? = some x := hx
    rw [hpg] at hx2
    cases hx2
    exact hc0.congr (fun j _ => links_set_same _ _ _ _ _ hpgi hov)
  | appended init last pgl q hadd hids hfull hpgl hlast hnew =>
    have hqo : q.ovflow = none := addToPage_ovflow hnew
    have hlastlt : last < r.ovflow.length := getElem?_lt hpgl
    rw [hids] at hc0 hnd0
    have hlastin : last ∉ init := by
      intro hin
      have := List.disjoint_of_nodup_append hnd0 hin
      simp at this
    have hinitlt : ∀ j ∈ init, j < r.ovflow.length := fun j hj => hc0.lt j (by simp [hj])
    have hget : ∀ j, j < r.ovflow.length → j ≠ last →
        ((r.ovflow ++ [q]).set last (pageSetOvflow pgl (some r.ovflow.length)))[j]? =
          r.ovflow[j]? := by
      intro j hj hjl
      rw [List.getElem?_set_ne (Ne.symm hjl), List.getElem?_append_left hj]
    have hgetlast : ((r.ovflow ++ [q]).set last (pageSetOvflow pgl (some r.ovflow.length)))[last]? =
        some (pageSetOvflow pgl (some r.ovflow.length)) :=
      List.getElem?_set_self (by simp; omega)
    have hgetnew : ((r.ovflow ++ [q]).set last
        (pageSetOvflow pgl (some r.ovflow.length)))[r.ovflow.length]? = some q := by
      rw [List.getElem?_set_ne (by omega)]
      simp
    refine ⟨Function.update ch p (init ++ [last] ++ [r.ovflow.length]), ?_, rfl, by simp,
      fun b hb => Function.update_noteq hb _ _, ?_, ?_, ⟨rfl, rfl, rfl, rfl, rfl⟩⟩
    · refine h.frame_bucket p rfl (fun _ _ => rfl) (fun b hb => Function.update_noteq hb _ _) ?_ ?_ ?_ ?_
      · intro b hb hbp j hj
        have hjl : j ≠ last := by
          intro e
          exact h.disj p b hp hb (Ne.symm hbp) (by rw [hids]; simp) (e ▸ hj)
        simp only [links, hget j (h.ids_lt hb j hj) hjl]
      · intro x hx
        have hx2 : r.data[p]? = some x := hx
        rw [hpg] at hx2
        cases hx2
        simp only [Function.update_same]
        refine hc0.snoc hnd0 ?_ ?_ ?_
        · intro j hj
          have : j ≠ last := fun e => hlastin (e ▸ hj)
          simp only [links, hget j (hinitlt j hj) this]
        · simp only [links, hgetlast]
          rfl
        · simp only [links, hgetnew, Option.map_some', hqo]
      · simp only [Function.update_same]
        refine List.Nodup.append hnd0 (by simp) ?_
        intro j hj hj2
        simp only [List.mem_singleton] at hj2
        subst hj2
        have := hc0.lt _ hj
        omega
      · intro j hj
        simp only [Function.update_same] at hj
        rcases List.mem_append.mp hj with h1 | h1
        · left; rw [hids]; exact ⟨hp, h1⟩
        · right; simp only [List.mem_singleton] at h1; omega
    · intro j hj
      simp only [Function.update_same] at hj
      rcases List.mem_append.mp hj with h1 | h1
      · left; rw [hids]; exact h1
      · right; simp only [List.mem_singleton] at h1; omega
    · intro j hj
      simp only [Function.update_same]
      rw [hids] at hj
      exact List.mem_append_left _ hj
  | orphan init last hadd hids hfull hnew =>
    refine ⟨ch, ?_, rfl, by simp, fun _ _ => rfl, fun i hi => Or.inl hi, fun i hi => hi,
      ⟨rfl, rfl, rfl, rfl, rfl⟩⟩
    refine h.frame_bucket p rfl (fun _ _ => rfl) (fun _ _ => rfl)
      (fun b hb _ j hj => links_append_lt _ _ _ (h.ids_lt hb j hj)) ?_ hnd0
      (fun i hi => Or.inl ⟨hp, hi⟩)
    intro x hx
    have hx2 : r.data[p]? = some x := hx
    rw [hpg] at hx2
    cases hx2
    exact hc0.congr (fun j hj => links_append_lt _ _ _ (hc0.lt j hj))

theorem countChain_none (ov : List Page) :
    ∀ (fuel : Nat) (s : Option Nat) (total : Nat) (x : Nat) (y : Option Nat),
      countChain ov fuel s total = some (x, y) → y = none := by
  intro fuel
  induction fuel with
  | zero =>
    intro s total x y h
    cases s with
    | none => simp only [countChain, Option.some.injEq, Prod.mk.injEq] at h; exact h.2.symm
    | some i => simp [countChain] at h
  | succ n ih =>
    intro s total x y h
    cases s with
    | none => simp only [countChain, Option.some.injEq, Prod.mk.injEq] at h; exact h.2.symm
    | some i =>
      simp only [countChain] at h
      split at h
      · cases h
      · exact ih _ _ _ _ h

theorem clearChain_links :
    ∀ (fuel : Nat) (ov : List Page) (s : Option Nat) (acc : List Tuple) (ov2 : List Page)
      (acc2 : List Tuple), clearChain fuel ov s acc = some (ov2, acc2) →
      ov2.length = ov.length ∧ ∀ j, links ov2 j = links ov j := by
  intro fuel
  induction fuel with
  | zero =>
    intro ov s acc ov2 acc2 h
    cases s with
    | none =>
      simp only [clearChain, Option.some.injEq, Prod.mk.injEq] at h
      rw [← h.1]
      exact ⟨rfl, fun _ => rfl⟩
    | some i => simp [clearChain] at h
  | succ n ih =>
    intro ov s acc ov2 acc2 h
    cases s with
    | none =>
      simp only [clearChain, Option.some.injEq, Prod.mk.injEq] at h
      rw [← h.1]
      exact ⟨rfl, fun _ => rfl⟩
    | some i =>
      simp only [clearChain] at h
      split at h
      · cases h
      · rename_i curPage hget
        split at h
        · cases h
        · have hi : i < ov.length := getElem?_lt hget
          rw [putPage_of_lt _ hi] at h
          obtain ⟨h1, h2⟩ := ih _ _ _ _ _ h
          refine ⟨by rw [h1]; simp, fun j => ?_⟩
          rw [h2 j]
          exact links_set_same _ _ _ _ _ hget rfl

/-- What `pageSplit` does when it returns: the data file gets one more page,
the primary page of bucket `sp` is overwritten by an empty page whose link is
the final value of `ovfPageID`, the overflow file is the result of
`clearChain`, and the tuples are reinserted into that relation. -/
theorem pageSplit_inv (hash : List Char → Nat) {r r3 : Reln} (hs : pageSplit hash r = some r3) :
    ∃ (curPage : Page) (total : Nat) (T0 T : List Tuple) (ov2 : List Page) (r2 : Reln),
      (r.data ++ [newPage])[r.sp]? = some curPage ∧
      clearChain (r.ovflow.length + 1) r.ovflow curPage.ovflow T0 = some (ov2, T) ∧
      r2.data = (r.data ++ [newPage]).set r.sp (pageSetOvflow newPage none) ∧
      r2.ovflow = ov2 ∧ reinsert hash T total 0 r2 = some r3 := by
  unfold pageSplit at hs
  simp only [splitp, dataFile, ovflowFile, getPage, addPage_fst, pageOvflow, pageNTuples] at hs
  split at hs
  · cases hs
  · rename_i curPage hget
    have hlt : r.sp < (r.data ++ [newPage]).length := getElem?_lt hget
    split at hs
    · cases hs
    · rename_i total ovfPageID hcount
      have hnone := countChain_none _ _ _ _ _ _ hcount
      subst hnone
      split at hs
      · cases hs
      · rename_i T0 hcopy
        split at hs
        · cases hs
        · rename_i ov2 T hclear
          rw [putPage_of_lt _ hlt] at hs
          split at hs
          · exact ⟨curPage, total, T0, T, ov2, _, hget, hclear, rfl, rfl, hs⟩
          · exact ⟨curPage, total, T0, T, ov2, _, hget, hclear, rfl, rfl, hs⟩

/-- The reinsertion loop keeps the chains linear: it extends the chains by
pages that did not exist. -/
theorem reinsert_chains (hash : List Char → Nat) (T : List Tuple) :
    ∀ (n i : Nat) (r r2 : Reln) (ch : Nat → List Nat), Linear r ch →
      reinsert hash T n i r = some r2 →
      ∃ ch2, Linear r2 ch2 ∧ r2.data.length = r.data.length ∧
        r.ovflow.length ≤ r2.ovflow.length ∧
        (∀ b j, j ∈ ch2 b → j ∈ ch b ∨ r.ovflow.length ≤ j) ∧
        (∀ b j, j ∈ ch b → j ∈ ch2 b) := by
  intro n
  induction n with
  | zero =>
    intro i r r2 ch h hr
    simp only [reinsert, Option.some.injEq] at hr
    subst hr
    exact ⟨ch, h, rfl, le_refl _, fun _ _ hj => Or.inl hj, fun _ _ hj => hj⟩
  | succ n ih =>
    intro i r r2 ch h hr
    simp only [reinsert] at hr
    split at hr
    · cases hr
    · rename_i t ht
      split at hr
      · cases hr
      · cases hr
      · rename_i r1 p hadd
        obtain ⟨hv, pg, _, hpg, hcase⟩ := addTupleToRelation_inv hash h hadd
        obtain ⟨ch1, hstep⟩ := hcase.chains h hpg
        obtain ⟨ch2, k1, k2, k3, k4, k5⟩ := ih _ _ _ ch1 hstep.linear hr
        refine ⟨ch2, k1, by rw [k2, hstep.data_len], le_trans hstep.ov_len k3, ?_, ?_⟩
        · intro b j hj
          rcases k4 b j hj with h1 | h1
          · by_cases hb : b = bucketOf hv r.depth r.sp
            · subst hb
              exact hstep.fresh j h1
            · rw [hstep.other b hb] at h1
              exact Or.inl h1
          · exact Or.inr (le_trans hstep.ov_len h1)
        · intro b j hj
          apply k5
          by_cases hb : b = bucketOf hv r.depth r.sp
          · subst hb
            exact hstep.kept j hj
          · rw [hstep.other b hb]
            exact hj

/-- The chains after `pageSplit`: they are linear again; the chain of a bucket
other than `sp` keeps its pages, and every other page of a chain is a page that
did not exist before the split. -/
theorem pageSplit_chains (hash : List Char → Nat) {r r3 : Reln} {ch : Nat → List Nat}
    (h : Linear r ch) (hs : pageSplit hash r = some r3) :
    ∃ ch3, Linear r3 ch3 ∧ r3.data.length = r.data.length + 1 ∧
      r.ovflow.length ≤ r3.ovflow.length ∧
      (∀ b j, j ∈ ch3 b → (b < r.data.length ∧ b ≠ r.sp ∧ j ∈ ch b) ∨ r.ovflow.length ≤ j) ∧
      (∀ b j, b < r.data.length → b ≠ r.sp → j ∈ ch b → j ∈ ch3 b) := by
  obtain ⟨curPage, total, T0, T, ov2, r2, hget, hclear, hd2, ho2, hre⟩ := pageSplit_inv hash hs
  have hsp : r.sp < (r.data ++ [newPage]).length := getElem?_lt hget
  obtain ⟨hlen2, hlk2⟩ := clearChain_links _ _ _ _ _ _ hclear
  have hlin2 : Linear r2 (fun b => if b < r.data.length ∧ b ≠ r.sp then ch b else []) := by
    refine ⟨?_, ?_, ?_⟩
    · intro b pg hpg
      rw [hd2] at hpg
      rw [ho2]
      by_cases hb : b = r.sp
      · subst hb
        rw [List.getElem?_set_self hsp] at hpg
        cases hpg
        simp only [ne_eq, not_true_eq_false, and_false, if_false]
        rfl
      · rw [List.getElem?_set_ne (Ne.symm hb)] at hpg
        rcases getElem?_append_singleton _ _ _ _ hpg with h1 | ⟨h1, h2⟩
        · have hlt : b < r.data.length := getElem?_lt h1
          simp only [hlt, ne_eq, hb, not_false_eq_true, and_self, if_true]
          exact (h.chain b pg h1).congr (fun j _ => hlk2 j)
        · subst h2
          simp only [h1, lt_self_iff_false, false_and, if_false]
          rfl
    · intro b _
      split
      · rename_i hb
        exact h.nodup b hb.1
      · exact List.nodup_nil
    · intro b c _ _ hbc
      split
      · rename_i hb
        split
        · rename_i hc
          exact h.disj b c hb.1 hc.1 hbc
        · exact List.disjoint_nil_right _
      · exact List.disjoint_nil_left _
  obtain ⟨ch3, k1, k2, k3, k4, k5⟩ := reinsert_chains hash T _ _ _ _ _ hlin2 hre
  have hdl : r2.data.length = r.data.length + 1 := by rw [hd2]; simp
  have hol : r2.ovflow.length = r.ovflow.length := by rw [ho2, hlen2]
  refine ⟨ch3, k1, by rw [k2, hdl], by rw [← hol]; exact k3, ?_, ?_⟩
  · intro b j hj
    rcases k4 b j hj with h1 | h1
    · split at h1
      · rename_i hb
        exact Or.inl ⟨hb.1, hb.2, h1⟩
      · cases h1
    · rw [hol] at h1
      exact Or.inr h1
  · intro b j hb hbs hj
    apply k5
    simp only [hb, ne_eq, hbs, not_false_eq_true, and_self, if_true]
    exact hj

theorem newRelation_linear {nattrs npages d : Nat} {cv : Option ChVec} {r : Reln}
    (h : newRelation nattrs npages d cv = some r) : Linear r (fun _ => []) := by
  cases cv with
  | none => simp [newRelation] at h
  | some c =>
    simp only [newRelation, Option.some.injEq] at h
    subst h
    simp only [addPages_eq, List.nil_append]
    refine ⟨?_, fun _ _ => List.nodup_nil, fun _ _ _ _ _ => List.disjoint_nil_left _⟩
    intro b pg hpg
    have hlt : b < npages := by simpa using getElem?_lt hpg
    simp only [List.getElem?_replicate_of_lt hlt, Option.some.injEq] at hpg
    subst hpg
    rfl

theorem addTupleToRelation_linear (hash : List Char → Nat) {r r2 : Reln} {ch : Nat → List Nat}
    (h : Linear r ch) {t : Tuple} {res : Option Nat}
    (hres : addTupleToRelation hash r t = some (r2, res)) : ∃ ch2, Linear r2 ch2 := by
  obtain ⟨hv, pg, _, hpg, hcase⟩ := addTupleToRelation_inv hash h hres
  obtain ⟨ch2, hstep⟩ := hcase.chains h hpg
  exact ⟨ch2, hstep.linear⟩

theorem addToRelation_linear (hash : List Char → Nat) {r r2 : Reln} {ch : Nat → List Nat}
    (h : Linear r ch) {t : Tuple} {res : Option Nat}
    (hres : addToRelation hash r t = some (r2, res)) : ∃ ch2, Linear r2 ch2 := by
  obtain ⟨u1, u2⟩ := addToRelation_run hash hres
  by_cases hs : splitDue r
  · obtain ⟨r1, hsp, hadd⟩ := u1 hs
    obtain ⟨ch1, h1, _⟩ := pageSplit_chains hash h hsp
    exact addTupleToRelation_linear hash h1 hadd
  · exact addTupleToRelation_linear hash h (u2 hs)

theorem Reachable.keeps_linear {hash : List Char → Nat} {r0 r : Reln} (h : Reachable hash r0 r)
    (h0 : ∃ ch, Linear r0 ch) : ∃ ch, Linear r ch := by
  induction h with
  | init => exact h0
  | @step ra rb t res _ hstep ih =>
    obtain ⟨ch, hch⟩ := ih
    exact addToRelation_linear hash hch hstep

/-- The first way of `addTupleToRelation`, read forwards. -/
theorem insert_eval_primary (hash : List Char → Nat) {r : Reln} {t : Tuple} {hv : Nat}
    {pg pg1 : Page} (hhv : tupleHash hash r t = some hv)
    (hpg : r.data[bucketOf hv r.depth r.sp]? = some pg) (hadd : addToPage pg t = some pg1) :
    addTupleToRelation hash r t =
      some ({ r with data := r.data.set (bucketOf hv r.depth r.sp) pg1, ntups := r.ntups + 1 },
        some (bucketOf hv r.depth r.sp)) := by
  simp only [addTupleToRelation, hhv, getPage, hpg, hadd, putPage_of_lt _ (getElem?_lt hpg)]

/-- The second way of `addTupleToRelation`, read forwards. -/
theorem insert_eval_first (hash : List Char → Nat) {r : Reln} {t : Tuple} {hv : Nat}
    {pg q : Page} (hhv : tupleHash hash r t = some hv)
    (hpg : r.data[bucketOf hv r.depth r.sp]? = some pg) (hadd : addToPage pg t = none)
    (hlink : pg.ovflow = none) (hnew : addToPage newPage t = some q) :
    addTupleToRelation hash r t =
      some ({ r with data := r.data.set (bucketOf hv r.depth r.sp)
                       (pageSetOvflow pg (some r.ovflow.length)),
                     ovflow := r.ovflow ++ [q], ntups := r.ntups + 1 },
        some (bucketOf hv r.depth r.sp)) := by
  have hnewget : (addPage r.ovflow).1[(addPage r.ovflow).2]? = some newPage := by
    simp [addPage_fst, addPage_snd]
  have hput1 : putPage (addPage r.ovflow).1 (addPage r.ovflow).2 q = r.ovflow ++ [q] := by
    rw [addPage_fst, addPage_snd, putPage_of_lt _ (by simp)]
    simp
  simp only [addTupleToRelation, hhv, getPage, hpg, hadd, pageOvflow, hlink, hnewget, hnew,
    hput1, putPage_of_lt _ (getElem?_lt hpg)]
  rfl

theorem exMax_ok : NUL ∉ exMax ∧ TupleOK exRel exMax ∧
    exMax.length + 1 ≤ PAGESIZE - hdr_size := by
  refine ⟨?_, ?_, ?_⟩
  · intro h
    exact absurd (List.eq_of_mem_replicate h) (by decide)
  · exact tupleVals_no_comma _ (fun h => absurd (List.eq_of_mem_replicate h) (by decide))
  · simp only [exMax, List.length_replicate]
    decide

theorem exMax_newPage : addToPage newPage exMax = some exPageMax := by
  have h1 : pageFreeSpace newPage = 1012 := by decide
  have h2 : exMax.length = 1011 := List.length_replicate _ _
  have h3 : newPage.data = List.replicate 1012 NUL := rfl
  have h4 : newPage.free = 0 := rfl
  have h5 : 1012 - (0 + (1011 + 1)) = 0 := by decide
  simp only [addToPage, h1, h2, h3, h4]
  rw [if_neg (by decide), List.take_zero, List.nil_append, List.drop_replicate, h5,
    List.replicate_zero, List.append_nil]
  rfl

theorem exMax_full (x : Option Nat) : addToPage (pageSetOvflow exPageMax x) exMax = none := by
  apply addToPage_full
  have h2 : exMax.length = 1011 := List.length_replicate _ _
  rw [h2]
  show pageFreeSpace exPageMax < 1011 + 1
  decide

theorem exRelA_insert : addToRelation exHash exRel exMax = some (exRelA, some 0) := by
  obtain ⟨hv, hhv⟩ := tupleHash_isSome exHash (r := exRel) (fun _ _ => Nat.zero_lt_one) exMax_ok.2.1
  have hb : bucketOf hv exRel.depth exRel.sp = 0 := rfl
  have hpg : exRel.data[bucketOf hv exRel.depth exRel.sp]? = some newPage := by rw [hb]; rfl
  have h := insert_eval_primary exHash hhv hpg exMax_newPage
  rw [hb] at h
  have hto : addToRelation exHash exRel exMax = addTupleToRelation exHash exRel exMax := by
    simp [addToRelation, nattrs, exRel]
  rw [hto, h]
  rfl

theorem exRelB_insert : addToRelation exHash exRelA exMax = some (exRelB, some 0) := by
  obtain ⟨hv, hhv⟩ := tupleHash_isSome exHash (r := exRelA) (fun _ _ => Nat.zero_lt_one)
    exMax_ok.2.1
  have hb : bucketOf hv exRelA.depth exRelA.sp = 0 := rfl
  have hpg : exRelA.data[bucketOf hv exRelA.depth exRelA.sp]? = some exPageMax := by rw [hb]; rfl
  have h := insert_eval_first exHash hhv hpg (exMax_full none) rfl exMax_newPage
  rw [hb] at h
  have hto : addToRelation exHash exRelA exMax = addTupleToRelation exHash exRelA exMax := by
    simp [addToRelation, nattrs, exRelA, exRel, timeToSplit]
  rw [hto, h]
  rfl

theorem exRelA_wf : RelnWF exRelA :=
  (addToRelation_some exHash exRel_wf exMax_ok.1 exMax_ok.2.1 exRelA_insert).1

theorem exRelB_wf : RelnWF exRelB :=
  (addToRelation_some exHash exRelA_wf exMax_ok.1 exMax_ok.2.1 exRelB_insert).1

/-- A failed insertion into a bucket whose primary page has an overflow chain:
the only change is one more empty page at the end of the overflow file. -/
theorem insert_fail_with_chain (hash : List Char → Nat) {r : Reln} {ch : Nat → List Nat}
    (h : WFWith r ch) {t : Tuple} (hnul : NUL ∉ t) (hok : TupleOK r t)
    (hbig : PAGESIZE - hdr_size < t.length + 1) {hv : Nat} {pg : Page}
    (hhv : tupleHash hash r t = some hv) (hpg : r.data[bucketOf hv r.depth r.sp]? = some pg)
    (hlink : pg.ovflow ≠ none) :
    addTupleToRelation hash r t = some ({ r with ovflow := r.ovflow ++ [newPage] }, NO_PAGE) := by
  obtain ⟨hv1, hhv1, r2, _, hfail⟩ := addTupleToRelation_spec hash h hnul hok
  obtain ⟨hres, _⟩ := hfail hbig
  obtain ⟨hv2, pg2, hhv2, hpg2, hcase⟩ := addTupleToRelation_inv hash h.to_linear hres
  rw [hhv] at hhv2
  cases hhv2
  rw [hpg] at hpg2
  cases hpg2
  rw [hres]
  unfold NO_PAGE at hcase ⊢
  cases hcase with
  | firstFail _ hl _ _ => exact absurd hl hlink
  | orphan _ _ _ _ _ _ => rfl

/-- After `pageSplit` no page of the old overflow chain of bucket `sp` is
reached from a primary page. -/
theorem pageSplit_orphans (hash : List Char → Nat) {r r3 : Reln} {ch : Nat → List Nat}
    (h : Linear r ch) (hsp : r.sp < r.data.length) (hs : pageSplit hash r = some r3) :
    ∀ j ∈ ch r.sp, j < r3.ovflow.length ∧
      ∀ (b : Nat) (pg : Page) (ids : List Nat), r3.data[b]? = some pg →
        IsChain (links r3.ovflow) pg.ovflow ids → j ∉ ids := by
  obtain ⟨ch3, h3, _, hlen, hfresh, _⟩ := pageSplit_chains hash h hs
  intro j hj
  have hjlt : j < r.ovflow.length := h.ids_lt hsp j hj
  refine ⟨by omega, ?_⟩
  intro b pg ids hpg hids hmem
  have e := IsChain.ids_unique hids (h3.chain b pg hpg)
  rw [e] at hmem
  rcases hfresh b j hmem with ⟨hb, hbs, hjb⟩ | hge
  · exact h.disj r.sp b hsp hb (Ne.symm hbs) hj hjb
  · omega

theorem addToPage_none_iff {pg : Page} {t : Tuple} : addToPage pg t = none ↔ ¬ roomFor t pg := by
  unfold addToPage roomFor
  split
  · rename_i hgt
    exact ⟨fun _ => (by omega), fun _ => rfl⟩
  · rename_i hgt
    exact ⟨fun e => (by cases e), fun hn => absurd (by omega) hn⟩

theorem addToPage_room {pg pg1 : Page} {t : Tuple} (h : addToPage pg t = some pg1) :
    roomFor t pg := by
  by_contra hc
  rw [addToPage_none_iff.mpr hc] at h
  cases h

/-- On a well-formed relation every stored tuple can be compared with a query
that has one field per attribute. -/
theorem WFWith.comparable {r : Reln} {ch : Nat → List Nat} (h : WFWith r ch) {q : Query}
    (hq : q.rel = r) (hv : q.vals.length = r.nattrs) : Comparable q :=
  h.scanWF.to_comparable hq hv

theorem mem_referenceScan {q : Query} {t : Tuple} (hn : 2 ^ depth q.rel + splitp q.rel = q.rel.npages)
    (h : t ∈ referenceScan q) : t ∈ relTuples q.rel := by
  unfold referenceScan at h
  obtain ⟨b, hb, ht⟩ := List.mem_flatMap.mp h
  rw [hn] at hb
  unfold bucketMatches at ht
  split at ht
  · unfold pagesMatches at ht
    obtain ⟨pg, hpg, hpt⟩ := List.mem_flatMap.mp ht
    exact List.mem_flatMap.mpr ⟨b, hb, List.mem_flatMap.mpr ⟨pg, hpg, (List.mem_filter.mp hpt).1⟩⟩
  · cases ht

theorem scanAll_one {q : Query} (h : scanAll 1 q = some []) :
    ∃ q1, getNextTuple q = some (q1, none) := by
  simp only [scanAll] at h
  split at h
  · cases h
  · rename_i q1 hq
    exact ⟨q1, hq⟩
  · cases h

theorem matchesQuery_eq_agrees (pvals : List (List Char)) (n : Nat) (hn : n ≤ pvals.length)
    (t : Tuple) : matchesQuery pvals n t = agreesOnKnown pvals n t := by
  unfold matchesQuery agreesOnKnown
  by_cases hall : ∀ i, i < n → pvals[i]? = some ['?'] ∨ (tupleVals t)[i]? = pvals[i]?
  · have h1 : findTupleLoop pvals (tupleVals t) n 0 = some true :=
      findTupleLoop_of_agree n 0 (by omega) (fun k _ hk => hall k (by omega))
    rw [h1]
    symm
    simp only [beq_self_eq_true, List.all_eq_true, List.mem_range, Bool.or_eq_true, beq_iff_eq]
    exact hall
  · have h1 : findTupleLoop pvals (tupleVals t) n 0 ≠ some true := by
      intro h
      apply hall
      intro i hi
      have hlt : i < pvals.length := by omega
      by_cases hw : pvals[i] = ['?']
      · left
        rw [List.getElem?_eq_getElem hlt, hw]
      · right
        rw [findTupleLoop_true n 0 h i (Nat.zero_le i) (by omega) pvals[i]
          (List.getElem?_eq_getElem hlt) hw, List.getElem?_eq_getElem hlt]
    have h2 : (findTupleLoop pvals (tupleVals t) n 0 == some true) = false := by
      simpa using h1
    rw [h2]
    symm
    rw [Bool.eq_false_iff]
    intro hc
    apply hall
    simpa only [List.all_eq_true, List.mem_range, Bool.or_eq_true, beq_iff_eq] using hc

theorem referenceScan_eq_spec {q : Query} (hn : 2 ^ depth q.rel + splitp q.rel = q.rel.npages)
    (hv : q.rel.nattrs ≤ q.vals.length) :
    referenceScan q = specScan q.rel (suitable q) q.vals := by
  unfold referenceScan specScan
  rw [hn]
  apply flatMap_range_congr
  intro b _
  unfold bucketMatches pagesMatches
  have : matchesQuery q.vals (nattrs q.rel) = agreesOnKnown q.vals q.rel.nattrs :=
    funext (fun t => matchesQuery_eq_agrees _ _ hv t)
  rw [this]

/-- On a well-formed relation `pageSplit` is the reinsertion, by
`addTupleToRelation`, of the tuples of bucket `sp` into the relation `r2` that
has one more page, the advanced split pointer and bucket `sp` cleared. -/
theorem pageSplit_as_reinsert (hash : List Char → Nat) {r : Reln} {ch : Nat → List Nat}
    (h : WFWith r ch) :
    ∃ r2, pageSplit hash r =
        reinsert hash (bucketTuples r r.sp) (bucketTuples r r.sp).length 0 r2 ∧
      r2.npages = r.npages + 1 ∧ (r2.depth, r2.sp) = advance r.depth r.sp ∧
      r2.data.length = r.data.length + 1 ∧
      r2.ntups = r.ntups - (bucketTuples r r.sp).length ∧ RelnWF r2 := by
  have hsp := h.sp_lt_npages
  obtain ⟨pg0, hpg0⟩ := h.getPage_some hsp
  have hsplt : r.sp < r.data.length := getElem?_lt hpg0
  have hc := h.chain r.sp pg0 hpg0
  have hnd := h.nodup r.sp hsp
  have hfuel : (ch r.sp).length ≤ r.ovflow.length + 1 := Nat.le_succ_of_le (hc.length_le hnd)
  have hget : (r.data ++ [newPage])[r.sp]? = some pg0 := by
    rw [List.getElem?_append_left hsplt, hpg0]
  have hbt := h.bucketTuples_wf hsp hpg0
  have hcount : countChain r.ovflow (r.ovflow.length + 1) pg0.ovflow pg0.ntuples =
      some ((bucketTuples r r.sp).length, none) := by
    rw [countChain_spec r.ovflow (ch r.sp) pg0.ovflow (r.ovflow.length + 1) pg0.ntuples
      hc hfuel h.ov_wf, (h.data_wf r.sp pg0 hpg0).ntuples_eq, ← List.length_append, ← hbt]
  have hcopy : copyTuples (dataTotupleList (pageData pg0)
      (PAGESIZE - pageFreeSpace pg0 - hdr_size)) pg0.ntuples 0 [] = some (pageTuples pg0) := by
    have := copyTuples_page (h.data_wf r.sp pg0 hpg0) []
    rwa [List.nil_append] at this
  obtain ⟨ov2, hcl, _, hout, hin⟩ := clearChain_spec (ch r.sp) r.ovflow pg0.ovflow
    (r.ovflow.length + 1) ([] ++ pageTuples pg0) hc hnd hfuel h.ov_wf
  rw [List.nil_append, ← hbt] at hcl
  obtain ⟨r2, hr2⟩ : ∃ r2 : Reln, r2 =
      if r.sp + 1 = 2 ^ r.depth then
        { r with data := (r.data ++ [newPage]).set r.sp (pageSetOvflow newPage none)
                 npages := r.npages + 1, ovflow := ov2
                 ntups := r.ntups - (bucketTuples r r.sp).length
                 depth := r.depth + 1, sp := 0 }
      else
        { r with data := (r.data ++ [newPage]).set r.sp (pageSetOvflow newPage none)
                 npages := r.npages + 1, ovflow := ov2
                 ntups := r.ntups - (bucketTuples r r.sp).length, sp := r.sp + 1 } := ⟨_, rfl⟩
  have hds : (r2.depth, r2.sp) = advance r.depth r.sp := by
    rw [hr2]; unfold advance; split <;> rfl
  have hnp : r2.npages = r.npages + 1 := by rw [hr2]; split <;> rfl
  have hna : r2.nattrs = r.nattrs := by rw [hr2]; split <;> rfl
  have hcv : r2.cv = r.cv := by rw [hr2]; split <;> rfl
  have hnt : r2.ntups = r.ntups - (bucketTuples r r.sp).length := by rw [hr2]; split <;> rfl
  have hdl : r2.data.length = r.data.length + 1 := by rw [hr2]; split <;> simp
  obtain ⟨hwf2, _⟩ := split_cleared h hout hin
    (by rw [hr2]; split <;> rfl) (by rw [hr2]; split <;> rfl) hnp hds hna hcv hnt
  refine ⟨r2, ?_, hnp, hds, hdl, hnt, hwf2⟩
  simp only [pageSplit, splitp, dataFile, ovflowFile, getPage, addPage_fst, hget, hcount,
    hcopy, pageOvflow, pageNTuples, hcl,
    putPage_of_lt (pageSetOvflow newPage none)
      (show r.sp < (r.data ++ [newPage]).length by simp; omega)]
  rw [hr2]

theorem reinsert_data_length (hash : List Char → Nat) (T : List Tuple) :
    ∀ (n i : Nat) (r r2 : Reln), RelnWF r → reinsert hash T n i r = some r2 →
      r2.data.length = r.data.length := by
  intro n i r r2 hwf h
  obtain ⟨ch, hch⟩ := hwf
  obtain ⟨_, _, k, _⟩ := reinsert_chains hash T n i r r2 ch hch.to_linear h
  exact k

theorem Addressed.insert_nil {hash : List Char → Nat} {r r2 : Reln} {p : Nat}
    (ha : Addressed hash r) (hp : p < r.npages) (hpost : InsertPost r r2 p []) :
    Addressed hash r2 := by
  intro b hb u hu
  rw [hpost.npages_eq] at hb
  rw [tupleHash_congr hash hpost.cv_eq, hpost.depth_eq, hpost.sp_eq]
  by_cases hbp : b = p
  · subst hbp
    have := hpost.bucket.subset hu
    rw [List.nil_append] at this
    exact ha _ hb u this
  · rw [hpost.other b hb hbp] at hu
    exact ha b hb u hu

/-- Any call of `addTupleToRelation` on a well-formed relation and a tuple of
the relation keeps the relation well-formed and addressed. -/
theorem addTupleToRelation_any (hash : List Char → Nat) {r r2 : Reln} (hwf : RelnWF r)
    {t : Tuple} (hnul : NUL ∉ t) (hok : TupleOK r t) {res : Option Nat}
    (hres : addTupleToRelation hash r t = some (r2, res)) :
    RelnWF r2 ∧ (Addressed hash r → Addressed hash r2) ∧ r2.nattrs = r.nattrs := by
  obtain ⟨ch, hch⟩ := hwf
  obtain ⟨hv, hhv, r3, hfit, hbig⟩ := addTupleToRelation_spec hash hch hnul hok
  by_cases hf : t.length + 1 ≤ PAGESIZE - hdr_size
  · obtain ⟨h1, h2⟩ := hfit hf
    rw [hres] at h1
    simp only [Option.some.injEq, Prod.mk.injEq] at h1
    obtain ⟨e1, _⟩ := h1
    subst e1
    exact ⟨h2.wf, fun ha => ha.insert hhv h2, h2.nattrs_eq⟩
  · obtain ⟨h1, h2⟩ := hbig (by omega)
    rw [hres] at h1
    simp only [Option.some.injEq, Prod.mk.injEq] at h1
    obtain ⟨e1, _⟩ := h1
    subst e1
    exact ⟨h2.wf, fun ha => ha.insert_nil (hch.bucketOf_lt_npages hv) h2, h2.nattrs_eq⟩

theorem addToRelation_any (hash : List Char → Nat) {r r2 : Reln} (hwf : RelnWF r)
    {t : Tuple} (hnul : NUL ∉ t) (hok : TupleOK r t) {res : Option Nat}
    (hres : addToRelation hash r t = some (r2, res)) :
    RelnWF r2 ∧ (Addressed hash r → Addressed hash r2) ∧ r2.nattrs = r.nattrs := by
  obtain ⟨u1, u2⟩ := addToRelation_run hash hres
  by_cases hs : splitDue r
  · obtain ⟨r1, hsp, hadd⟩ := u1 hs
    obtain ⟨ch, hch⟩ := hwf
    obtain ⟨r3, g1, g2, _, _, g5, _, _, _, g9⟩ := pageSplit_spec hash hch
    rw [hsp] at g1
    cases g1
    have hok1 : TupleOK r1 t := by unfold TupleOK at hok ⊢; rw [g5]; exact hok
    obtain ⟨k1, k2, k3⟩ := addTupleToRelation_any hash g2 hnul hok1 hadd
    exact ⟨k1, fun ha => k2 (g9 ha), by rw [k3, g5]⟩
  · exact addTupleToRelation_any hash hwf hnul hok (u2 hs)

theorem ReachableBy.wf_addressed {hash : List Char → Nat} {r0 r : Reln} (h : ReachableBy hash r0 r)
    (hwf : RelnWF r0) (ha : Addressed hash r0) :
    RelnWF r ∧ Addressed hash r ∧ r.nattrs = r0.nattrs := by
  induction h with
  | init => exact ⟨hwf, ha, rfl⟩
  | @step ra rb t res _ hnul hok hstep ih =>
    obtain ⟨i1, i2, i3⟩ := ih
    obtain ⟨k1, k2, k3⟩ := addToRelation_any hash i1 hnul hok hstep
    exact ⟨k1, k2 i2, by rw [k3, i3]⟩

theorem ReachableBy.of_run (hash : List Char → Nat) (r0 : Reln) (ts : List Tuple) :
    ∀ (r r2 : Reln), ReachableBy hash r0 r → RelnWF r → (∀ t ∈ ts, NUL ∉ t ∧ TupleOK r t) →
      insertAll hash r ts = some r2 → ReachableBy hash r0 r2 := by
  induction ts with
  | nil =>
    intro r r2 hr _ _ h
    simp only [insertAll, Option.some.injEq] at h
    subst h
    exact hr
  | cons t ts ih =>
    intro r r2 hr hwf hts h
    obtain ⟨hnul, hok⟩ := hts t (by simp)
    simp only [insertAll] at h
    split at h
    · rename_i r1 p hadd
      obtain ⟨k1, _, k3⟩ := addToRelation_any hash hwf hnul hok hadd
      refine ih r1 r2 (ReachableBy.step hr hnul hok hadd) k1 (fun u hu => ?_) h
      obtain ⟨b1, b2⟩ := hts u (by simp [hu])
      refine ⟨b1, ?_⟩
      unfold TupleOK at b2 ⊢
      rw [k3]; exact b2
    · cases h

/-- A hash addressed to bucket `sp` is addressed, after the split pointer
advances, to bucket `sp` or to the new bucket `2^d + sp`. -/
theorem bucketOf_split (h d sp : Nat) (hsp : sp < 2 ^ d) (he : bucketOf h d sp = sp) :
    bucketOf h (advance d sp).1 (advance d sp).2 = sp ∨
      bucketOf h (advance d sp).1 (advance d sp).2 = 2 ^ d + sp := by
  have hmod : h % 2 ^ d < 2 ^ d := Nat.mod_lt _ (Nat.two_pow_pos d)
  have hcases := mod_two_pow_succ h d
  by_cases hd : d = 0
  · subst hd
    simp only [Nat.pow_zero, Nat.lt_one_iff] at hsp
    subst hsp
    have hm1 : h % 2 ^ 0 = 0 := by rw [Nat.pow_zero]; exact Nat.mod_one h
    rw [hm1] at hcases
    have ha : advance 0 0 = (1, 0) := by decide
    rw [ha]
    unfold bucketOf getLower
    simp only [Nat.succ_ne_zero, if_false, Nat.not_lt_zero, Nat.pow_zero, Nat.add_zero]
    simpa using hcases
  · have hp : h % 2 ^ d = sp := by
      unfold bucketOf getLower at he
      simp only [hd, if_false] at he
      split at he
      · omega
      · exact he
    unfold advance
    split
    · unfold bucketOf getLower
      simp only [Nat.succ_ne_zero, if_false, Nat.not_lt_zero]
      omega
    · unfold bucketOf getLower
      have : h % 2 ^ d < sp + 1 := by omega
      simp only [hd, if_false, this, if_true]
      omega

theorem exQueryGarbage_start :
    startQuery exHash (fun _ => true) exRelOne exTuple = some exQueryGarbage := rfl

/-- The split threshold when `10 * nattrs` does not wrap around. -/
theorem timeToSplit_small {n : Nat} (hn : n < 429496730) :
    timeToSplit n = 1024 / (10 * n) := by
  unfold timeToSplit
  rw [Nat.mod_eq_of_lt (by omega)]

theorem addToRelation_defined (hash : List Char → Nat) (r : Reln) (t : Tuple)
    (h1 : (10 * r.nattrs) % 2 ^ 32 ≠ 0) (h2 : timeToSplit r.nattrs ≠ 0) :
    addToRelation hash r t =
      if r.ntups ≠ 0 ∧ r.ntups % timeToSplit r.nattrs = 0 then
        (pageSplit hash r).bind (fun r1 => addTupleToRelation hash r1 t)
      else addTupleToRelation hash r t := by
  unfold addToRelation
  simp only [nattrs, h1, h2, if_false]
  by_cases hz : r.ntups ≠ 0
  · by_cases hm : r.ntups % timeToSplit r.nattrs = 0
    · rw [if_pos hz, if_pos hm, if_pos ⟨hz, hm⟩]
      cases pageSplit hash r <;> rfl
    · rw [if_pos hz, if_neg hm, if_neg (fun hc => hm hc.2)]
  · rw [if_neg hz, if_neg (fun hc => hz hc.1)]

/-- C11 (the code departs from the claim): the relation `exRelB`, reached from
the relation created with one attribute by two insertions of a tuple of 1011
bytes, has a full primary page of bucket 0 linked to the full overflow page 0.
The insertion of a tuple of 1012 bytes fails with `NO_PAGE` after the empty
page 1 has been appended to the overflow file, and the chain of bucket 0 is
still page 0 alone: page 1 is reached from no link. -/
theorem c11_failed_insert_leaves_unlinked_page :
    addToRelation exHash exRel exMax = some (exRelA, some 0) ∧
      addToRelation exHash exRelA exMax = some (exRelB, some 0) ∧
      addTupleToRelation exHash exRelB exLong = some (exRelC, NO_PAGE) ∧
      exRelC.ovflow.length = exRelB.ovflow.length + 1 ∧
      exRelC.ovflow[exRelB.ovflow.length]? = some newPage ∧
      ∃ pg, exRelC.data[0]? = some pg ∧ pg.ovflow ≠ none ∧
        ∀ ids, IsChain (links exRelC.ovflow) pg.ovflow ids ↔ ids = [0] := by
  obtain ⟨ch, hch⟩ := exRelB_wf
  obtain ⟨hv, hhv⟩ := tupleHash_isSome exHash (r := exRelB) (fun _ _ => Nat.zero_lt_one)
    exLong_ok.2.1
  have hfail := insert_fail_with_chain exHash hch exLong_ok.1 exLong_ok.2.1
    (by have := exLong_ok.2.2; omega) hhv (show exRelB.data[bucketOf hv exRelB.depth exRelB.sp]? =
      some (pageSetOvflow exPageMax (some 0)) from rfl) (by simp [pageSetOvflow])
  have hc : IsChain (links exRelC.ovflow) (some 0) [0] := ⟨rfl, none, rfl, rfl⟩
  refine ⟨exRelA_insert, exRelB_insert, hfail, rfl, rfl, pageSetOvflow exPageMax (some 0), rfl,
    by simp [pageSetOvflow], fun ids => ⟨fun hi => IsChain.ids_unique hi hc, fun e => ?_⟩⟩
  rw [e]
  exact hc

/-- C12: on a well-formed relation with overflow chains `ch`, the insertion of
a tuple `t` of the relation that fits an empty page succeeds in the selected
bucket `p`.  The primary pages of the other buckets and the overflow pages
outside the chain of `p` are kept.  The tuple is appended to the tuples of the
first page with room (free space at least `len(t)+1`) in the order primary
page, then chain `ch p`, and then no page is added to the overflow file; when
no page of the bucket has room, exactly one page is appended to the overflow
file, it holds `t` alone and the last page of the bucket (the primary page when
the chain is empty) is linked to it.  In particular a tuple with
`len(t)+1 = free_space(primary)` is stored on the primary page and the overflow
file is unchanged, and a tuple one byte longer on a bucket without chain is
stored on a new overflow page linked from the primary page. -/
theorem c12_first_page_with_room (hash : List Char → Nat) (r : Reln) (ch : Nat → List Nat)
    (t : Tuple) (h : WFWith r ch) (hnul : NUL ∉ t) (hok : TupleOK r t)
    (hfit : t.length + 1 ≤ PAGESIZE - hdr_size) :
    ∃ r2 p pg0, addTupleToRelation hash r t = some (r2, some p) ∧ p < r.npages ∧
      r.data[p]? = some pg0 ∧
      (∀ b, b ≠ p → r2.data[b]? = r.data[b]?) ∧
      (∀ i, i < r.ovflow.length → i ∉ ch p → r2.ovflow[i]? = r.ovflow[i]?) ∧
      ((roomFor t pg0 ∧ r2.ovflow = r.ovflow ∧
          ∃ pg1, r2.data[p]? = some pg1 ∧ pageTuples pg1 = pageTuples pg0 ++ [t] ∧
            pg1.ovflow = pg0.ovflow) ∨
        (¬ roomFor t pg0 ∧ r2.data = r.data ∧
          ∃ l1 i l2 pgi pg1, ch p = l1 ++ i :: l2 ∧
            (∀ j ∈ l1, ∀ pgj, r.ovflow[j]? = some pgj → ¬ roomFor t pgj) ∧
            r.ovflow[i]? = some pgi ∧ roomFor t pgi ∧ r2.ovflow = r.ovflow.set i pg1 ∧
            pageTuples pg1 = pageTuples pgi ++ [t] ∧ pg1.ovflow = pgi.ovflow) ∨
        (¬ roomFor t pg0 ∧
          (∀ j ∈ ch p, ∀ pgj, r.ovflow[j]? = some pgj → ¬ roomFor t pgj) ∧
          r2.ovflow.length = r.ovflow.length + 1 ∧
          (∃ q, r2.ovflow[r.ovflow.length]? = some q ∧ pageTuples q = [t] ∧ q.ovflow = none) ∧
          ((ch p = [] ∧ r2.data[p]? = some (pageSetOvflow pg0 (some r.ovflow.length))) ∨
            (∃ init last pgl, ch p = init ++ [last] ∧ r.ovflow[last]? = some pgl ∧
              pgl.ovflow = none ∧ r2.data = r.data ∧
              r2.ovflow[last]? = some (pageSetOvflow pgl (some r.ovflow.length)) ∧
              ∀ j, j < r.ovflow.length → j ≠ last → r2.ovflow[j]? = r.ovflow[j]?)))) ∧
      (t.length + 1 = pageFreeSpace pg0 → r2.ovflow = r.ovflow ∧
        ∃ pg1, r2.data[p]? = some pg1 ∧ pageTuples pg1 = pageTuples pg0 ++ [t]) ∧
      (t.length + 1 = pageFreeSpace pg0 + 1 → pg0.ovflow = none →
        r2.ovflow.length = r.ovflow.length + 1 ∧
        r2.data[p]? = some (pageSetOvflow pg0 (some r.ovflow.length)) ∧
        ∃ q, r2.ovflow[r.ovflow.length]? = some q ∧ pageTuples q = [t]) := by
  obtain ⟨hv, hhv, r2, hok2, _⟩ := addTupleToRelation_spec hash h hnul hok
  obtain ⟨hres, _⟩ := hok2 hfit
  obtain ⟨hv2, pg0, hhv2, hpg, hcase⟩ := addTupleToRelation_inv hash h.to_linear hres
  rw [hhv] at hhv2
  cases hhv2
  have hp := h.bucketOf_lt_npages hv
  have hplt : bucketOf hv r.depth r.sp < r.data.length := getElem?_lt hpg
  refine ⟨r2, _, pg0, hres, hp, hpg, ?_⟩
  generalize bucketOf hv r.depth r.sp = p at *
  have hchain0 := h.chain p pg0 hpg
  suffices hmain : (∀ b, b ≠ p → r2.data[b]? = r.data[b]?) ∧
      (∀ i, i < r.ovflow.length → i ∉ ch p → r2.ovflow[i]? = r.ovflow[i]?) ∧
      ((roomFor t pg0 ∧ r2.ovflow = r.ovflow ∧
          ∃ pg1, r2.data[p]? = some pg1 ∧ pageTuples pg1 = pageTuples pg0 ++ [t] ∧
            pg1.ovflow = pg0.ovflow) ∨
        (¬ roomFor t pg0 ∧ r2.data = r.data ∧
          ∃ l1 i l2 pgi pg1, ch p = l1 ++ i :: l2 ∧
            (∀ j ∈ l1, ∀ pgj, r.ovflow[j]? = some pgj → ¬ roomFor t pgj) ∧
            r.ovflow[i]? = some pgi ∧ roomFor t pgi ∧ r2.ovflow = r.ovflow.set i pg1 ∧
            pageTuples pg1 = pageTuples pgi ++ [t] ∧ pg1.ovflow = pgi.ovflow) ∨
        (¬ roomFor t pg0 ∧
          (∀ j ∈ ch p, ∀ pgj, r.ovflow[j]? = some pgj → ¬ roomFor t pgj) ∧
          r2.ovflow.length = r.ovflow.length + 1 ∧
          (∃ q, r2.ovflow[r.ovflow.length]? = some q ∧ pageTuples q = [t] ∧ q.ovflow = none) ∧
          ((ch p = [] ∧ r2.data[p]? = some (pageSetOvflow pg0 (some r.ovflow.length))) ∨
            (∃ init last pgl, ch p = init ++ [last] ∧ r.ovflow[last]? = some pgl ∧
              pgl.ovflow = none ∧ r2.data = r.data ∧
              r2.ovflow[last]? = some (pageSetOvflow pgl (some r.ovflow.length)) ∧
              ∀ j, j < r.ovflow.length → j ≠ last → r2.ovflow[j]? = r.ovflow[j]?)))) by
    obtain ⟨m1, m2, m3⟩ := hmain
    refine ⟨m1, m2, m3, ?_, ?_⟩
    · intro heq
      have hroom : roomFor t pg0 := by unfold roomFor; omega
      rcases m3 with ⟨_, a2, pg1, a3, a4, _⟩ | ⟨a1, _⟩ | ⟨a1, _⟩
      · exact ⟨a2, pg1, a3, a4⟩
      · exact absurd hroom a1
      · exact absurd hroom a1
    · intro heq hlink
      have hnoroom : ¬ roomFor t pg0 := by unfold roomFor; omega
      have hchp : ch p = [] := by
        rw [hlink] at hchain0
        exact IsChain.ids_unique hchain0 (show IsChain _ none [] from rfl)
      rcases m3 with ⟨a1, _⟩ | ⟨_, _, l1, i, l2, _, _, a3, _⟩ | ⟨_, _, a3, ⟨q, a4, a5, _⟩, a6⟩
      · exact absurd a1 hnoroom
      · rw [hchp] at a3
        simp at a3
      · rcases a6 with ⟨_, a7⟩ | ⟨init, last, _, a7, _⟩
        · exact ⟨a3, a7, q, a4, a5⟩
        · rw [hchp] at a7
          simp at a7
  have hfull : ∀ {S : List Nat},
      (∀ j ∈ S, ∀ pgj, r.ovflow[j]? = some pgj → addToPage pgj t = none) →
      ∀ j ∈ S, ∀ pgj, r.ovflow[j]? = some pgj → ¬ roomFor t pgj :=
    fun hS j hj pgj hpgj => addToPage_none_iff.mp (hS j hj pgj hpgj)
  cases hcase with
  | primary pg1 hadd =>
    obtain ⟨hh, hov⟩ := addToPage_tuples (h.data_wf p pg0 hpg) hnul hadd
    refine ⟨fun b hb => List.getElem?_set_ne (Ne.symm hb), fun _ _ _ => rfl, Or.inl ?_⟩
    exact ⟨addToPage_room hadd, rfl, pg1, List.getElem?_set_self hplt, pageTuples_of_holds hh, hov⟩
  | first q hadd hlink hchp hnew =>
    obtain ⟨hh, hov⟩ := addToPage_tuples ⟨_, newPage_holds⟩ hnul hnew
    rw [pageTuples_newPage, List.nil_append] at hh
    refine ⟨fun b hb => List.getElem?_set_ne (Ne.symm hb),
      fun i hi _ => List.getElem?_append_left hi, Or.inr (Or.inr ?_)⟩
    refine ⟨addToPage_none_iff.mp hadd, ?_, by simp, ⟨q, by simp, pageTuples_of_holds hh, hov⟩,
      Or.inl ⟨hchp, List.getElem?_set_self hplt⟩⟩
    intro j hj
    rw [hchp] at hj
    cases hj
  | placed l1 i l2 pgi pg1 hadd hids hfull1 hpgi haddi =>
    obtain ⟨hh, hov⟩ := addToPage_tuples (h.ov_wf i pgi hpgi) hnul haddi
    refine ⟨fun _ _ => rfl, ?_, Or.inr (Or.inl ?_)⟩
    · intro j _ hj
      have : i ≠ j := by
        intro e
        apply hj
        rw [hids, ← e]
        simp
      exact List.getElem?_set_ne this
    · exact ⟨addToPage_none_iff.mp hadd, rfl, l1, i, l2, pgi, pg1, hids, hfull hfull1, hpgi,
        addToPage_room haddi, rfl, pageTuples_of_holds hh, hov⟩
  | appended init last pgl q hadd hids hfull1 hpgl hlast hnew =>
    obtain ⟨hh, hov⟩ := addToPage_tuples ⟨_, newPage_holds⟩ hnul hnew
    rw [pageTuples_newPage, List.nil_append] at hh
    have hlastlt : last < r.ovflow.length := getElem?_lt hpgl
    have hget : ∀ j, j < r.ovflow.length → j ≠ last →
        ((r.ovflow ++ [q]).set last (pageSetOvflow pgl (some r.ovflow.length)))[j]? =
          r.ovflow[j]? := by
      intro j hj hjl
      rw [List.getElem?_set_ne (Ne.symm hjl), List.getElem?_append_left hj]
    refine ⟨fun _ _ => rfl, ?_, Or.inr (Or.inr ?_)⟩
    · intro j hjlt hj
      refine hget j hjlt ?_
      intro e
      apply hj
      rw [hids, e]
      simp
    · refine ⟨addToPage_none_iff.mp hadd, hfull hfull1, by simp, ⟨q, ?_, pageTuples_of_holds hh, hov⟩,
        Or.inr ⟨init, last, pgl, hids, hpgl, hlast, rfl, List.getElem?_set_self (by simp; omega),
          hget⟩⟩
      show ((r.ovflow ++ [q]).set last _)[r.ovflow.length]? = some q
      rw [List.getElem?_set_ne (by omega)]
      simp

/-- Witness of C12: a tuple of 1011 bytes goes to the empty primary page of a
new relation, which it fills exactly; the empty tuple, one byte more than the
free space that is left, then goes to a new overflow page. -/
theorem c12_first_page_with_room_witness :
    (∃ r2 pg1, addTupleToRelation exHash exRel exMax = some (r2, some 0) ∧ r2.ovflow = [] ∧
      r2.data[0]? = some pg1 ∧ pageTuples pg1 = [exMax]) ∧
    (∃ r2 q, addTupleToRelation exHash exRelA [] = some (r2, some 0) ∧
      r2.ovflow.length = 1 ∧ r2.data[0]? = some (pageSetOvflow exPageMax (some 0)) ∧
      r2.ovflow[0]? = some q ∧ pageTuples q = [[]]) := by
  constructor
  · obtain ⟨ch, hch⟩ := exRel_wf
    obtain ⟨r2, p, pg0, h1, h2, h3, _, _, _, h7, _⟩ :=
      c12_first_page_with_room exHash exRel ch exMax hch exMax_ok.1 exMax_ok.2.1 exMax_ok.2.2
    have hp : p = 0 := by
      have : p < 1 := h2
      omega
    subst hp
    have hpg : pg0 = newPage := by
      have : exRel.data[0]? = some newPage := rfl
      rw [this] at h3
      cases h3
      rfl
    subst hpg
    obtain ⟨a1, pg1, a2, a3⟩ := h7 (by
      have : exMax.length = 1011 := List.length_replicate _ _
      rw [this]
      decide)
    rw [pageTuples_newPage, List.nil_append] at a3
    exact ⟨r2, pg1, h1, a1, a2, a3⟩
  · obtain ⟨ch, hch⟩ := exRelA_wf
    obtain ⟨r2, p, pg0, h1, h2, h3, _, _, _, _, h8⟩ :=
      c12_first_page_with_room exHash exRelA ch [] hch (by simp) rfl (by decide)
    have hp : p = 0 := by
      have : p < 1 := h2
      omega
    subst hp
    have hpg : pg0 = exPageMax := by
      have : exRelA.data[0]? = some exPageMax := rfl
      rw [this] at h3
      cases h3
      rfl
    subst hpg
    obtain ⟨a1, a2, q, a3, a4⟩ := h8 (by decide) rfl
    exact ⟨r2, q, h1, a1, a2, a3, a4⟩

/-- C14: in every relation state reached from `newRelation` by calls of
`addToRelation` the overflow chains are strictly linear: there is an assignment
`ch` of a list of overflow page ids to every bucket such that following the
links from the primary page of `b` visits exactly `ch b` and then reaches
`NO_PAGE`, no id occurs twice in `ch b`, and `ch b` and `ch c` are disjoint for
`b ≠ c`.  Every call of `addTupleToRelation` and of `pageSplit` that returns
from a state with linear chains leaves a state with linear chains. -/
theorem c14_chains_linear (hash : List Char → Nat) (nattrs npages d : Nat)
    (cv : Option ChVec) (r0 r : Reln) (hnew : newRelation nattrs npages d cv = some r0)
    (hreach : Reachable hash r0 r) :
    (∃ ch, Linear r ch) ∧
      (∀ (r1 r2 : Reln) (ch1 : Nat → List Nat) (t : Tuple) (res : Option Nat), Linear r1 ch1 →
        addTupleToRelation hash r1 t = some (r2, res) → ∃ ch2, Linear r2 ch2) ∧
      (∀ (r1 r3 : Reln) (ch1 : Nat → List Nat), Linear r1 ch1 →
        pageSplit hash r1 = some r3 → ∃ ch3, Linear r3 ch3) := by
  refine ⟨hreach.keeps_linear ⟨_, newRelation_linear hnew⟩, ?_, ?_⟩
  · intro r1 r2 ch1 t res h1 h2
    exact addTupleToRelation_linear hash h1 h2
  · intro r1 r3 ch1 h1 h2
    obtain ⟨ch3, h3, _⟩ := pageSplit_chains hash h1 h2
    exact ⟨ch3, h3⟩

/-- Witness of C14: the relation created with four attributes, one page and
depth 0, after 25 insertions. -/
theorem c14_chains_linear_witness :
    ∃ r, insertAll exHash exRel4 (List.replicate 25 exTuple4) = some r ∧ ∃ ch, Linear r ch := by
  obtain ⟨r, hr⟩ := exRun25
  exact ⟨r, hr, (c14_chains_linear exHash 4 (2 ^ 0) 0 (some exCv4) exRel4 r exRel4_new
    (Reachable.of_insertAll exHash exRel4 _ exRel4 r Reachable.init hr)).1⟩

/-- C16: on a well-formed relation, where `npages = 2^d + sp` and `sp < 2^d`,
one call of `pageSplit` returns; it appends exactly one page to the data file,
whose id is `2^d + sp`, adds exactly 1 to `npages`, and advances the split
pointer exactly once: to `(d, sp + 1)` if `sp + 1 < 2^d` and to `(d + 1, 0)`
if `sp + 1 = 2^d`.  The new state has `npages = 2^d' + sp'` and `sp' < 2^d'`.
The split is the reinsertion, by the loop calling `addTupleToRelation`, of all
the tuples of bucket `sp` into the relation `r2` that already has the new page
and the advanced pointer, and the reinsertion changes none of `npages`, `depth`,
`sp` and the number of primary pages: no further split happens, however many
tuples are reinserted and whatever values `ntups` passes through. -/
theorem c16_split_once (hash : List Char → Nat) (r : Reln) (hwf : RelnWF r) :
    ∃ r3, pageSplit hash r = some r3 ∧
      r3.data.length = r.data.length + 1 ∧ r.data.length = 2 ^ r.depth + r.sp ∧
      r3.npages = r.npages + 1 ∧
      (r.sp + 1 < 2 ^ r.depth → r3.depth = r.depth ∧ r3.sp = r.sp + 1) ∧
      (r.sp + 1 = 2 ^ r.depth → r3.depth = r.depth + 1 ∧ r3.sp = 0) ∧
      r3.npages = 2 ^ r3.depth + r3.sp ∧ r3.sp < 2 ^ r3.depth ∧
      ∃ r2, reinsert hash (bucketTuples r r.sp) (bucketTuples r r.sp).length 0 r2 = some r3 ∧
        r2.npages = r.npages + 1 ∧ (r2.depth, r2.sp) = advance r.depth r.sp ∧
        r2.data.length = r.data.length + 1 ∧
        r2.ntups = r.ntups - (bucketTuples r r.sp).length ∧
        r3.npages = r2.npages ∧ r3.depth = r2.depth ∧ r3.sp = r2.sp ∧
        r3.data.length = r2.data.length := by
  obtain ⟨ch, hch⟩ := hwf
  obtain ⟨r3, hs, hwf3, _⟩ := pageSplit_spec hash hch
  obtain ⟨r2, hre, a1, a2, a3, a4, a5⟩ := pageSplit_as_reinsert hash hch
  rw [hs] at hre
  obtain ⟨b1, b2, b3, _, _⟩ := reinsert_meta hash _ _ _ _ _ hre.symm
  have b4 := reinsert_data_length hash _ _ _ _ _ a5 hre.symm
  have hd : r3.depth = (advance r.depth r.sp).1 := by rw [b1, ← a2]
  have hp : r3.sp = (advance r.depth r.sp).2 := by rw [b2, ← a2]
  obtain ⟨ch3, hch3⟩ := hwf3
  refine ⟨r3, hs, by rw [b4, a3], by rw [hch.data_len, hch.npages_eq], by rw [b3, a1], ?_, ?_,
    hch3.npages_eq, hch3.sp_lt, r2, hre.symm, a1, a2, a3, a4, b3, b1, b2, b4⟩
  · intro hlt
    have hne : ¬ (r.sp + 1 = 2 ^ r.depth) := by omega
    rw [hd, hp]
    unfold advance
    rw [if_neg hne]
    exact ⟨rfl, rfl⟩
  · intro heq
    rw [hd, hp]
    unfold advance
    rw [if_pos heq]
    exact ⟨rfl, rfl⟩

/-- Witness of C16: the split of the relation holding 25 copies of `a,b,c,d`
in bucket 0, with split threshold 25: the 25 reinsertions take `ntups` from 0
to the threshold and the relation ends with two pages, depth 1 and `sp = 0`. -/
theorem c16_split_once_witness :
    ∃ r, insertAll exHash exRel4 (List.replicate 25 exTuple4) = some r ∧
      ∃ r3, pageSplit exHash r = some r3 ∧ r3.npages = 2 ∧ r3.depth = 1 ∧ r3.sp = 0 := by
  obtain ⟨r, hr⟩ := exRun25
  obtain ⟨hwf, _⟩ := insertAll_spec exHash _ exRel4 r exRel4_wf
    (fun u hu => by rw [List.eq_of_mem_replicate hu]; exact ⟨exTuple4_ok.1, exTuple4_ok.2.1⟩) hr
  obtain ⟨h1, h2⟩ := created_run_pages exHash exCv4_ok exRel4_new exRun25_fields hr
  have hz : ((List.replicate 25 exTuple4).length - 1) / timeToSplit 4 = 0 := by decide
  rw [hz] at h1 h2
  simp only [advanceTimes, Prod.mk.injEq] at h2
  obtain ⟨r3, g1, _, _, g4, _, g6, _⟩ := c16_split_once exHash r hwf
  obtain ⟨g7, g8⟩ := g6 (by rw [h2.1, h2.2]; rfl)
  exact ⟨r, hr, r3, g1, by rw [g4, h1]; rfl, by rw [g7, h2.1], g8⟩

/-- C17 (the code departs from the claim): in the relation `exRelB` the chain
of bucket `sp = 0` is the overflow page 0.  `pageSplit` returns, page 0 is
still in the overflow file, and afterwards no primary page reaches it: the
cleared primary page of bucket 0 was written with the link `NO_PAGE`, the value
that `ovfPageID` has after the counting loop. -/
theorem c17_split_unlinks_old_chain :
    exRelB.sp = 0 ∧
      (∃ pg, exRelB.data[0]? = some pg ∧ IsChain (links exRelB.ovflow) pg.ovflow [0]) ∧
      ∃ r3, pageSplit exHash exRelB = some r3 ∧ 0 < r3.ovflow.length ∧
        ∀ (b : Nat) (pg : Page) (ids : List Nat), r3.data[b]? = some pg →
          IsChain (links r3.ovflow) pg.ovflow ids → 0 ∉ ids := by
  obtain ⟨ch, hch⟩ := exRelB_wf
  have hc : IsChain (links exRelB.ovflow) (some 0) [0] := ⟨rfl, none, rfl, rfl⟩
  have hch0 : ch exRelB.sp = [0] :=
    IsChain.ids_unique (hch.chain 0 (pageSetOvflow exPageMax (some 0)) rfl) hc
  obtain ⟨r3, hs, _⟩ := pageSplit_spec exHash hch
  have horph := pageSplit_orphans exHash hch.to_linear (by decide) hs 0 (by rw [hch0]; simp)
  exact ⟨rfl, ⟨_, rfl, hc⟩, r3, hs, horph.1, horph.2⟩

/-- C18: in every relation state reached from a creation with
`npages0 = 2^depth0` by calls of `addToRelation` on tuples of the relation,
whatever they return, every tuple `t` stored in the primary page or the overflow
chain of a bucket `B` has `B = bucket(H(t), d, sp)` for the current `(d, sp)`,
with `bucket` the selection rule of `addTupleToRelation`.  A split keeps this:
under the advanced `(d', sp')` a hash addressed to a bucket other than `sp`
keeps its address, and a hash addressed to bucket `sp` is addressed to `sp` or
to the new bucket `2^d + sp`. -/
theorem c18_addressing_invariant (hash : List Char → Nat) (nattrs d : Nat) (cv : ChVec)
    (r0 r : Reln) (hcv : ∀ k, k < MAXCHVEC → (cv k).att < nattrs)
    (hnew : newRelation nattrs (2 ^ d) d (some cv) = some r0)
    (hreach : ReachableBy hash r0 r) :
    (∀ B, B < r.npages → ∀ t ∈ bucketTuples r B,
      ∃ H, tupleHash hash r t = some H ∧ B = bucketOf H r.depth r.sp) ∧
    (∀ H e sp, sp < 2 ^ e → bucketOf H e sp ≠ sp →
      bucketOf H (advance e sp).1 (advance e sp).2 = bucketOf H e sp) ∧
    (∀ H e sp, sp < 2 ^ e → bucketOf H e sp = sp →
      bucketOf H (advance e sp).1 (advance e sp).2 = sp ∨
        bucketOf H (advance e sp).1 (advance e sp).2 = 2 ^ e + sp) := by
  obtain ⟨hwf0, _, hb0⟩ := newRelation_wf hcv rfl hnew
  obtain ⟨_, ha, _⟩ := hreach.wf_addressed ⟨_, hwf0⟩ (Addressed.of_empty hb0)
  refine ⟨fun B hB t ht => ?_, bucketOf_advance, bucketOf_split⟩
  obtain ⟨H, h1, h2⟩ := ha B hB t ht
  exact ⟨H, h1, h2.symm⟩

/-- Witness of C18: the relation created with four attributes, one page and
depth 0, after 25 insertions. -/
theorem c18_addressing_invariant_witness :
    ∃ r, insertAll exHash exRel4 (List.replicate 25 exTuple4) = some r ∧
      ∀ B, B < r.npages → ∀ t ∈ bucketTuples r B,
        ∃ H, tupleHash exHash r t = some H ∧ B = bucketOf H r.depth r.sp := by
  obtain ⟨r, hr⟩ := exRun25
  exact ⟨r, hr, (c18_addressing_invariant exHash 4 0 exCv4 exRel4 r exCv4_ok exRel4_new
    (ReachableBy.of_run exHash exRel4 _ exRel4 r ReachableBy.init exRel4_wf
      exRun25_fields hr)).1⟩

/-- C19 (the code departs from the claim): `startQuery` writes `unknownAttMap`
for the wildcard attributes only and reads it for every attribute.  On the
relation with one attribute and the pattern `a`, whose only field is known,
when the block from `malloc` holds non-zero words every bit of `unknown` is set
and `known` is 0, where the claim has bit 0 of `unknown` clear and bit 0 of
`known` equal to bit 0 of the hash of `a`, which is 1. -/
theorem c19_unknown_map_uninitialised :
    startQuery exHash (fun _ => true) exRelOne exTuple = some exQueryGarbage ∧
      (tupleVals exTuple)[(exRelOne.cv 0).att]? = some ['a'] ∧
      exQueryGarbage.unknown.testBit 0 = true ∧
      exQueryGarbage.known.testBit 0 = false ∧
      (exHash ['a']).testBit (exRelOne.cv 0).bit = true :=
  ⟨exQueryGarbage_start, rfl, by decide, by decide, by decide⟩

/-- C20 (as the code has it): for `nattrs < 429496730`, where `10 * nattrs` does
not wrap around in 32 bits, the split threshold `1024 / (10 * nattrs)` of
`addToRelation` is non-zero if and only if `1 <= nattrs <= 102`.  For those
relations the test is defined: `addToRelation` is `addTupleToRelation`, after
`pageSplit` when `ntups` is a non-zero multiple of the threshold.  For
`103 <= nattrs` the threshold is 0: a call with `ntups = 0` does not evaluate
the remainder, and a call with `ntups != 0` takes a remainder modulo zero and
has no result.  For `nattrs = 0` the division itself is by zero. -/
theorem c20_threshold_nonzero (n : Nat) (hn : n < 429496730) :
    timeToSplit n = 1024 / (10 * n) ∧
    (timeToSplit n ≠ 0 ↔ 1 ≤ n ∧ n ≤ 102) ∧
    (1 ≤ n → n ≤ 102 → ∀ (hash : List Char → Nat) (r : Reln) (t : Tuple), r.nattrs = n →
      addToRelation hash r t =
        if r.ntups ≠ 0 ∧ r.ntups % (1024 / (10 * n)) = 0 then
          (pageSplit hash r).bind (fun r1 => addTupleToRelation hash r1 t)
        else addTupleToRelation hash r t) ∧
    (103 ≤ n → timeToSplit n = 0 ∧
      ∀ (hash : List Char → Nat) (r : Reln) (t : Tuple), r.nattrs = n →
        (r.ntups = 0 → addToRelation hash r t = addTupleToRelation hash r t) ∧
        (r.ntups ≠ 0 → addToRelation hash r t = none)) ∧
    (n = 0 → ∀ (hash : List Char → Nat) (r : Reln) (t : Tuple), r.nattrs = n →
      addToRelation hash r t = none) := by
  have hT := timeToSplit_small hn
  have hmod : (10 * n) % 2 ^ 32 = 10 * n := Nat.mod_eq_of_lt (by omega)
  have hiff : timeToSplit n ≠ 0 ↔ 1 ≤ n ∧ n ≤ 102 := by
    rw [hT]
    constructor
    · intro h
      have hpos : 0 < 10 * n := by
        rcases Nat.eq_zero_or_pos (10 * n) with hz | hp
        · rw [hz] at h
          simp at h
        · exact hp
      have hle : 10 * n ≤ 1024 := by
        by_contra hc
        exact h (Nat.div_eq_of_lt (by omega))
      omega
    · rintro ⟨h1, h2⟩
      have : 0 < 1024 / (10 * n) := Nat.div_pos (by omega) (by omega)
      omega
  refine ⟨hT, hiff, ?_, ?_, ?_⟩
  · intro h1 h2 hash r t hr
    have hne : timeToSplit r.nattrs ≠ 0 := by rw [hr]; exact hiff.mpr ⟨h1, h2⟩
    have hm : (10 * r.nattrs) % 2 ^ 32 ≠ 0 := by rw [hr, hmod]; omega
    rw [addToRelation_defined hash r t hm hne, hr, hT]
  · intro h103
    have hz : timeToSplit n = 0 := by
      by_contra hc
      have := hiff.mp hc
      omega
    refine ⟨hz, fun hash r t hr => ⟨fun h0 => ?_, fun h0 => ?_⟩⟩
    · unfold addToRelation
      have hm : ¬ (10 * r.nattrs) % 2 ^ 32 = 0 := by rw [hr, hmod]; omega
      simp only [nattrs, hm, if_false, h0, ne_eq, not_true_eq_false]
    · unfold addToRelation
      have hm : ¬ (10 * r.nattrs) % 2 ^ 32 = 0 := by rw [hr, hmod]; omega
      simp only [nattrs, hm, if_false, h0, ne_eq, not_false_eq_true, if_true, hr, hz, ite_self]
  · intro h0 hash r t hr
    unfold addToRelation
    have hm : (10 * r.nattrs) % 2 ^ 32 = 0 := by rw [hr, h0]; rfl
    simp only [nattrs, hm, if_true]

/-- Witness of C20: four attributes, threshold 25. -/
theorem c20_threshold_nonzero_witness : timeToSplit 4 = 1024 / (10 * 4) ∧ timeToSplit 4 ≠ 0 :=
  ⟨(c20_threshold_nonzero 4 (by decide)).1,
    (c20_threshold_nonzero 4 (by decide)).2.1.mpr ⟨by decide, by decide⟩⟩

/-- C20 (the claim as written fails): with `nattrs = 429496730 >= 103` the
product `10 * nattrs` wraps around to 4 in 32 bits and the threshold is 256,
not 0. -/
theorem c20_threshold_wraps :
    103 ≤ 429496730 ∧ (10 * 429496730) % 2 ^ 32 = 4 ∧ timeToSplit 429496730 = 256 ∧
      ¬ (timeToSplit 429496730 ≠ 0 ↔ 1 ≤ 429496730 ∧ 429496730 ≤ 102) := by
  refine ⟨by decide, by decide, by decide, ?_⟩
  intro h
  have := h.mp (by decide)
  omega

/-! ## The scan and the entries that `getTupleInPage` releases -/

/-- On an empty page `getTupleInPage` has no result as soon as the relation has
an attribute: it stores no string in `tupleList` and releases `nattrs` entries. -/
theorem getTupleInPage_newPage (q : Query) (h : 0 < nattrs q.rel) :
    getTupleInPage q newPage = none := by
  have h0 : PAGESIZE - pageFreeSpace newPage - hdr_size = 0 := by decide
  have h1 : pageNTuples newPage - q.curtupReaded = 0 := by
    show 0 - q.curtupReaded = 0
    exact Nat.zero_sub _
  unfold getTupleInPage
  simp only [h0, h1]
  have h2 : dataTotupleList (List.drop q.curtup (pageData newPage)) 0 = [] := by
    unfold dataTotupleList
    cases List.drop q.curtup (pageData newPage) <;> rfl
  rw [h2]
  simp only [getTupleInPageLoop, freeVals, List.length_nil]
  rw [if_neg (by omega)]

theorem scanAll_none {q : Query} (h : getNextTuple q = none) : ∀ n, scanAll n q = none := by
  intro n
  cases n with
  | zero => rfl
  | succ n => simp only [scanAll, h]

theorem exRelTwo_insert : insertAll exHash exRelTwo [exTuple] = some exRelTwoOne := rfl

theorem exQueryTwo_start :
    startQuery exHash (fun _ => false) exRelTwoOne ['?'] = some exQueryTwo := rfl

theorem exQueryTwo_next : getNextTuple exQueryTwo = none := rfl

theorem exRelPair_insert : insertAll exHash exRelPair [exTuplePair] = some exRelPairOne := rfl

theorem exQueryPairWild_start :
    startQuery exHash (fun _ => false) exRelPairOne ['?', ',', 'b'] = some exQueryPairWild := rfl

theorem exQueryPairWild_next : getNextTuple exQueryPairWild = none := rfl

theorem exQueryPairMiss_start :
    startQuery exHash (fun _ => false) exRelPairOne ['a', ',', 'c'] = some exQueryPairMiss := rfl

theorem exQueryPairMiss_next : getNextTuple exQueryPairMiss = none := rfl

/-- C3 (the code departs from the claim): the relation created with one
attribute, two pages and depth 1 receives the tuple `a` in bucket 1, and the
page of bucket 0 stays empty.  The scan for the all-wildcard pattern `?` reads
bucket 0 first; there `getTupleInPage` stores no string in `tupleList` and, at
the end of the page, releases `nattrs = 1` entries of it: the first call of
`getNextTuple` has no result, so no number of calls returns the inserted
tuple. -/
theorem c3_wildcard_scan_no_result :
    newRelation 1 (2 ^ 1) 1 (some exCv) = some exRelTwo ∧
      insertAll exHash exRelTwo [exTuple] = some exRelTwoOne ∧
      startQuery exHash (fun _ => false) exRelTwoOne ['?'] = some exQueryTwo ∧
      suitable exQueryTwo 0 = true ∧ exRelTwoOne.data[0]? = some newPage ∧
      stringsAt newPage 0 = [] ∧ freeVals (stringsAt newPage 0) (nattrs exRelTwoOne) = none ∧
      getTupleInPage exQueryTwo newPage = none ∧
      getNextTuple exQueryTwo = none ∧ ∀ n, scanAll n exQueryTwo = none :=
  ⟨rfl, exRelTwo_insert, exQueryTwo_start, by decide, rfl, by decide, by decide,
    getTupleInPage_newPage exQueryTwo (by decide), exQueryTwo_next,
    scanAll_none exQueryTwo_next⟩

/-- C4 (the code departs from the claim): the relation created with two
attributes, two pages and depth 1 receives the tuple `a,b` in bucket 1.  The
pattern `?,b` agrees with the tuple on its known field and bucket 1 passes the
suitability test, but so does bucket 0, whose page is empty: there
`getTupleInPage` releases `nattrs = 2` entries of a `tupleList` that holds
none, and the first call of `getNextTuple` has no result.  The scan never
reaches the bucket of the tuple. -/
theorem c4_scan_no_result_before_bucket :
    newRelation 2 (2 ^ 1) 1 (some exCv2) = some exRelPair ∧
      insertAll exHash exRelPair [exTuplePair] = some exRelPairOne ∧
      exTuplePair ∈ bucketTuples exRelPairOne 1 ∧
      startQuery exHash (fun _ => false) exRelPairOne ['?', ',', 'b'] = some exQueryPairWild ∧
      (tupleVals ['?', ',', 'b'])[0]? = some ['?'] ∧
      (tupleVals ['?', ',', 'b'])[1]? = (tupleVals exTuplePair)[1]? ∧
      suitable exQueryPairWild 1 = true ∧ suitable exQueryPairWild 0 = true ∧
      exRelPairOne.data[0]? = some newPage ∧
      getTupleInPage exQueryPairWild newPage = none ∧
      getNextTuple exQueryPairWild = none ∧ ∀ n, scanAll n exQueryPairWild = none :=
  ⟨rfl, exRelPair_insert, by decide, exQueryPairWild_start, rfl, rfl, by decide, by decide, rfl,
    getTupleInPage_newPage exQueryPairWild (by decide), exQueryPairWild_next,
    scanAll_none exQueryPairWild_next⟩

/-- C15 (the code departs from the claim): on the relation `exRelPairOne`,
whose bucket 1 holds the tuple `a,b`, the reference sequence for the pattern
`a,c` is empty, so by the claim the first call of `getNextTuple` returns
`NULL`.  The scan skips bucket 0 and reads the page of bucket 1, where
`getTupleInPage` stores one string in `tupleList`, finds no match and releases
`nattrs = 2` entries: the call has no result, and no number of calls returns
the reference sequence. -/
theorem c15_scan_no_result_at_page_end :
    insertAll exHash exRelPair [exTuplePair] = some exRelPairOne ∧
      startQuery exHash (fun _ => false) exRelPairOne ['a', ',', 'c'] = some exQueryPairMiss ∧
      specScan exRelPairOne (suitable exQueryPairMiss) (tupleVals ['a', ',', 'c']) = [] ∧
      suitable exQueryPairMiss 0 = false ∧ suitable exQueryPairMiss 1 = true ∧
      exRelPairOne.data[1]? = some exPagePair ∧
      stringsAt exPagePair 0 = [exTuplePair] ∧
      matchesQuery exQueryPairMiss.vals (nattrs exRelPairOne) exTuplePair = false ∧
      freeVals (stringsAt exPagePair 0) (nattrs exRelPairOne) = none ∧
      getNextTuple exQueryPairMiss = none ∧
      ∀ n, scanAll n exQueryPairMiss ≠
        some (specScan exRelPairOne (suitable exQueryPairMiss) (tupleVals ['a', ',', 'c'])) := by
  refine ⟨exRelPair_insert, exQueryPairMiss_start, by decide, by decide, by decide, rfl,
    by decide, by decide, by decide, exQueryPairMiss_next, fun n h => ?_⟩
  rw [scanAll_none exQueryPairMiss_next n] at h
  cases h

/-- On a well-formed relation and for a query pattern `P` with one field per
attribute, the tuples returned by the successive calls of `getNextTuple` up to
the first `NULL` are the reference sequence `specScan`, provided that each call
of `getTupleInPage` that reaches the end of a page has stored at least `nattrs`
strings. -/
theorem scan_equals_spec_of_safe (hash : List Char → Nat) (uninit : Nat → Bool) (r : Reln)
    (P : List Char) (hwf : RelnWF r) (hP : (tupleVals P).length = r.nattrs) :
    ∃ q0, startQuery hash uninit r P = some q0 ∧
      (ScanSafe q0 → ∀ n, (specScan r (suitable q0) (tupleVals P)).length < n →
        scanAll n q0 = some (specScan r (suitable q0) (tupleVals P))) := by
  obtain ⟨ch, hch⟩ := hwf
  obtain ⟨q, h1, h2, h3, _, _, h5⟩ := scan_reference hash uninit hch.scanWF hP
  have hnb : 2 ^ depth q.rel + splitp q.rel = q.rel.npages := by rw [h2]; exact hch.nbuckets
  have href := referenceScan_eq_spec hnb (by rw [h2, h3, hP])
  rw [h2, h3] at href
  refine ⟨q, h1, fun hsafe n hn => ?_⟩
  rw [← href] at hn ⊢
  exact h5 hsafe n hn

/-- On the relation created with four pages and depth 2, which holds no tuple,
the first call of the scan for the pattern `a` has no result: bucket 1 passes
the suitability test and its page is empty. -/
theorem exQueryFour_next : getNextTuple exQueryFour = none := rfl

/-- On a well-formed relation `addTupleToRelation` returns for every tuple of
the relation, whether it fits a page or not: it returns `NO_PAGE` exactly when
the tuple is too long for a page, and then leaves `ntups` as it was. -/
theorem addTupleToRelation_total (hash : List Char → Nat) {r : Reln} (hwf : RelnWF r)
    {t : Tuple} (hnul : NUL ∉ t) (hok : TupleOK r t) :
    ∃ r2 res, addTupleToRelation hash r t = some (r2, res) ∧
      (res = NO_PAGE ↔ PAGESIZE - hdr_size < t.length + 1) ∧
      (res = NO_PAGE → r2.ntups = r.ntups) ∧
      (∀ b, res = some b → r2.ntups = r.ntups + 1) := by
  obtain ⟨ch, hch⟩ := hwf
  obtain ⟨hv, _, r2, h1, h2⟩ := addTupleToRelation_spec hash hch hnul hok
  by_cases hfit : t.length + 1 ≤ PAGESIZE - hdr_size
  · obtain ⟨g1, g2⟩ := h1 hfit
    refine ⟨r2, _, g1, ?_, ?_, ?_⟩
    · constructor
      · intro e; cases e
      · intro hlt; omega
    · intro e; cases e
    · intro b _
      have := g2.ntups
      simpa using this
  · have hlt : PAGESIZE - hdr_size < t.length + 1 := by omega
    obtain ⟨g1, g2⟩ := h2 hlt
    refine ⟨r2, _, g1, ?_, ?_, ?_⟩
    · exact ⟨fun _ => hlt, fun _ => rfl⟩
    · intro _
      have := g2.ntups
      simpa using this
    · intro b e; cases e

/-- On a well-formed relation with a non-zero split threshold `addToRelation`
returns for every tuple of the relation, whether it fits a page or not. -/
theorem addToRelation_total (hash : List Char → Nat) {r : Reln} (hwf : RelnWF r) {t : Tuple}
    (hnul : NUL ∉ t) (hok : TupleOK r t) (hT : timeToSplit r.nattrs ≠ 0) :
    ∃ r2 res, addToRelation hash r t = some (r2, res) ∧
      (res = NO_PAGE ↔ PAGESIZE - hdr_size < t.length + 1) ∧
      (res = NO_PAGE → r2.ntups = r.ntups) ∧
      (∀ b, res = some b → r2.ntups = r.ntups + 1) := by
  have hmod : (10 * r.nattrs) % 2 ^ 32 ≠ 0 := by
    intro e
    apply hT
    unfold timeToSplit
    rw [e]
  rw [addToRelation_defined hash r t hmod hT]
  split
  · obtain ⟨ch, hch⟩ := hwf
    obtain ⟨r1, g1, g2, _, _, g5, _, g7, _⟩ := pageSplit_spec hash hch
    have hok1 : TupleOK r1 t := by
      unfold TupleOK at hok ⊢
      rw [g5]; exact hok
    obtain ⟨r2, res, k1, k2, k3, k4⟩ := addTupleToRelation_total hash g2 hnul hok1
    refine ⟨r2, res, ?_, k2, ?_, ?_⟩
    · rw [g1]; exact k1
    · intro e; rw [k3 e, g7]
    · intro b e; rw [k4 b e, g7]
  · exact addTupleToRelation_total hash hwf hnul hok

/-- C7 (as the code has it): for a relation created with `npages0 = 2^d` and
`T_split = floor(1024 / (10 * nattrs)) >= 1`, in every state `r` reached by
calls of `addToRelation` on tuples of the relation, whatever they returned, the
next call returns, for a tuple that fits a page or not.  It splits bucket `sp`
(`pageSplit` runs first, the tuple is then given to `addTupleToRelation` on the
split relation, one page is added and the split pointer advances) exactly when
the number `ntups` of tuples stored before the call is `k * T_split` for some
`k >= 1`, and on no other call (the tuple is then given to `addTupleToRelation`
directly and `npages`, `depth`, `sp` are kept).  The call returns `NO_PAGE`
exactly when the tuple is too long for a page, and then leaves `ntups` as it
was, split or not; otherwise it adds 1 to `ntups`.  When every call so far
stored its tuple (the run `pre`), `ntups = |pre|`, so the call splits exactly
when its number `|pre| + 1` is `k * T_split + 1`, and it leaves
`npages = 2^d + |pre| / T_split`.  In particular, with `nattrs = 4` and `d = 0`
the state after the 25th call of such a run has `depth = 0, sp = 0, npages = 1`,
and the state after the 26th has `depth = 1, sp = 0, npages = 2`. -/
theorem c7_split_when_stored_count_is_multiple (hash : List Char → Nat) (nattrs d : Nat)
    (cv : ChVec) (r0 r : Reln) (t : Tuple)
    (hT : 0 < 1024 / (10 * nattrs))
    (hcv : ∀ k, k < MAXCHVEC → (cv k).att < nattrs)
    (hnew : newRelation nattrs (2 ^ d) d (some cv) = some r0)
    (hreach : ReachableBy hash r0 r)
    (ht : NUL ∉ t ∧ (tupleVals t).length = nattrs) :
    timeToSplit nattrs = 1024 / (10 * nattrs) ∧
    ∃ r2 res, addToRelation hash r t = some (r2, res) ∧
      ((∃ k, 1 ≤ k ∧ r.ntups = k * (1024 / (10 * nattrs))) →
        ∃ r1, pageSplit hash r = some r1 ∧ addTupleToRelation hash r1 t = some (r2, res) ∧
          r2.npages = r.npages + 1 ∧ (r2.depth, r2.sp) = advance r.depth r.sp) ∧
      (¬ (∃ k, 1 ≤ k ∧ r.ntups = k * (1024 / (10 * nattrs))) →
        addTupleToRelation hash r t = some (r2, res) ∧
          r2.npages = r.npages ∧ r2.depth = r.depth ∧ r2.sp = r.sp) ∧
      (res = NO_PAGE ↔ PAGESIZE - hdr_size < t.length + 1) ∧
      (res = NO_PAGE → r2.ntups = r.ntups) ∧
      (∀ b, res = some b → r2.ntups = r.ntups + 1) ∧
      (∀ pre : List Tuple, (∀ u ∈ pre, NUL ∉ u ∧ (tupleVals u).length = nattrs) →
        insertAll hash r0 pre = some r →
        r.ntups = pre.length ∧
        ((∃ k, 1 ≤ k ∧ r.ntups = k * (1024 / (10 * nattrs))) ↔
          ∃ k, 1 ≤ k ∧ pre.length + 1 = k * (1024 / (10 * nattrs)) + 1) ∧
        r2.npages = 2 ^ d + pre.length / (1024 / (10 * nattrs)) ∧
        (nattrs = 4 → d = 0 → pre.length + 1 = 25 →
          r2.depth = 0 ∧ r2.sp = 0 ∧ r2.npages = 1) ∧
        (nattrs = 4 → d = 0 → pre.length + 1 = 26 →
          r2.depth = 1 ∧ r2.sp = 0 ∧ r2.npages = 2)) := by
  obtain ⟨hTeq, hTne⟩ := timeToSplit_eq hT
  obtain ⟨hwf0, _, hb0⟩ := newRelation_wf hcv rfl hnew
  have hn0 : r0.nattrs = nattrs := by
    simp only [newRelation, Option.some.injEq] at hnew
    subst hnew
    rfl
  obtain ⟨hwf, _, hna0⟩ := hreach.wf_addressed ⟨_, hwf0⟩ (Addressed.of_empty hb0)
  have hna : r.nattrs = nattrs := hna0.trans hn0
  have hok : TupleOK r t := by unfold TupleOK; rw [hna]; exact ht.2
  obtain ⟨r2, res, hadd, hres, hfail, hsucc⟩ :=
    addToRelation_total hash hwf ht.1 hok (by rw [hna]; exact hTne)
  obtain ⟨m1, m2, _⟩ := addToRelation_meta hash hadd
  obtain ⟨u1, u2⟩ := addToRelation_run hash hadd
  have hdue : splitDue r ↔ ∃ k, 1 ≤ k ∧ r.ntups = k * (1024 / (10 * nattrs)) := by
    unfold splitDue
    rw [hna, hTeq]
    constructor
    · rintro ⟨a1, a2⟩
      refine ⟨r.ntups / (1024 / (10 * nattrs)), ?_, ?_⟩
      · rcases Nat.eq_zero_or_pos (r.ntups / (1024 / (10 * nattrs))) with hz | hp
        · have := Nat.div_add_mod r.ntups (1024 / (10 * nattrs))
          rw [hz, a2] at this
          simp at this
          exact absurd this.symm a1
        · exact hp
      · have := Nat.div_add_mod r.ntups (1024 / (10 * nattrs))
        rw [a2, Nat.add_zero, Nat.mul_comm] at this
        exact this.symm
    · rintro ⟨k, hk, e⟩
      rw [e]
      refine ⟨?_, Nat.mul_mod_left _ _⟩
      exact Nat.ne_of_gt (Nat.mul_pos (by omega) hT)
  refine ⟨hTeq, r2, res, hadd, ?_, ?_, hres, hfail, hsucc, ?_⟩
  · intro hk
    have hs := hdue.2 hk
    obtain ⟨r1, hsp, hput⟩ := u1 hs
    exact ⟨r1, hsp, hput, m1 hs⟩
  · intro hk
    have hs : ¬ splitDue r := fun hc => hk (hdue.1 hc)
    exact ⟨u2 hs, m2 hs⟩
  · intro pre hpre hins
    obtain ⟨_, _, hnt, _, _, _⟩ := created_run hash hcv hnew hpre hins
    obtain ⟨hnp, hds⟩ := created_run_pages hash hcv hnew hpre hins
    obtain ⟨s1, s2⟩ := div_pred_step (timeToSplit nattrs) pre.length
    have hsd : splitDue r ↔ (pre.length ≠ 0 ∧ pre.length % timeToSplit nattrs = 0) := by
      unfold splitDue
      rw [hnt, hna]
    have hnp2 : r2.npages = 2 ^ d + pre.length / timeToSplit nattrs := by
      by_cases hs : splitDue r
      · rw [(m1 hs).1, hnp, s1 (hsd.1 hs)]; omega
      · rw [(m2 hs).1, hnp, s2 (fun hc => hs (hsd.2 hc))]
    refine ⟨hnt, ?_, by rw [hnp2, hTeq], ?_, ?_⟩
    · rw [hnt]
      constructor
      · rintro ⟨k, hk, e⟩
        exact ⟨k, hk, by rw [e]⟩
      · rintro ⟨k, hk, e⟩
        exact ⟨k, hk, by omega⟩
    · intro e4 e0 e25
      subst e4 e0
      have hl : pre.length = 24 := by omega
      have hs : ¬ splitDue r := by
        rw [hsd, hl]
        decide
      obtain ⟨n1, n2, n3⟩ := m2 hs
      rw [hl] at hnp hds
      have hz : (24 - 1) / timeToSplit 4 = 0 := by decide
      rw [hz] at hnp hds
      simp only [advanceTimes, Prod.mk.injEq] at hds
      rw [n1, n2, n3, hnp, hds.1, hds.2]
      exact ⟨rfl, rfl, rfl⟩
    · intro e4 e0 e26
      subst e4 e0
      have hl : pre.length = 25 := by omega
      have hs : splitDue r := by
        rw [hsd, hl]
        decide
      obtain ⟨n1, n2⟩ := m1 hs
      rw [hl] at hnp hds
      have hz : (25 - 1) / timeToSplit 4 = 0 := by decide
      rw [hz] at hnp hds
      simp only [advanceTimes, Prod.mk.injEq] at hds
      rw [hds.1, hds.2] at n2
      have ha : advance 0 0 = (1, 0) := by decide
      rw [ha] at n2
      simp only [Prod.mk.injEq] at n2
      rw [n1, hnp, n2.1, n2.2]
      exact ⟨rfl, rfl, rfl⟩

theorem exRun102 : ∃ r, insertAll exHash exRel (List.replicate 102 exTuple) = some r :=
  insertAll_exists exHash _ exRel exRel_wf (by decide)
    (fun t ht => by rw [List.eq_of_mem_replicate ht]; exact exTuple_ok)

/-- Witness of C7: on the relation created with four attributes, one page and
depth 0, the first call does not split, and after 25 calls that stored `a,b,c,d`
the 26th call splits and leaves `depth = 1, sp = 0, npages = 2`.  On the
relation created with one attribute, where `T_split = 102`, after 102 calls
that stored `a` a call with a tuple of 1012 bytes returns `NO_PAGE`, yet it has
split, and `ntups` is still 102. -/
theorem c7_split_when_stored_count_is_multiple_witness :
    (∃ r2 res, addToRelation exHash exRel4 exTuple4 = some (r2, res) ∧ r2.npages = 1) ∧
      (∃ r, insertAll exHash exRel4 (List.replicate 25 exTuple4) = some r ∧
        ∃ r2 res, addToRelation exHash r exTuple4 = some (r2, res) ∧
          r2.depth = 1 ∧ r2.sp = 0 ∧ r2.npages = 2) ∧
      ∃ r, insertAll exHash exRel (List.replicate 102 exTuple) = some r ∧
        ∃ r2, addToRelation exHash r exLong = some (r2, NO_PAGE) ∧
          r2.npages = r.npages + 1 ∧ r2.ntups = r.ntups ∧ r2.ntups = 102 := by
  refine ⟨?_, ?_, ?_⟩
  · obtain ⟨_, r2, res, h1, _, h3, _⟩ :=
      c7_split_when_stored_count_is_multiple exHash 4 0 exCv4 exRel4 exRel4 exTuple4
        (by decide) exCv4_ok exRel4_new ReachableBy.init ⟨exTuple4_ok.1, exTuple4_ok.2.1⟩
    refine ⟨r2, res, h1, ?_⟩
    have hno : ¬ ∃ k, 1 ≤ k ∧ exRel4.ntups = k * (1024 / (10 * 4)) := by
      rintro ⟨k, hk, e⟩
      have h25 : 1024 / (10 * 4) = 25 := by decide
      have h0 : exRel4.ntups = 0 := rfl
      rw [h25, h0] at e
      omega
    exact (h3 hno).2.1
  · obtain ⟨r, hr⟩ := exRun25
    have hreach : ReachableBy exHash exRel4 r :=
      ReachableBy.of_run exHash exRel4 _ exRel4 r ReachableBy.init exRel4_wf
        (fun u hu => by
          rw [List.eq_of_mem_replicate hu]
          exact ⟨exTuple4_ok.1, exTuple4_ok.2.1⟩) hr
    obtain ⟨_, r2, res, h1, _, _, _, _, _, h7⟩ :=
      c7_split_when_stored_count_is_multiple exHash 4 0 exCv4 exRel4 r exTuple4
        (by decide) exCv4_ok exRel4_new hreach ⟨exTuple4_ok.1, exTuple4_ok.2.1⟩
    obtain ⟨_, _, _, _, h26⟩ := h7 _ exRun25_fields hr
    exact ⟨r, hr, r2, res, h1, h26 rfl rfl (by simp)⟩
  · obtain ⟨r, hr⟩ := exRun102
    have hfields : ∀ u ∈ List.replicate 102 exTuple, NUL ∉ u ∧ (tupleVals u).length = 1 :=
      fun u hu => by
        rw [List.eq_of_mem_replicate hu]
        exact ⟨exTuple_ok.1, rfl⟩
    have hreach : ReachableBy exHash exRel r :=
      ReachableBy.of_run exHash exRel _ exRel r ReachableBy.init exRel_wf
        (fun u hu => by
          rw [List.eq_of_mem_replicate hu]
          exact ⟨exTuple_ok.1, exTuple_ok.2.1⟩) hr
    obtain ⟨_, r2, res, h1, h2, _, h4, h5, _, h7⟩ :=
      c7_split_when_stored_count_is_multiple exHash 1 0 exCv exRel r exLong
        (by decide) (fun _ _ => Nat.zero_lt_one) exRel_new hreach
        ⟨exLong_ok.1, exLong_ok.2.1⟩
    obtain ⟨hnt, _⟩ := h7 _ hfields hr
    have hlen : (List.replicate 102 exTuple).length = 102 := List.length_replicate _ _
    rw [hlen] at hnt
    have hlong : PAGESIZE - hdr_size < exLong.length + 1 := by
      have := exLong_ok.2.2
      omega
    have hres : res = NO_PAGE := h4.2 hlong
    subst hres
    have h102 : 1024 / (10 * 1) = 102 := by decide
    obtain ⟨r1, _, _, hnp, _⟩ := h2 ⟨1, le_refl 1, by rw [hnt, h102]⟩
    exact ⟨r, hr, r2, h1, hnp, h5 rfl, by rw [h5 rfl, hnt]⟩

end Malh
